import Mathlib

/-!
# builddep: URL classification, per-system selection and config assembly

A shallow embedding of `internal/builddep/builddep.go` (bindown).

Conventions of the embedding

* A Go `string` is a `List Char` (`Str`).  `strings.ToLower` is embedded on
  its ASCII path (byte-wise lower-casing); inputs that are lower-cased are
  taken to be ASCII, where one character is one byte and `len` is the list
  length.
* A Go panic is the outer `none` of an `Option`.
* A nil-able `[]string` argument (the allow-list) is an `Option (List Str)`,
  `none` being the nil slice.
* `slices.SortFunc` (golang.org/x/exp/slices) and the embedded file
  `go_dist_list.txt` are not part of the sources; they are the two fields of
  `Env`.  Theorems hold for every `Env` whose sort returns a sorted
  permutation; `insertionEnv` is the instance used to evaluate the code.
* A Go slice is its backing array with a length (`Slice`), so that a slice
  expression beyond the length, up to the capacity, is embedded as Go runs it.
* The map `systemFiles` is the list of its entries.  A `range` loop over the
  map is a traversal of that list: each iteration of the loops of
  `parseDownloads` touches the bucket of its own key only, so the order of
  the traversal has no effect.  The local `templates` of `parseDownloads` is
  computed and never read; it is left out.
* The types `depGroup`, `bindown.Dependency`, `bindown.Config` and their
  methods are not in the sources. The types are modelled from the spec; the
  methods are the fields of `Methods`, and the theorems on `parseDownloads`,
  `buildConfig` and `addDependency` hold for all of them. Values are
  copied, not shared: a method cannot change a value it is not given.
* A Go map with string keys is the list of its entries, read by the first
  entry of a key (`List.lookup`); a `range` loop over a map is `rangeMap`.
* The GitHub client and `semver.NewVersion` are libraries outside the
  sources; they are the fields of `GitHub`, and the theorem on
  `QueryGitHubRelease` holds for all of them.
-/

namespace Builddep

abbrev Str := List Char

/-! ## Strings -/

/-- The string is made of ASCII characters only. -/
def isASCII (s : Str) : Prop := ∀ c ∈ s, c.toNat < 128

instance (s : Str) : Decidable (isASCII s) := by
  unfold isASCII; infer_instance

/-- Go `strings.ToLower` on an ASCII string: the letters `A` to `Z` become
`a` to `z`, byte for byte. On a string with other characters Go lower-cases
by Unicode and may change the length in bytes; such strings are outside the
embedding: a statement on the OS, the arch or the template that
`parseDownload` derives from a URL is made for `isASCII` URLs. -/
def toLower (s : Str) : Str := s.map Char.toLower

/-- Go `strings.HasPrefix`. -/
def hasPrefix (s pre : Str) : Bool := pre.isPrefixOf s

/-- Go `strings.HasSuffix`. -/
def hasSuffix (s suf : Str) : Bool := suf.isSuffixOf s

/-- Go `strings.Index`: offset of the first occurrence of `sub` in `s`,
`none` standing for the result `-1`. The second argument counts the
characters already passed. -/
def strIndexFrom (sub : Str) : Str → Nat → Option Nat
  | [], n => if sub.isPrefixOf [] then some n else none
  | c :: cs, n => if sub.isPrefixOf (c :: cs) then some n else strIndexFrom sub cs (n + 1)

def strIndex (s sub : Str) : Option Nat := strIndexFrom sub s 0

/-- Go slice expression `s[lo:hi]` on a string; panics (`none`) unless
`0 ≤ lo ≤ hi ≤ len(s)`. -/
def substr (s : Str) (lo hi : Int) : Option Str :=
  if 0 ≤ lo ∧ lo ≤ hi ∧ hi ≤ (s.length : Int) then
    some ((s.drop lo.toNat).take (hi.toNat - lo.toNat))
  else none

/-- Go `strings.ReplaceAll(s, old, new)` for a non-empty `old`: scan left to
right, replacing non-overlapping occurrences. The counter is the number of
characters of a matched occurrence still to be skipped. -/
def replaceAllAux (old new : Str) : Nat → Str → Str
  | _, [] => []
  | k + 1, _ :: cs => replaceAllAux old new k cs
  | 0, c :: cs =>
    if old.isPrefixOf (c :: cs) then new ++ replaceAllAux old new (old.length - 1) cs
    else c :: replaceAllAux old new 0 cs

def replaceAll (s old new : Str) : Str := replaceAllAux old new 0 s

/-- Go `strings.Split(s, sep)` for a one-character separator. -/
def splitOn (sep : Char) : Str → List Str
  | [] => [[]]
  | c :: cs =>
    if c = sep then [] :: splitOn sep cs
    else match splitOn sep cs with
      | [] => [[c]]
      | p :: ps => (c :: p) :: ps

/-! ## Environment: the library sort and the embedded dist list -/

structure Env where
  /-- the lines of the embedded `go_dist_list.txt` (`distSystems()`) -/
  goDists : List Str
  /-- the result of `slices.SortFunc(l, less)` -/
  sortFunc : (α : Type) → (α → α → Bool) → List α → List α

/-- The comparator is a strict weak order. -/
def StrictWeak {α : Type} (less : α → α → Bool) : Prop :=
  (∀ a, less a a = false) ∧
  (∀ a b c, less a b = true → less b c = true → less a c = true) ∧
  (∀ a b c, less a b = false → less b c = false → less a c = false)

/-! ## parseDist, vocabulary tables -/

def parseDist (dist : Str) : Option (Str × Str) :=
  match splitOn '/' dist with
  | [o, a] => some (o, a)
  | _ => none

def systemOs (system : Str) : Option Str := (parseDist system).map Prod.fst

def systemArch (system : Str) : Option Str := (parseDist system).map Prod.snd

structure systemSub where
  val : Str
  normalized : Str
  priority : Int
  idx : Int
deriving DecidableEq, Repr

def forbiddenOS : List Str := ["js".toList]

def forbiddenArch : List Str := ["arm".toList, "wasm".toList]

def distSystems (E : Env) : List Str := E.goDists

/-- The literal with which `osSubs` starts. -/
def osPreamble : List systemSub :=
  [ ⟨"apple-darwin".toList, "darwin".toList, 0, 0⟩,
    ⟨"unknown-linux-gnu".toList, "linux".toList, -1, 0⟩,
    ⟨"unknown-linux-musl".toList, "linux".toList, 0, 0⟩,
    ⟨"pc-windows-msvc".toList, "windows".toList, 0, 0⟩,
    ⟨"pc-windows-gnu".toList, "windows".toList, -1, 0⟩,
    ⟨"apple".toList, "darwin".toList, 0, 0⟩,
    ⟨"osx".toList, "darwin".toList, 0, 0⟩,
    ⟨"macos".toList, "darwin".toList, 0, 0⟩,
    ⟨"mac".toList, "darwin".toList, 0, 0⟩,
    ⟨"windows".toList, "windows".toList, 0, 0⟩,
    ⟨"darwin".toList, "darwin".toList, 0, 0⟩,
    ⟨"win64".toList, "windows".toList, 0, 0⟩,
    ⟨"win".toList, "windows".toList, 0, 0⟩ ]

/-- The literal with which `archSubs` starts. -/
def archPreamble : List systemSub :=
  [ ⟨"amd64".toList, "amd64".toList, 0, 0⟩,
    ⟨"arm64".toList, "arm64".toList, 0, 0⟩,
    ⟨"x86_64".toList, "amd64".toList, 0, 0⟩,
    ⟨"x86_32".toList, "386".toList, 0, 0⟩,
    ⟨"x86".toList, "386".toList, 0, 0⟩,
    ⟨"x64".toList, "amd64".toList, 0, 0⟩,
    ⟨"64bit".toList, "amd64".toList, 0, 0⟩,
    ⟨"64-bit".toList, "amd64".toList, 0, 0⟩,
    ⟨"aarch64".toList, "arm64".toList, 0, 0⟩,
    ⟨"aarch_64".toList, "arm64".toList, 0, 0⟩,
    ⟨"ppcle_64".toList, "ppc64le".toList, 0, 0⟩,
    ⟨"s390x_64".toList, "s390x".toList, 0, 0⟩,
    ⟨"i386".toList, "386".toList, 0, 0⟩ ]

/-- The loop `for _, dist := range systems` shared by `osSubs` and
`archSubs`: `part` is `systemOs` or `systemArch`; a value not yet among the
surfaces is appended, mapped to itself. -/
def extendSubs (part : Str → Option Str) : List systemSub → List Str → Option (List systemSub)
  | subs, [] => some subs
  | subs, dist :: rest =>
    match part dist with
    | none => none
    | some d =>
      if subs.any (fun sub => decide (sub.val = d)) then extendSubs part subs rest
      else extendSubs part (subs ++ [⟨d, d, 0, 0⟩]) rest

/-- The comparator of the final sort of `osSubs` and `archSubs`. -/
def longerVal (a b : systemSub) : Bool := decide (a.val.length > b.val.length)

def osSubs (E : Env) (systems : Option (List Str)) : Option (List systemSub) :=
  let systems := systems.getD (distSystems E)
  (extendSubs systemOs osPreamble systems).map (E.sortFunc systemSub longerVal)

def archSubs (E : Env) (systems : Option (List Str)) : Option (List systemSub) :=
  let systems := systems.getD (distSystems E)
  (extendSubs systemArch archPreamble systems).map (E.sortFunc systemSub longerVal)

/-- Result `some none` is Go's `nil`. -/
def matchSubLoop (filename downcased : Str) : List systemSub → Option (Option systemSub)
  | [] => some none
  | sub :: rest =>
    match strIndex downcased sub.val with
    | none => matchSubLoop filename downcased rest
    | some idx =>
      match substr filename idx (idx + sub.val.length) with
      | none => none
      | some casedVal => some (some ⟨casedVal, sub.normalized, sub.priority, idx⟩)

def matchSub (filename : Str) (subs : List systemSub) : Option (Option systemSub) :=
  matchSubLoop filename (toLower filename) subs

def parseOs (E : Env) (filename : Str) (systems : Option (List Str)) :
    Option (Option systemSub) :=
  match osSubs E systems with
  | none => none
  | some subs =>
    match matchSub filename subs with
    | none => none
    | some (some sub) => some (some sub)
    | some none =>
      if hasSuffix (toLower filename) ".exe".toList then
        some (some ⟨[], "windows".toList, 0, -1⟩)
      else some none

def parseArch (E : Env) (filename : Str) (systems : Option (List Str)) :
    Option (Option systemSub) :=
  match archSubs E systems with
  | none => none
  | some subs =>
    match matchSub filename subs with
    | none => none
    | some (some sub) => some (some sub)
    | some none => some (some ⟨[], "amd64".toList, -1, -1⟩)

def archiveSuffixes : List Str :=
  [ ".tar.br".toList, ".tbr".toList, ".tar.bz2".toList, ".tbz2".toList,
    ".tar.gz".toList, ".tgz".toList, ".tar.lz4".toList, ".tlz4".toList,
    ".tar.sz".toList, ".tsz".toList, ".tar.xz".toList, ".txz".toList,
    ".tar.zst".toList, ".tzst".toList, ".rar".toList, ".zip".toList,
    ".br".toList, ".gz".toList, ".bz2".toList, ".lz4".toList,
    ".sz".toList, ".xz".toList, ".zst".toList ]

/-! ## parseDownload -/

/-- Modelled from the spec: the type `dlFile` (its declaration is not in the
sources); the fields are those `parseDownload` and `buildConfig` set and
read. The Go fields `osSub` and `archSub` are pointers that `parseDownload`
never leaves nil. -/
structure dlFile where
  origUrl : Str
  url : Str
  osSub : systemSub
  archSub : systemSub
  suffix : Str
  isArchive : Bool
  priority : Int
  checksum : Str
deriving DecidableEq, Repr

/-- The statement `tmpl = tmpl[:sub.idx] + hole + tmpl[sub.idx+len(sub.val):]`
guarded by `sub.idx != -1`. -/
def fillHole (tmpl : Str) (sub : systemSub) (hole : Str) : Option Str :=
  if sub.idx ≠ -1 then
    match substr tmpl 0 sub.idx, substr tmpl (sub.idx + sub.val.length) tmpl.length with
    | some a, some b => some (a ++ hole ++ b)
    | _, _ => none
  else some tmpl

/-- The call `slices.ContainsFunc(systems, ...)` of `parseDownload`; it stops
at the first system that matches. -/
def containsDist (o a : Str) : List Str → Option Bool
  | [] => some false
  | sys :: rest =>
    match parseDist sys with
    | none => none
    | some (o', a') => if o' = o ∧ a' = a then some true else containsDist o a rest

/-- The loop over `archiveSuffixes`: the first entry the URL ends with. -/
def archiveSuffix (dlURL : Str) : Option Str :=
  archiveSuffixes.find? (fun s => hasSuffix dlURL s)

/-- Result `none` is a panic, `some none` is `(nil, false)`, `some (some f)`
is `(f, true)`. -/
def parseDownload (E : Env) (dlURL version : Str) (systems : Option (List Str)) :
    Option (Option dlFile) :=
  match parseOs E dlURL systems with
  | none => none
  | some none => some none
  | some (some osSub) =>
  match fillHole dlURL osSub "{{.os}}".toList with
  | none => none
  | some tmpl1 =>
  match parseArch E tmpl1 systems with
  | none => none
  | some none => some none
  | some (some archSub) =>
  match fillHole tmpl1 archSub "{{.arch}}".toList with
  | none => none
  | some tmpl2 =>
  if decide (archSub.normalized ∈ forbiddenArch) || decide (osSub.normalized ∈ forbiddenOS) then
    some none
  else
  match containsDist osSub.normalized archSub.normalized (systems.getD []) with
  | none => none
  | some false => some none
  | some true =>
  let isArchive := (archiveSuffix dlURL).isSome
  let suffix := (archiveSuffix dlURL).getD []
  let suffix := if hasSuffix dlURL ".exe".toList then ".exe".toList else suffix
  match substr tmpl2 0 ((tmpl2.length : Int) - (suffix.length : Int)) with
  | none => none
  | some body =>
  let tmpl3 := body ++ "{{.urlSuffix}}".toList
  let tmpl4 := if version ≠ [] then replaceAll tmpl3 version "{{.version}}".toList else tmpl3
  some (some
    { origUrl := dlURL, url := tmpl4, osSub := osSub, archSub := archSub,
      suffix := suffix, isArchive := isArchive,
      priority := 0 + osSub.priority + archSub.priority, checksum := [] })

/-! ## parseDownloads: one file for each system -/

/-- A Go slice that starts at offset 0 of its backing array: `arr` is the
backing array (its length is the capacity) and `len` the length. A bucket
is given the least capacity that holds its elements; Go may allocate more,
the extra cells holding nil. -/
structure Slice (α : Type) where
  arr : List α
  len : Nat
deriving DecidableEq, Repr

namespace Slice

variable {α : Type}

/-- The elements `s[0], ..., s[len(s)-1]`. -/
def elems (s : Slice α) : List α := s.arr.take s.len

/-- The slice expression `s[:hi]`; it panics unless `hi ≤ cap(s)`. -/
def reslice (s : Slice α) (hi : Nat) : Option (Slice α) :=
  if hi ≤ s.arr.length then some ⟨s.arr, hi⟩ else none

/-- The call `slices.SortFunc(s, less)`: the first `len` cells of the
backing array are sorted in place. -/
def sortFunc (E : Env) (less : α → α → Bool) (s : Slice α) : Slice α :=
  ⟨E.sortFunc α less (s.arr.take s.len) ++ s.arr.drop s.len, s.len⟩

/-- The call `append(s, x)`. -/
def append (s : Slice α) (x : α) : Slice α :=
  ⟨s.arr.take s.len ++ [x] ++ s.arr.drop (s.len + 1), s.len + 1⟩

end Slice

/-- Go `slices.IndexFunc`, `none` standing for the result `-1`. -/
def indexFunc {α : Type} (p : α → Bool) : List α → Option Nat
  | [] => none
  | x :: xs => if p x then some 0 else (indexFunc p xs).map (· + 1)

/-- The pattern `cutOff := slices.IndexFunc(s, p); if cutOff != -1 { s = s[:cutOff] }`. -/
def cutAt {α : Type} (p : α → Bool) (s : Slice α) : Option (Slice α) :=
  match indexFunc p s.elems with
  | none => some s
  | some cutOff => s.reslice cutOff

/-- Modelled from the spec: the method `system` of `dlFile` (not in the
sources), the key `os/arch` made of the two normalized names. -/
def dlFile.system (f : dlFile) : Str := f.osSub.normalized ++ '/' :: f.archSub.normalized

/-- Modelled from the spec: the method `clone` of `dlFile` (not in the
sources), a copy that shares no memory with the original. -/
def dlFile.clone (f : dlFile) : dlFile := f

/-- The map `systemFiles`, as the list of its entries with distinct keys. -/
abbrev FileMap := List (Str × Slice dlFile)

/-- The map index expression `systemFiles[k]`; a missing key gives the nil
slice. -/
def getFiles : FileMap → Str → Slice dlFile
  | [], _ => ⟨[], 0⟩
  | (k', s) :: rest, k => if k' = k then s else getFiles rest k

/-- The map assignment `systemFiles[k] = s`. -/
def setFiles : FileMap → Str → Slice dlFile → FileMap
  | [], k, s => [(k, s)]
  | (k', s') :: rest, k, s =>
    if k' = k then (k, s) :: rest else (k', s') :: setFiles rest k s

/-- The keys of the map (`maps.Keys`), in the order of its entries. -/
def mapKeys (m : FileMap) : List Str := m.map Prod.fst

/-- The first loop of `parseDownloads`: every accepted URL is appended to the
bucket of its system. -/
def classify (E : Env) (version : Str) (allowedSystems : Option (List Str)) :
    FileMap → List Str → Option FileMap
  | m, [] => some m
  | m, dlUrl :: rest =>
    match parseDownload E dlUrl version allowedSystems with
    | none => none
    | some none => classify E version allowedSystems m rest
    | some (some f) =>
      classify E version allowedSystems
        (setFiles m f.system ((getFiles m f.system).append f)) rest

/-- A loop `for system := range systemFiles` whose body reads and writes
the bucket of `system` only. -/
def forEachBucket (body : Slice dlFile → Option (Slice dlFile)) : FileMap → Option FileMap
  | [] => some []
  | (k, s) :: rest =>
    match body s, forEachBucket body rest with
    | some s', some rest' => some ((k, s') :: rest')
    | _, _ => none

def higherPriority (a b : dlFile) : Bool := decide (a.priority > b.priority)

/-- The body of the second loop: remove all but the highest priority. -/
def keepHighestPriority (E : Env) (s : Slice dlFile) : Option (Slice dlFile) :=
  if s.len < 2 then some s
  else
    let s := s.sortFunc E higherPriority
    match s.elems.head? with
    | none => none
    | some first => cutAt (fun f => decide (f.priority < first.priority)) s

/-- The map `urlFrequency`: the number of files of all buckets that carry
the templated url. -/
def urlFrequency (m : FileMap) (url : Str) : Nat :=
  ((m.map (fun e => e.2.elems)).flatten.filter (fun f => decide (f.url = url))).length

def moreFrequent (freq : Str → Nat) (a b : dlFile) : Bool := decide (freq a.url > freq b.url)

def archiveFirst (a b : dlFile) : Bool := a.isArchive && !b.isArchive

def origUrlLess (a b : dlFile) : Bool := decide (a.origUrl < b.origUrl)

/-- The body of the third loop: frequency, archives, alphabetical order. -/
def reduceBucket (E : Env) (freq : Str → Nat) (s : Slice dlFile) : Option (Slice dlFile) :=
  if s.len < 2 then some s
  else
    let s := s.sortFunc E (moreFrequent freq)
    match s.elems.head? with
    | none => none
    | some first =>
    match cutAt (fun f => decide (freq f.url < freq first.url)) s with
    | none => none
    | some s =>
    if s.len = 1 then some s
    else
      let s := s.sortFunc E archiveFirst
      match cutAt (fun f => !f.isArchive) s with
      | none => none
      | some s =>
      if s.len = 1 then some s
      else
        let s := s.sortFunc E origUrlLess
        s.reslice 1

/-- The special handling that remaps darwin/arm64 to darwin/amd64. -/
def remapDarwinArm64 (m : FileMap) (allowedSystems : Option (List Str)) : Option FileMap :=
  if (getFiles m "darwin/amd64".toList).len > 0 ∧ (getFiles m "darwin/arm64".toList).len = 0
      ∧ "darwin/arm64".toList ∈ allowedSystems.getD [] then
    match (getFiles m "darwin/amd64".toList).elems.head? with
    | none => none
    | some first =>
      let f := first.clone
      let f := { f with archSub := { f.archSub with normalized := "arm64".toList } }
      let f := { f with priority := f.priority - 2 }
      some (setFiles m "darwin/arm64".toList ((getFiles m "darwin/arm64".toList).append f))
  else some m

/-- The map after the priority filter (line 406 of builddep.go). -/
def priorityFiles (E : Env) (dlUrls : List Str) (version : Str)
    (allowedSystems : Option (List Str)) : Option FileMap :=
  match classify E version allowedSystems [] dlUrls with
  | none => none
  | some m => forEachBucket (keepHighestPriority E) m

/-- The map after the tie-break cascade (line 450 of builddep.go). -/
def reducedFiles (E : Env) (dlUrls : List Str) (version : Str)
    (allowedSystems : Option (List Str)) : Option FileMap :=
  match priorityFiles E dlUrls version allowedSystems with
  | none => none
  | some m => forEachBucket (reduceBucket E (urlFrequency m)) m

/-- The local variable `systemFiles` of `parseDownloads` where the group
builder takes over (line 463 of builddep.go): the buckets after the
tie-break cascade and the darwin/arm64 remapping. -/
def systemFiles (E : Env) (dlUrls : List Str) (version : Str)
    (allowedSystems : Option (List Str)) : Option FileMap :=
  match reducedFiles E dlUrls version allowedSystems with
  | none => none
  | some m => remapDarwinArm64 m allowedSystems

/-- The file `systemFiles[system][0]` that `parseDownloads` hands to the
group builder for a system; the index panics on an empty bucket. -/
def chosenFile (m : FileMap) (system : Str) : Option dlFile := (getFiles m system).elems.head?

/-! ## systemsMatcher -/

/-- Go `splitSystems`: `fn` may panic. -/
def splitSystemsLoop (fn : Str → Option Bool) :
    List Str → List Str → List Str → Option (List Str × List Str)
  | [], matching, nonMatching => some (matching, nonMatching)
  | system :: rest, matching, nonMatching =>
    match fn system with
    | none => none
    | some true => splitSystemsLoop fn rest (matching ++ [system]) nonMatching
    | some false => splitSystemsLoop fn rest matching (nonMatching ++ [system])

def splitSystems (systems : List Str) (fn : Str → Option Bool) : Option (List Str × List Str) :=
  splitSystemsLoop fn systems [] []

/-- The value of a matcher, Go `map[string][]string`, as the list of its
entries; the nil map is the empty list. -/
abbrev Matcher := List (Str × List Str)

/-- The first two loops of `systemsMatcher`: the distinct OS names and arch
names of the systems, in the order of their first occurrence. -/
def distNames : List Str → List Str → List Str → Option (List Str × List Str)
  | [], oses, arches => some (oses, arches)
  | system :: rest, oses, arches =>
    match parseDist system with
    | none => none
    | some (o, a) =>
      distNames rest (if oses.contains o then oses else oses ++ [o])
        (if arches.contains a then arches else arches ++ [a])

/-- The loops that collect `exclusiveOses` and `exclusiveArches`. -/
def exclusiveNames (own other : List Str) : List Str := own.filter (fun s => !other.contains s)

/-- The loop of the branch `len(arches) < len(oses)`; the result is
`(matcherSystems, archOses, remainingSystems)`. -/
def archBranchLoop (a : Str) :
    List Str → List Str → List Str → List Str → Option (List Str × List Str × List Str)
  | [], matcherSystems, archOses, remainingSystems =>
    some (matcherSystems, archOses, remainingSystems)
  | system :: rest, matcherSystems, archOses, remainingSystems =>
    match systemArch system with
    | none => none
    | some a' =>
      if a' = a then
        match systemOs system with
        | none => none
        | some o => archBranchLoop a rest (matcherSystems ++ [system]) (archOses ++ [o])
            remainingSystems
      else archBranchLoop a rest matcherSystems archOses (remainingSystems ++ [system])

/-- The loop of the last branch that collects `osArches`. -/
def osArchesLoop (o : Str) : List Str → List Str → Option (List Str)
  | [], osArches => some osArches
  | system :: rest, osArches =>
    match systemOs system with
    | none => none
    | some o' =>
      if o' = o then
        match systemArch system with
        | none => none
        | some a => osArchesLoop o rest (osArches ++ [a])
      else osArchesLoop o rest osArches

/-- Result `none` is a panic; otherwise the matcher, `matcherSystems` and
`remainingSystems`. -/
def systemsMatcher (systems otherSystems : List Str) :
    Option (Matcher × List Str × List Str) :=
  match distNames systems [] [] with
  | none => none
  | some (oses, arches) =>
  match distNames otherSystems [] [] with
  | none => none
  | some (otherOses, otherArches) =>
  let exclusiveOses := exclusiveNames oses otherOses
  if exclusiveOses.length > 0 then
    match splitSystems systems
      (fun system => (systemOs system).map (fun o => exclusiveOses.contains o)) with
    | none => none
    | some (s, r) => some ([("os".toList, exclusiveOses)], s, r)
  else
  let exclusiveArches := exclusiveNames arches otherArches
  if exclusiveArches.length > 0 then
    match splitSystems systems
      (fun system => (systemArch system).map (fun a => exclusiveArches.contains a)) with
    | none => none
    | some (s, r) => some ([("arch".toList, exclusiveArches)], s, r)
  else
  if (oses.length == 0) != (arches.length == 0) then none
  else if oses.length = 0 then some ([], [], systems)
  else if arches.length < oses.length then
    match arches.head? with
    | none => none
    | some a =>
      match archBranchLoop a systems [] [] [] with
      | none => none
      | some (matcherSystems, archOses, remainingSystems) =>
        some ([("arch".toList, [a]), ("os".toList, archOses)], matcherSystems, remainingSystems)
  else
    match oses.head? with
    | none => none
    | some o =>
      match osArchesLoop o systems [] with
      | none => none
      | some osArches =>
        match splitSystems systems (fun system => (systemOs system).map (fun o' => decide (o' = o))) with
        | none => none
        | some (s, r) => some ([("os".toList, [o]), ("arch".toList, osArches)], s, r)

/-! ## Maps and the types of the config -/

/-- A Go map with string keys, as a list of entries: the value of a key is
the value of its first entry. The nil map is the empty list; reading,
ranging over and deleting from a nil map are those of an empty map. -/
abbrev StrMap (ν : Type) := List (Str × ν)

/-- The statement `delete(m, k)`. -/
def mapDelete {ν : Type} (m : StrMap ν) (k : Str) : StrMap ν :=
  m.filter (fun e => decide (e.1 ≠ k))

/-- The assignment `m[k] = v`. -/
def mapSet {ν : Type} : StrMap ν → Str → ν → StrMap ν
  | [], k, v => [(k, v)]
  | (k', v') :: rest, k, v => if k' = k then (k, v) :: rest else (k', v') :: mapSet rest k v

/-- A loop `for k, v := range m` over a map that is part of the state:
`cur` reads the map from the state. The keys the map has when the loop
starts are visited, each once; a key is visited with the value the map holds
for it at the visit, and a key deleted in the meantime is skipped. -/
def rangeMap {σ ν : Type} (cur : σ → StrMap ν) (body : σ → Str → ν → σ) (init : σ) : σ :=
  ((cur init).map Prod.fst).dedup.foldl
    (fun acc k =>
      match (cur acc).lookup k with
      | some v => body acc k v
      | none => acc)
    init

/-- Modelled from the spec: the type `bindown.SystemInfo` (not in the
sources), an OS and an arch. -/
structure SystemInfo where
  OS : Str
  Arch : Str
deriving DecidableEq, Repr

/-- Modelled from the spec: the method `String` of `bindown.SystemInfo` (not
in the sources), the text `os/arch`. -/
def SystemInfo.String (s : SystemInfo) : Str := s.OS ++ '/' :: s.Arch

/-- The Go type `map[string]map[string]string` of substitutions: a
dimension (`os`, `arch`) maps a normalized name to a surface. -/
abbrev Substitutions := StrMap (StrMap Str)

/-- Modelled from the spec: the part of a dependency an override carries
(the field `Dependency` of `bindown.DependencyOverride`, not in the
sources): its vars and its substitutions. -/
structure OverrideDependency where
  vars : StrMap Str
  substitutions : Substitutions
deriving DecidableEq, Repr

/-- Modelled from the spec: the type `bindown.DependencyOverride` (not in
the sources), a matcher and the values that hold for the systems it
selects. -/
structure DependencyOverride where
  overrideMatcher : Matcher
  dependency : OverrideDependency
deriving DecidableEq, Repr

/-- Modelled from the spec: the type `bindown.Dependency` (not in the
sources), with the fields of the emitted template. `systems` is a nil-able
slice. -/
structure Dependency where
  homepage : Option Str
  description : Option Str
  template : Option Str
  url : Option Str
  archivePath : Option Str
  bin : Option Str
  vars : StrMap Str
  requiredVars : List Str
  overrides : List DependencyOverride
  substitutions : Substitutions
  systems : Option (List SystemInfo)
deriving DecidableEq, Repr

/-- Modelled from the spec: the type `bindown.Config` (not in the sources),
with the four fields `addDependency` and `buildConfig` read and write.
`systems` is a nil-able slice. -/
structure Config where
  systems : Option (List SystemInfo)
  dependencies : StrMap Dependency
  templates : StrMap Dependency
  urlChecksums : StrMap Str
deriving DecidableEq, Repr

/-- Modelled from the spec: the type `depGroup` (not in the sources), with
the fields the spec lists. -/
structure depGroup where
  files : List dlFile
  systems : List Str
  url : Str
  substitutions : Substitutions
  overrideMatcher : Matcher
  archivePathSuffix : Str
  urlSuffix : Str
deriving DecidableEq, Repr

/-- The code of this repository that `builddep.go` calls and that is not in
the sources: the methods of `depGroup` and of `bindown.Config`. A field is
the result of the call, `none` being a panic. A method with a pointer
receiver returns the receiver as the call leaves it. -/
structure Methods where
  /-- the result of `g.fileAllowed(file, binName)` -/
  fileAllowed : depGroup → dlFile → Str → Option Bool
  /-- the group after `g.addFile(file, binName)` -/
  addFile : depGroup → dlFile → Str → Option depGroup
  /-- the result of `g.regroupByArchivePath(ctx, name, version, selector)`:
  an error or the groups -/
  regroupByArchivePath : depGroup → Str → Str → Option (Except Str (List depGroup))
  /-- the result of `g.dependency()` -/
  dependency : depGroup → Option Dependency
  /-- the result of `g.overrides(otherGroups)` -/
  overrides : depGroup → List depGroup → Option (List DependencyOverride)
  /-- the config after `built.AddChecksums(deps, systems)` and the error it
  returns -/
  addChecksums : Config → List Str → Option (List SystemInfo) → Option (Config × Option Str)
  /-- the error `built.Validate(nil, systems)` returns -/
  validate : Config → Option (List SystemInfo) → Option (Option Str)
  /-- the text of the error `generated config is invalid`, made of the error
  of `Validate` and the YAML of the config -/
  invalidConfigError : Str → Config → Str

/-! ## parseDownloads: the groups -/

/-- The comparator of the sort of the systems in `parseDownloads`. The
index `[0]` is taken on a bucket of positive length. -/
def systemLess (m : FileMap) (a b : Str) : Bool :=
  if (getFiles m a).len = 0 ∨ (getFiles m b).len = 0 then decide ((getFiles m a).len > 0)
  else
    match chosenFile m a, chosenFile m b with
    | some aFile, some bFile =>
      if aFile.priority ≠ bFile.priority then decide (aFile.priority > bFile.priority)
      else decide (a < b)
    | _, _ => false

/-- Go `slices.IndexFunc` with a predicate that may panic; `some none` is
the result `-1`. -/
def indexFuncM {α : Type} (p : α → Option Bool) : List α → Option (Option Nat)
  | [] => some none
  | x :: xs =>
    match p x with
    | none => none
    | some true => some (some 0)
    | some false => (indexFuncM p xs).map (Option.map (· + 1))

/-- The literal `&depGroup{...}` of `parseDownloads`. -/
def newGroup : depGroup :=
  { files := [], systems := [], url := [],
    substitutions := [("os".toList, []), ("arch".toList, [])],
    overrideMatcher := [], archivePathSuffix := [], urlSuffix := [] }

/-- The loop `for _, system := range systems` of `parseDownloads`: the file
of the system joins the first group that allows it, or a new group. -/
def placeSystems (M : Methods) (m : FileMap) (binName : Str) :
    List Str → List depGroup → Option (List depGroup)
  | [], groups => some groups
  | system :: rest, groups =>
    match chosenFile m system with
    | none => none
    | some file =>
      match indexFuncM (fun g => M.fileAllowed g file binName) groups with
      | none => none
      | some (some idx) =>
        match groups.get? idx with
        | none => none
        | some g =>
          match M.addFile g file binName with
          | none => none
          | some g' => placeSystems M m binName rest (groups.set idx g')
      | some none =>
        match M.addFile newGroup file binName with
        | none => none
        | some group => placeSystems M m binName rest (groups ++ [group])

/-- The comparator of the final sort of `parseDownloads`. -/
def moreFiles (a b : depGroup) : Bool := decide (a.files.length > b.files.length)

/-- The keys of the map are taken in the order of its entries. -/
def parseDownloads (M : Methods) (E : Env) (dlUrls : List Str) (binName version : Str)
    (allowedSystems : Option (List Str)) : Option (List depGroup) :=
  match systemFiles E dlUrls version allowedSystems with
  | none => none
  | some m =>
    let systems := E.sortFunc Str (systemLess m) (mapKeys m)
    match placeSystems M m binName systems [] with
    | none => none
    | some groups => some (E.sortFunc depGroup moreFiles groups)

/-! ## buildConfig -/

/-- The loop `for _, file := range group.files` of `buildConfig`. -/
def addChecksumsOf (files : List dlFile) (checksums : StrMap Str) : StrMap Str :=
  files.foldl (fun cs file => mapSet cs file.origUrl file.checksum) checksums

/-- The loop `for _, system := range group.systems` of `buildConfig`. -/
def appendSystems : List Str → Option (List SystemInfo) → Option (Option (List SystemInfo))
  | [], systems => some systems
  | system :: rest, systems =>
    match parseDist system with
    | none => none
    | some (o, a) => appendSystems rest (some (systems.getD [] ++ [⟨o, a⟩]))

/-- The loop `for i := 0; i < len(groups); i++` of `buildConfig`, from index
`i` on, `rest` being `groups[i:]`; the state is `dep` and `checksums`. -/
def groupsLoop (M : Methods) (groups : List depGroup) :
    Nat → List depGroup → Dependency → StrMap Str → Option (Dependency × StrMap Str)
  | _, [], dep, checksums => some (dep, checksums)
  | i, group :: rest, dep, checksums =>
    let checksums := addChecksumsOf group.files checksums
    if i = 0 then groupsLoop M groups (i + 1) rest dep checksums
    else
      let otherGroups := groups.take i ++ groups.drop (i + 1)
      match appendSystems group.systems dep.systems with
      | none => none
      | some systems =>
        match M.overrides group otherGroups with
        | none => none
        | some overrides =>
          groupsLoop M groups (i + 1) rest
            { dep with systems := systems, overrides := dep.overrides ++ overrides } checksums

/-- The comparator of the sort of `dep.Systems`. -/
def systemInfoLess (a b : SystemInfo) : Bool :=
  if a.OS ≠ b.OS then decide (a.OS < b.OS) else decide (a.Arch < b.Arch)

/-- The state of `buildConfig` after the sort of `dep.Systems` (line 529 of
builddep.go): the dependency and the checksums. -/
def collectGroups (M : Methods) (E : Env) (groups : List depGroup) :
    Option (Dependency × StrMap Str) :=
  match groups.head? with
  | none => none
  | some first =>
    match M.dependency first with
    | none => none
    | some dep =>
      match groupsLoop M groups 0 groups dep [] with
      | none => none
      | some (dep, checksums) =>
        some ({ dep with systems := dep.systems.map (E.sortFunc SystemInfo systemInfoLess) },
          checksums)

/-- The shape of the two minimization loops: for each dimension `tp` the
inner loop runs on the map of the dimension, and the dimension is deleted
when its map is left empty. -/
def minimizeDimensions (inner : Str → StrMap Str → StrMap Str) (subs : Substitutions) :
    Substitutions :=
  rangeMap (fun s => s)
    (fun s tp _ =>
      let s := mapSet s tp (inner tp ((s.lookup tp).getD []))
      if ((s.lookup tp).getD []).length = 0 then mapDelete s tp else s)
    subs

/-- The loop `for k, v := range dep.Substitutions[tp]`: an entry that maps
a key to itself is deleted. -/
def dropIdentities (m : StrMap Str) : StrMap Str :=
  rangeMap (fun m => m) (fun m k v => if k = v then mapDelete m k else m) m

/-- The read `dep.Substitutions[tp][k]` behind its two nil tests. -/
def lookupSub (subs : Substitutions) (tp k : Str) : Option Str :=
  match subs.lookup tp with
  | none => none
  | some m => m.lookup k

/-- The body of the loop over the entries of a dimension of an override. -/
def minimizeOverrideEntry (depSubs : Substitutions) (tp : Str) (m : StrMap Str) (k v : Str) :
    StrMap Str :=
  if k ≠ v then m
  else
    match lookupSub depSubs tp k with
    | none => if k = v then mapDelete m k else m
    | some depVal => if depVal = v then mapDelete m k else m

/-- The body of the loop `for i := range dep.Overrides`. -/
def minimizeOverride (depSubs : Substitutions) (ov : DependencyOverride) : DependencyOverride :=
  let substitutions := minimizeDimensions
    (fun tp m => rangeMap (fun m => m) (minimizeOverrideEntry depSubs tp) m)
    ov.dependency.substitutions
  { ov with dependency := { ov.dependency with substitutions := substitutions } }

/-- The zero value of `bindown.Dependency`. -/
def emptyDependency : Dependency :=
  { homepage := none, description := none, template := none, url := none,
    archivePath := none, bin := none, vars := [], requiredVars := [], overrides := [],
    substitutions := [], systems := none }

/-- Result `none` is a panic. -/
def buildConfig (M : Methods) (E : Env) (name version : Str) (groups : List depGroup) :
    Option Config :=
  match collectGroups M E groups with
  | none => none
  | some (dep, checksums) =>
    let substitutions := minimizeDimensions (fun _ m => dropIdentities m) dep.substitutions
    let dep := { dep with substitutions := substitutions }
    let dep := { dep with overrides := dep.overrides.map (minimizeOverride dep.substitutions) }
    some
      { systems := dep.systems,
        dependencies :=
          [(name, { emptyDependency with
            template := some name, vars := [("version".toList, version)] })],
        templates := [(name, dep)],
        urlChecksums := checksums }

/-! ## addDependency -/

/-- The first statements of `addDependency`: the systems of the config as
strings, or the dist list when the config has none. Appending to the nil
slice `systems` leaves it nil when there is nothing to append. -/
def declaredSystems (E : Env) (cfg : Config) : Option (List Str) :=
  match cfg.systems with
  | some infos =>
    infos.foldl (fun systems systemInfo => some (systems.getD [] ++ [systemInfo.String])) none
  | none => some (distSystems E)

/-- The loop `for _, g := range groups` of `addDependency`; the result is
the error of the early return or `regrouped`. -/
def regroupLoop (M : Methods) (name version : Str) :
    List depGroup → List depGroup → Option (Except Str (List depGroup))
  | [], regrouped => some (.ok regrouped)
  | g :: rest, regrouped =>
    match M.regroupByArchivePath g name version with
    | none => none
    | some (.error err) => some (.error err)
    | some (.ok gg) => regroupLoop M name version rest (regrouped ++ gg)

/-- The three loops at the end of `addDependency` that copy the built
config into the config of the caller. -/
def mergeBuilt (cfg built : Config) (homepage description : Str) : Config :=
  let cfg := rangeMap (fun _ => built.dependencies)
    (fun (cfg : Config) k v => { cfg with dependencies := mapSet cfg.dependencies k v }) cfg
  let cfg := rangeMap (fun _ => built.templates)
    (fun (cfg : Config) k v =>
      let v := if homepage ≠ [] then { v with homepage := some homepage } else v
      let v := if description ≠ [] then { v with description := some description } else v
      { cfg with templates := mapSet cfg.templates k v }) cfg
  rangeMap (fun _ => built.urlChecksums)
    (fun (cfg : Config) k v => { cfg with urlChecksums := mapSet cfg.urlChecksums k v }) cfg

/-- Result `none` is a panic; otherwise the config of the caller as the call
leaves it, and the error returned (`none` for `nil`). -/
def addDependency (M : Methods) (E : Env) (cfg : Config)
    (name version homepage description : Str) (urls : List Str) : Option (Config × Option Str) :=
  let systems := declaredSystems E cfg
  match parseDownloads M E urls name version systems with
  | none => none
  | some groups =>
  match regroupLoop M name version groups [] with
  | none => none
  | some (.error err) => some (cfg, some err)
  | some (.ok regrouped) =>
  match buildConfig M E name version regrouped with
  | none => none
  | some built =>
  match built.dependencies.lookup name with
  | none => none
  | some builtDep =>
  match M.addChecksums built [name] builtDep.systems with
  | none => none
  | some (_, some err) => some (cfg, some err)
  | some (built, none) =>
  match M.validate built built.systems with
  | none => none
  | some (some err) => some (cfg, some (M.invalidConfigError err built))
  | some none => some (mergeBuilt cfg built homepage description, none)

/-! ## QueryGitHubRelease -/

/-- The part of a GitHub repository that `QueryGitHubRelease` reads. -/
structure Repository where
  description : Str
  homepage : Str
  htmlURL : Str
deriving DecidableEq, Repr

/-- The part of a GitHub release that `QueryGitHubRelease` reads: the tag
name and the browser download URLs of the assets. -/
structure Release where
  tagName : Str
  assets : List Str
deriving DecidableEq, Repr

/-- The libraries `QueryGitHubRelease` calls, which are not part of this
repository: the three requests of the GitHub client, each giving an error or
a value, and `semver.NewVersion`, of which only `err == nil` is used. -/
structure GitHub where
  getRepository : Str → Str → Except Str Repository
  getLatestRelease : Str → Str → Except Str Release
  getReleaseByTag : Str → Str → Str → Except Str Release
  semverNewVersion : Str → Bool

/-- The values `QueryGitHubRelease` returns beside the error. -/
structure QueryResult where
  urls : List Str
  version : Str
  homepage : Str
  description : Str
deriving DecidableEq, Repr

/-- The values of the return `nil, "", "", "", err`. -/
def queryFailed (err : Str) : QueryResult × Option Str := (⟨[], [], [], []⟩, some err)

/-- Result `none` is a panic (`splitRepo[1]` out of range); otherwise the
four values and the error. The context and the token only reach the client
and are left out. The named result `version` is empty when it is tested, so
the test `version == ""` holds and its body always runs. -/
def QueryGitHubRelease (G : GitHub) (repo tag : Str) : Option (QueryResult × Option Str) :=
  match splitOn '/' repo with
  | orgName :: repoName :: _ =>
    match G.getRepository orgName repoName with
    | .error err => some (queryFailed err)
    | .ok repoResp =>
      let description := repoResp.description
      let homepage := repoResp.homepage
      let homepage := if homepage = [] then repoResp.htmlURL else homepage
      let found : Except Str (Release × Str) :=
        if tag = [] then
          match G.getLatestRelease orgName repoName with
          | .error err => .error err
          | .ok release => .ok (release, release.tagName)
        else
          match G.getReleaseByTag orgName repoName tag with
          | .error err => .error err
          | .ok release => .ok (release, tag)
      match found with
      | .error err => some (queryFailed err)
      | .ok (release, tag) =>
        let version := tag
        let version :=
          if hasPrefix version "v".toList then
            if G.semverNewVersion (version.drop 1) then version.drop 1 else version
          else version
        some (⟨release.assets, version, homepage, description⟩, none)
  | _ => none

/-! ## An executable environment -/

/-- One pass of the inner loop of insertion sort: `x` moves left past the
trailing elements it is less than. `racc` is the sorted prefix reversed. -/
def insertBack {α : Type} (less : α → α → Bool) (x : α) : List α → List α
  | [] => [x]
  | y :: racc => if less x y then y :: insertBack less x racc else x :: y :: racc

/-- Insertion sort, the algorithm `slices.SortFunc` runs on a slice of at
most 12 elements. -/
def insertionSort {α : Type} (less : α → α → Bool) (l : List α) : List α :=
  (l.foldl (fun racc x => insertBack less x racc) []).reverse

/-- An environment for evaluating the code: insertion sort and three lines
of a dist list. -/
def insertionEnv : Env where
  goDists := ["linux/amd64".toList, "darwin/amd64".toList, "windows/amd64".toList]
  sortFunc := fun _ less l => insertionSort less l

/-! ## Vocabulary of the statements -/

/-- The environment is lawful: every line of the dist list has exactly one
`/`, and the library sort returns a permutation of its input that is sorted
whenever the comparator is a strict weak order. -/
structure Env.Lawful (E : Env) : Prop where
  dists : ∀ d ∈ E.goDists, d.count '/' = 1
  perm : ∀ (α : Type) (less : α → α → Bool) (l : List α), (E.sortFunc α less l).Perm l
  sorted : ∀ (α : Type) (less : α → α → Bool) (l : List α), StrictWeak less →
    (E.sortFunc α less l).Pairwise (fun a b => less b a = false)

/-- Every system of the allow-list is a well-formed `os/arch` string: it has
exactly one `/`. -/
def wellFormed (systems : Option (List Str)) : Prop :=
  ∀ d ∈ systems.getD [], d.count '/' = 1

instance (systems : Option (List Str)) : Decidable (wellFormed systems) := by
  unfold wellFormed; infer_instance

/-- The string `sub` occurs in `s` at offset `i`. -/
def occursAt (sub s : Str) (i : Nat) : Prop :=
  ∃ p q, s = p ++ sub ++ q ∧ p.length = i

/-- The string `sub` occurs in `s`. -/
def occurs (sub s : Str) : Prop := ∃ p q, s = p ++ sub ++ q

/-- Offset `i` is the first occurrence of `sub` in `s`. -/
def firstOccurrence (sub s : Str) (i : Nat) : Prop :=
  occursAt sub s i ∧ ∀ j, occursAt sub s j → i ≤ j

/-- The match `m` that `matchSub` returned for `filename` is the first
occurrence of a longest surface of `subs` that occurs in the lower-cased
filename, cut from the filename in its original case. -/
def LongestMatch (filename : Str) (subs : List systemSub) (m : systemSub) : Prop :=
  ∃ sub ∈ subs, ∃ i : Nat,
    (∀ w ∈ subs, occurs w.val (toLower filename) → w.val.length ≤ sub.val.length) ∧
    firstOccurrence sub.val (toLower filename) i ∧
    m.idx = (i : Int) ∧
    m.val = (filename.drop i).take sub.val.length ∧
    toLower m.val = sub.val ∧
    m.normalized = sub.normalized ∧ m.priority = sub.priority

/-- The vocabulary is built without a panic and, when one of its surfaces
occurs in the lower-cased filename, `matchSub` returns a longest match. -/
def MatchesLongest (vocab : Option (List systemSub)) (filename : Str) : Prop :=
  ∃ subs, vocab = some subs ∧
    ((∃ sub ∈ subs, occurs sub.val (toLower filename)) →
      ∃ m, matchSub filename subs = some (some m) ∧ LongestMatch filename subs m)

/-- The suffix and the archive flag `parseDownload` computes from the URL. -/
def urlSuffix (dlURL : Str) : Str :=
  if hasSuffix dlURL ".exe".toList then ".exe".toList else (archiveSuffix dlURL).getD []

/-- The file `parseDownload` returns once the OS and arch are matched, the
holes are in place (`tmpl2`) and the cut `body` of the template is taken. -/
def acceptedFile (dlURL version : Str) (osSub archSub : systemSub) (body : Str) : dlFile :=
  { origUrl := dlURL,
    url := if version ≠ [] then
        replaceAll (body ++ "{{.urlSuffix}}".toList) version "{{.version}}".toList
      else body ++ "{{.urlSuffix}}".toList,
    osSub := osSub, archSub := archSub,
    suffix := urlSuffix dlURL, isArchive := (archiveSuffix dlURL).isSome,
    priority := 0 + osSub.priority + archSub.priority, checksum := [] }

/-- The pair is an entry of the allow-list. -/
def inAllowList (systems : Option (List Str)) (o a : Str) : Prop :=
  ∃ d ∈ systems.getD [], parseDist d = some (o, a)

/-- The length of the slice does not exceed its capacity. -/
def Slice.Valid {α : Type} (s : Slice α) : Prop := s.len ≤ s.arr.length

/-- The files `parseDownload` accepts, in the order of the input URLs (a
URL on which `parseDownload` panics contributes nothing). -/
def acceptedFiles (E : Env) (dlUrls : List Str) (version : Str)
    (allowedSystems : Option (List Str)) : List dlFile :=
  dlUrls.filterMap (fun u => (parseDownload E u version allowedSystems).getD none)

/-- The files classified to a system: the accepted files whose `system()` is
that system. -/
def classifiedTo (E : Env) (dlUrls : List Str) (version : Str)
    (allowedSystems : Option (List Str)) (system : Str) : List dlFile :=
  (acceptedFiles E dlUrls version allowedSystems).filter (fun f => decide (f.system = system))

/-- No file of `l` has a strictly higher priority than `f`. -/
def highestPriority (l : List dlFile) (f : dlFile) : Prop := ∀ g ∈ l, g.priority ≤ f.priority

instance (l : List dlFile) (f : dlFile) : Decidable (highestPriority l f) := by
  unfold highestPriority; infer_instance

/-- The candidates of a system that survive the highest-priority filter. -/
def topCandidates (E : Env) (dlUrls : List Str) (version : Str)
    (allowedSystems : Option (List Str)) (system : Str) : List dlFile :=
  (classifiedTo E dlUrls version allowedSystems system).filter
    (fun f => decide (highestPriority (classifiedTo E dlUrls version allowedSystems system) f))

/-- The files, over all systems, that survive the highest-priority filter of
their own system. -/
def survivors (E : Env) (dlUrls : List Str) (version : Str)
    (allowedSystems : Option (List Str)) : List dlFile :=
  (acceptedFiles E dlUrls version allowedSystems).filter
    (fun f => decide (highestPriority (classifiedTo E dlUrls version allowedSystems f.system) f))

/-- The frequency of a templated url: the number of survivors that carry it. -/
def frequency (E : Env) (dlUrls : List Str) (version : Str)
    (allowedSystems : Option (List Str)) (url : Str) : Nat :=
  ((survivors E dlUrls version allowedSystems).filter (fun f => decide (f.url = url))).length

/-- The candidates of a system that survive the priority and the frequency
filters. -/
def finalists (E : Env) (dlUrls : List Str) (version : Str)
    (allowedSystems : Option (List Str)) (system : Str) : List dlFile :=
  (topCandidates E dlUrls version allowedSystems system).filter
    (fun f => decide (∀ g ∈ topCandidates E dlUrls version allowedSystems system,
      frequency E dlUrls version allowedSystems g.url ≤
        frequency E dlUrls version allowedSystems f.url))

/-- The map holds exactly the buckets of `files`: its keys are distinct and
are the systems of `files`, and the bucket of a key is the full slice of the
files of that system, in order. -/
def holdsBuckets (m : FileMap) (files : List dlFile) : Prop :=
  (mapKeys m).Nodup ∧ (∀ k, k ∈ mapKeys m ↔ ∃ f ∈ files, f.system = k) ∧
  ∀ k, getFiles m k =
    ⟨files.filter (fun f => decide (f.system = k)),
      (files.filter (fun f => decide (f.system = k))).length⟩

/-- The three conditions of the darwin/arm64 remapping: darwin/arm64 is in
the allow-list, no URL is classified to it, and some URL is classified to
darwin/amd64. -/
def remapApplies (E : Env) (dlUrls : List Str) (version : Str)
    (allowedSystems : Option (List Str)) : Prop :=
  "darwin/arm64".toList ∈ allowedSystems.getD [] ∧
  classifiedTo E dlUrls version allowedSystems "darwin/arm64".toList = [] ∧
  classifiedTo E dlUrls version allowedSystems "darwin/amd64".toList ≠ []

/-- The file synthesized for darwin/arm64 from the file chosen for
darwin/amd64. -/
def remappedFile (f : dlFile) : dlFile :=
  { f with archSub := { f.archSub with normalized := "arm64".toList },
           priority := f.priority - 2 }

/-! ## Priorities, fallbacks and matchers -/

/-- The arch of the file was matched by an entry of the arch vocabulary at
an offset of the template, not by the `amd64` fallback. -/
def archMatched (E : Env) (systems : Option (List Str)) (f : dlFile) : Prop :=
  ∃ subs, archSubs E systems = some subs ∧ ∃ sub ∈ subs,
    0 ≤ f.archSub.idx ∧ f.archSub.normalized = sub.normalized ∧
    f.archSub.priority = sub.priority ∧ f.archSub.val.length = sub.val.length

/-- No surface of the vocabulary occurs in the lower-cased filename (the
vocabulary being built without a panic). -/
def noSurface (vocab : Option (List systemSub)) (filename : Str) : Prop :=
  ∃ subs, vocab = some subs ∧ ∀ sub ∈ subs, ¬ occurs sub.val (toLower filename)

/-- An executable check of `noSurface`. -/
def noSurfaceCheck (vocab : Option (List systemSub)) (filename : Str) : Bool :=
  match vocab with
  | none => false
  | some subs => subs.all (fun sub => (strIndex (toLower filename) sub.val).isNone)

/-- The result of the OS fallback. -/
def windowsFallback : systemSub := ⟨[], "windows".toList, 0, -1⟩

/-- The result of the arch fallback. -/
def amd64Fallback : systemSub := ⟨[], "amd64".toList, -1, -1⟩

/-- A name passes a dimension of a matcher: the key is absent, or the name
is among its values. -/
def dimensionAllows (values : Option (List Str)) (name : Str) : Bool :=
  match values with
  | none => true
  | some l => l.contains name

/-- The system satisfies the matcher: its OS is in `matcher["os"]` if that
key is present, and its arch is in `matcher["arch"]` if that key is present. -/
def satisfies (matcher : Matcher) (system : Str) : Bool :=
  match parseDist system with
  | none => false
  | some (o, a) =>
    dimensionAllows (matcher.lookup "os".toList) o &&
      dimensionAllows (matcher.lookup "arch".toList) a

/-! ## The config -/

/-- The template of the config `buildConfig` returns: the minimization of
the dependency assembled from the groups. -/
def minimized (dep : Dependency) : Dependency :=
  { dep with
    substitutions := minimizeDimensions (fun _ m => dropIdentities m) dep.substitutions,
    overrides := dep.overrides.map
      (minimizeOverride (minimizeDimensions (fun _ m => dropIdentities m) dep.substitutions)) }

/-- The URL is accepted by `parseDownload`. -/
def accepts (E : Env) (url version : Str) (systems : Option (List Str)) : Bool :=
  match parseDownload E url version systems with
  | some (some _) => true
  | _ => false

/-! ## Rendering a template -/

/-- Rendering of a templated url, in the order of the round-trip claim:
every `{{.version}}` is replaced by the version, then `{{.urlSuffix}}` by the
suffix, `{{.arch}}` by the arch surface and `{{.os}}` by the OS surface. -/
def render (tmpl version suffix archVal osVal : Str) : Str :=
  replaceAll
    (replaceAll
      (replaceAll (replaceAll tmpl "{{.version}}".toList version) "{{.urlSuffix}}".toList suffix)
      "{{.arch}}".toList archVal)
    "{{.os}}".toList osVal

/-- A name of the allow-list the round-trip claim admits: it is non-empty,
has none of the characters `{`, `}`, `.`, and occurs neither in the text
`{{.os}}`, nor in an archive suffix, nor in `.exe`. -/
def cleanName (n : Str) : Prop :=
  n ≠ [] ∧ '{' ∉ n ∧ '}' ∉ n ∧ '.' ∉ n ∧ ¬ occurs n "{{.os}}".toList ∧
  (∀ s ∈ archiveSuffixes, ¬ occurs n s) ∧ ¬ occurs n ".exe".toList

/-- Every OS name and arch name of the allow-list is clean. -/
def cleanAllowList (systems : Option (List Str)) : Prop :=
  ∀ d ∈ systems.getD [], ∀ o a, parseDist d = some (o, a) → cleanName o ∧ cleanName a

/-- An executable check of `cleanName`. -/
def cleanCheck (n : Str) : Bool :=
  !n.isEmpty && !n.contains '{' && !n.contains '}' && !n.contains '.' &&
  (strIndex "{{.os}}".toList n).isNone &&
  archiveSuffixes.all (fun s => (strIndex s n).isNone) &&
  (strIndex ".exe".toList n).isNone

/-- An executable check of `cleanAllowList`. -/
def cleanAllowListCheck (systems : Option (List Str)) : Bool :=
  (systems.getD []).all (fun d =>
    match parseDist d with
    | none => true
    | some (o, a) => cleanCheck o && cleanCheck a)

/-- The pattern `H` occurs nowhere in `t`. -/
def NoOcc (H t : Str) : Prop := ∀ u, u <:+ t → ¬ H <+: u

/-- A piece of a template: literal text or one of the three holes that
`parseDownload` puts in place before the version is replaced. -/
inductive Seg where
  | text (t : Str)
  | os
  | arch
  | urlSuffix

/-- The text of a piece in the template. -/
def Seg.tmpl : Seg → Str
  | .text t => t
  | .os => "{{.os}}".toList
  | .arch => "{{.arch}}".toList
  | .urlSuffix => "{{.urlSuffix}}".toList

/-- The text of a piece in the URL, given the values of the three holes. -/
def Seg.value (osVal archVal suffix : Str) : Seg → Str
  | .text t => t
  | .os => osVal
  | .arch => archVal
  | .urlSuffix => suffix

/-- The text of a piece is free of `{`. -/
def Seg.plain : Seg → Prop
  | .text t => '{' ∉ t
  | _ => True

/-- The template made of the pieces. -/
def segsTmpl (segs : List Seg) : Str := (segs.map Seg.tmpl).flatten

/-- The URL made of the pieces. -/
def segsValue (osVal archVal suffix : Str) (segs : List Seg) : Str :=
  (segs.map (Seg.value osVal archVal suffix)).flatten

/-- Rendering one hole: the pieces that are the hole `h` become the text `v`. -/
def Seg.fill (h : Seg) (v : Str) : Seg → Seg
  | .text t => .text t
  | .os => match h with
    | .os => .text v
    | _ => .os
  | .arch => match h with
    | .arch => .text v
    | _ => .arch
  | .urlSuffix => match h with
    | .urlSuffix => .text v
    | _ => .urlSuffix

/-- The last step of `parseDownload` on the template: the version, when
given, is replaced by its hole. -/
def withVersion (tmpl version : Str) : Str :=
  if version ≠ [] then replaceAll tmpl version "{{.version}}".toList else tmpl

/-- No system of the allow-list contains the character `.`. -/
def dotFree (systems : Option (List Str)) : Prop := ∀ d ∈ systems.getD [], '.' ∉ d

instance (systems : Option (List Str)) : Decidable (dotFree systems) := by
  unfold dotFree; infer_instance

/-! ## Systems, versions and the visiting order -/

/-- The systems of a group as `SystemInfo` values. -/
def groupSystemInfos (g : depGroup) : List SystemInfo :=
  g.systems.filterMap (fun s => (parseDist s).map (fun p => (⟨p.1, p.2⟩ : SystemInfo)))

/-- The order of the systems of a config: ascending by OS, then by arch. -/
def systemInfoLe (a b : SystemInfo) : Prop :=
  a.OS < b.OS ∨ (a.OS = b.OS ∧ a.Arch ≤ b.Arch)

/-- The version of a release tag, in the words of the spec: the tag without
its leading `v` if the tag begins with `v` and the remainder parses as a
semantic version, and the tag otherwise. -/
def normalizedVersion (parses : Str → Bool) (tag : Str) : Str :=
  if tag.head? = some 'v' ∧ parses tag.tail = true then tag.tail else tag

/-- A version that leaves the holes alone when `parseDownload` replaces it:
it is empty (nothing is replaced), or it has neither `{` nor `}` and does not
occur in `.os`, `.arch` or `.urlSuffix`. -/
def harmlessVersion (version : Str) : Prop :=
  version = [] ∨
    ('{' ∉ version ∧ '}' ∉ version ∧ ¬ occurs version ".os".toList ∧
      ¬ occurs version ".arch".toList ∧ ¬ occurs version ".urlSuffix".toList)

/-- An executable check of `harmlessVersion`. -/
def harmlessCheck (version : Str) : Bool :=
  version.isEmpty ||
    (!version.contains '{' && !version.contains '}' &&
      (strIndex ".os".toList version).isNone && (strIndex ".arch".toList version).isNone &&
      (strIndex ".urlSuffix".toList version).isNone)

/-- What the statement on the holes looks at in a file `parseDownload`
returns: whether the OS was matched positionally, whether the arch was, the
first offset of each of the two holes in the templated url (`none` when the
hole does not occur), whether the url ends with the hole of the suffix, and
the url. -/
structure HoleReport where
  osMatched : Bool
  archMatched : Bool
  osHole : Option Nat
  archHole : Option Nat
  endsWithSuffixHole : Bool
  url : Str
deriving DecidableEq, Repr

/-- The report on the result of `parseDownload`. -/
def holeReport (r : Option (Option dlFile)) : Option (Option HoleReport) :=
  r.map (Option.map (fun f =>
    { osMatched := decide ((0 : Int) ≤ f.osSub.idx),
      archMatched := decide ((0 : Int) ≤ f.archSub.idx),
      osHole := strIndex f.url "{{.os}}".toList, archHole := strIndex f.url "{{.arch}}".toList,
      endsWithSuffixHole := hasSuffix f.url "{{.urlSuffix}}".toList, url := f.url }))

/-- System `a` is visited before system `b`: the chosen file of `a` has the
higher priority, or the two have the same priority and `a` is the smaller
string. -/
def visitsBefore (m : FileMap) (a b : Str) : Prop :=
  match chosenFile m a, chosenFile m b with
  | some fa, some fb => fa.priority > fb.priority ∨ (fa.priority = fb.priority ∧ a < b)
  | _, _ => False

/-- The key by which the comparator `systemLess` compares: the systems with
a file come first, by descending priority and then by name; the systems
without a file come last and are equivalent. -/
def visitKey (m : FileMap) (k : Str) : Lex (Nat × Lex (Int × Str)) :=
  match chosenFile m k with
  | some f =>
    if (getFiles m k).len = 0 then toLex (1, toLex (0, []))
    else toLex (0, toLex (-f.priority, k))
  | none => toLex (1, toLex (0, []))

/-- Modelled from the spec: the repeated derivation of matchers for a group
(`recurse on the remainder if still non-empty; each recursion contributes
one override`), the loop of the method `overrides`, which is not in the
sources. `fuel` bounds the number of rounds. The result lists the matcher
and the `matcherSystems` of each round; `none` is a panic of
`systemsMatcher` or the fuel running out. -/
def matcherRounds : Nat → List Str → List Str → Option (List (Matcher × List Str))
  | _, [], _ => some []
  | 0, _ :: _, _ => none
  | fuel + 1, system :: rest, otherSystems =>
    match systemsMatcher (system :: rest) otherSystems with
    | none => none
    | some (matcher, matcherSystems, remainingSystems) =>
      (matcherRounds fuel remainingSystems otherSystems).map
        (fun rounds => (matcher, matcherSystems) :: rounds)

/-- Modelled from the spec: the methods of `depGroup` that are not in the
sources put no asset into a group but the chosen ones (`files`: chosen
assets, one per system in this group). After `addFile` the files of the
group have the origUrl of a file it had or of the file that entered; the
groups `regroupByArchivePath` returns hold files with the origUrl of files
of the group. -/
def keepsUrls (M : Methods) : Prop :=
  (∀ g file binName g', M.addFile g file binName = some g' →
    ∀ f ∈ g'.files, f.origUrl = file.origUrl ∨ ∃ f0 ∈ g.files, f.origUrl = f0.origUrl) ∧
  (∀ g name version gg, M.regroupByArchivePath g name version = some (.ok gg) →
    ∀ g' ∈ gg, ∀ f ∈ g'.files, ∃ f0 ∈ g.files, f.origUrl = f0.origUrl)

/-! ## Sample inputs -/

def sampleUrl : Str := "tool_1.0.0_linux_amd64.tar.gz".toList

def sampleVersion : Str := "1.0.0".toList

def sampleSystems : Option (List Str) :=
  some ["linux/amd64".toList, "darwin/amd64".toList, "darwin/arm64".toList]

/-- The file `parseDownload` returns for the sample URL. -/
def sampleFile : dlFile :=
  { origUrl := sampleUrl, url := "tool_{{.version}}_{{.os}}_{{.arch}}{{.urlSuffix}}".toList,
    osSub := ⟨"linux".toList, "linux".toList, 0, 11⟩,
    archSub := ⟨"amd64".toList, "amd64".toList, 0, 19⟩,
    suffix := ".tar.gz".toList, isArchive := true, priority := 0, checksum := [] }

/-- Release assets of a tool: for linux/amd64 two candidates share a template
that four assets use, and a third has a template of its own. -/
def sampleUrls : List Str :=
  [ "t_linux_amd64.tar.gz".toList, "t_linux_x86_64.zip".toList, "a-linux-amd64.tar.gz".toList,
    "t_darwin_amd64.tar.gz".toList, "t_windows_amd64.zip".toList ]

def sampleAllowed : Option (List Str) :=
  some ["linux/amd64".toList, "darwin/amd64".toList, "darwin/arm64".toList,
    "windows/amd64".toList]

/-- Two assets of one system, neither an archive, each with a template of
its own: a checksum file listed before the binary it belongs to. -/
def checksumFirstUrls : List Str := ["tool_linux_amd64.sha256".toList, "tool_linux_amd64".toList]

def linuxOnly : Option (List Str) := some ["linux/amd64".toList]

/-- A filename in capitals that ends in `.EXE`. -/
def upperExe : Str := "TOOL.EXE".toList

/-- The systems of a group that shares each of its OS names and arch names
with the other groups. -/
def groupSystems : List Str :=
  ["linux/arm64".toList, "darwin/386".toList, "windows/386".toList]

/-- The systems of the other groups. -/
def otherGroupSystems : List Str :=
  ["linux/386".toList, "darwin/arm64".toList, "windows/arm64".toList]

/-! ## Sample methods and groups -/

/-- The entry of a substitution map a file contributes in a dimension. -/
def withSurface (subs : Substitutions) (tp : Str) (sub : systemSub) : Substitutions :=
  mapSet subs tp (mapSet ((subs.lookup tp).getD []) sub.normalized sub.val)

/-- A sample of the methods that are not in the sources, for evaluating the
code: a group takes the files of one templated url and records their
surfaces; its dependency carries its url, substitutions and systems; it
contributes one override, with the matcher of `systemsMatcher` and its own
substitutions; no archive is opened, and checksums and validation succeed. -/
def sampleMethods : Methods where
  fileAllowed := fun g file _ => some (decide (g.url = file.url))
  addFile := fun g file _ => some
    { g with files := g.files ++ [file], systems := g.systems ++ [file.system], url := file.url,
             substitutions :=
               withSurface (withSurface g.substitutions "os".toList file.osSub) "arch".toList
                 file.archSub }
  regroupByArchivePath := fun g _ _ => some (.ok [g])
  dependency := fun g => some
    { emptyDependency with
      url := some g.url, substitutions := g.substitutions,
      systems := some (g.systems.filterMap
        (fun s => (parseDist s).map (fun p => (⟨p.1, p.2⟩ : SystemInfo)))) }
  overrides := fun g otherGroups =>
    match systemsMatcher g.systems (otherGroups.map (fun o => o.systems)).flatten with
    | none => none
    | some (matcher, _, _) => some [⟨matcher, ⟨[], g.substitutions⟩⟩]
  addChecksums := fun built _ _ => some (built, none)
  validate := fun _ _ => some none
  invalidConfigError := fun err _ => "generated config is invalid: ".toList ++ err

/-- The sample methods with a validation that fails. -/
def rejectingMethods : Methods :=
  { sampleMethods with validate := fun _ _ => some (some "missing system".toList) }

/-- Release assets with two templates that share the surface `x86_64`. -/
def sharedSurfaceUrls : List Str :=
  [ "t-linux-x86_64.tar.gz".toList, "t-darwin-x86_64.tar.gz".toList,
    "t_windows_x86_64.zip".toList ]

/-- An allow-list of three systems. -/
def threeSystems : Option (List Str) :=
  some ["linux/amd64".toList, "darwin/amd64".toList, "windows/amd64".toList]

/-- A config that declares one system and holds no dependency. -/
def emptyConfig : Config :=
  { systems := some [⟨"linux".toList, "amd64".toList⟩], dependencies := [], templates := [],
    urlChecksums := [] }

/-- The sample methods with an archive step that fills in the checksums. -/
def checksumMethods : Methods :=
  { sampleMethods with
    regroupByArchivePath := fun g _ _ => some (.ok
      [{ g with files := g.files.map (fun f => { f with checksum := "sum:".toList ++ f.origUrl }) }]) }

/-- The groups `addDependency` hands to `buildConfig` for the assets with a
shared surface. -/
def sharedSurfaceGroups : List depGroup :=
  match parseDownloads checksumMethods insertionEnv sharedSurfaceUrls "t".toList [] threeSystems with
  | none => []
  | some groups =>
    match regroupLoop checksumMethods "t".toList [] groups [] with
    | some (.ok regrouped) => regrouped
    | _ => []

/-- The three systems and the forbidden target js/wasm. -/
def threeSystemsAndJs : Option (List Str) :=
  some ["linux/amd64".toList, "darwin/amd64".toList, "windows/amd64".toList, "js/wasm".toList]

/-- An asset of the forbidden target. -/
def jsWasmUrl : Str := "tool_1.0.0_js_wasm.tar.gz".toList

/-- A sample of `semver.NewVersion` for evaluating the code: it accepts
three numbers separated by dots. -/
def threeNumbers (s : Str) : Bool :=
  match splitOn '.' s with
  | [a, b, c] => [a, b, c].all (fun p => !p.isEmpty && p.all Char.isDigit)
  | _ => false

/-- A sample of the GitHub client for evaluating the code: every repository
has one release, `v3.16.1`, with one asset. -/
def sampleGitHub : GitHub where
  getRepository := fun _ repoName => .ok ⟨"a tool".toList, [], "https://x/".toList ++ repoName⟩
  getLatestRelease := fun _ _ => .ok ⟨"v3.16.1".toList, ["a_linux_amd64".toList]⟩
  getReleaseByTag := fun _ _ tag =>
    if tag = "v3.16.1".toList then .ok ⟨tag, ["a_linux_amd64".toList]⟩
    else .error "not found".toList
  semverNewVersion := threeNumbers

/-- Three assets, one of which names no arch and so has the lower
priority. -/
def fallbackUrls : List Str :=
  ["t_windows_amd64.zip".toList, "t_linux.tar.gz".toList, "t_darwin_amd64.tar.gz".toList]

/-- A longer list of systems, in which two systems satisfy the first
matcher. -/
def fourSystems : List Str :=
  ["linux/arm64".toList, "darwin/386".toList, "windows/386".toList, "linux/386".toList]

/-- The systems of the other groups, which share every OS name and arch
name of `fourSystems`. -/
def fourOthers : List Str :=
  ["darwin/arm64".toList, "windows/arm64".toList, "linux/amd64".toList, "darwin/amd64".toList,
    "windows/amd64".toList, "plan9/386".toList]

/-- The release assets with a shared surface and an asset of the forbidden
target js/wasm, which comes first. -/
def assetsWithJs : List Str := jsWasmUrl :: sharedSurfaceUrls

/-- The groups `parseDownloads` returns for `assetsWithJs`. -/
def parsedWithJs : List depGroup :=
  (parseDownloads checksumMethods insertionEnv assetsWithJs "t".toList "1.0.0".toList
    threeSystemsAndJs).getD []

/-- The groups `addDependency` hands to `buildConfig` for `assetsWithJs`. -/
def groupsWithJs : List depGroup :=
  match regroupLoop checksumMethods "t".toList "1.0.0".toList parsedWithJs [] with
  | some (.ok regrouped) => regrouped
  | _ => []

end Builddep

/-! # Theorems -/

namespace Builddep

/-! ## Strings -/

theorem toLower_length (s : Str) : (toLower s).length = s.length := by
  simp [toLower]

theorem strIndexFrom_some {sub : Str} : ∀ {s : Str} {n k : Nat},
    strIndexFrom sub s n = some k →
    ∃ p q, s = p ++ sub ++ q ∧ k = n + p.length ∧
      ∀ p' q', s = p' ++ sub ++ q' → p.length ≤ p'.length := by
  intro s
  induction s with
  | nil =>
    intro n k h
    simp only [strIndexFrom] at h
    split at h
    · rename_i hp
      have hsub : sub = [] := by
        cases sub with
        | nil => rfl
        | cons a t => simp [List.isPrefixOf] at hp
      subst hsub
      refine ⟨[], [], by simp, ?_, ?_⟩
      · simp at h; simp [h]
      · intro p' q' _; simp
    · simp at h
  | cons c cs ih =>
    intro n k h
    simp only [strIndexFrom] at h
    split at h
    · rename_i hp
      obtain ⟨q, hq⟩ := List.isPrefixOf_iff_prefix.mp hp
      refine ⟨[], q, by simp [hq], ?_, ?_⟩
      · simp at h; simp [h]
      · intro p' q' _; simp
    · rename_i hp
      obtain ⟨p, q, hs, hk, hmin⟩ := ih h
      refine ⟨c :: p, q, by simp [hs], by simp; omega, ?_⟩
      intro p' q' hpq
      cases p' with
      | nil =>
        exfalso
        apply hp
        apply List.isPrefixOf_iff_prefix.mpr
        exact ⟨q', by simpa using hpq.symm⟩
      | cons c' p'' =>
        simp only [List.cons_append, List.cons.injEq] at hpq
        have := hmin p'' q' (by simpa using hpq.2)
        simp; omega

theorem strIndexFrom_none {sub : Str} : ∀ {s : Str} {n : Nat},
    strIndexFrom sub s n = none → ∀ p q, s ≠ p ++ sub ++ q := by
  intro s
  induction s with
  | nil =>
    intro n h p q hpq
    simp only [strIndexFrom] at h
    split at h
    · simp at h
    · rename_i hp
      apply hp
      have : sub = [] := by
        have := congrArg List.length hpq
        simp at this
        exact List.length_eq_zero.mp (by omega)
      subst this
      rfl
  | cons c cs ih =>
    intro n h p q hpq
    simp only [strIndexFrom] at h
    split at h
    · simp at h
    · rename_i hp
      cases p with
      | nil =>
        apply hp
        apply List.isPrefixOf_iff_prefix.mpr
        exact ⟨q, by simpa using hpq.symm⟩
      | cons c' p' =>
        simp only [List.cons_append, List.cons.injEq] at hpq
        exact ih h p' q (by simpa using hpq.2)

theorem strIndex_some {s sub : Str} {k : Nat} (h : strIndex s sub = some k) :
    firstOccurrence sub s k := by
  obtain ⟨p, q, hs, hk, hmin⟩ := strIndexFrom_some h
  refine ⟨⟨p, q, hs, by omega⟩, ?_⟩
  rintro j ⟨p', q', hs', hj⟩
  have := hmin p' q' hs'
  omega

theorem strIndex_none {s sub : Str} (h : strIndex s sub = none) : ¬ occurs sub s := by
  rintro ⟨p, q, hpq⟩
  exact strIndexFrom_none h p q hpq

theorem strIndex_isSome_iff {s sub : Str} : (strIndex s sub).isSome ↔ occurs sub s := by
  constructor
  · intro h
    obtain ⟨k, hk⟩ := Option.isSome_iff_exists.mp h
    obtain ⟨⟨p, q, hs, _⟩, _⟩ := strIndex_some hk
    exact ⟨p, q, hs⟩
  · intro h
    cases hk : strIndex s sub with
    | none => exact absurd h (strIndex_none hk)
    | some k => rfl

theorem substr_eq {s : Str} {i n : Nat} (h : i + n ≤ s.length) :
    substr s (i : Int) ((i : Int) + (n : Int)) = some ((s.drop i).take n) := by
  unfold substr
  rw [if_pos (by omega)]
  congr 2
  omega

/-! ## The sort -/

theorem StrictWeak.asymm {α : Type} {less : α → α → Bool} (h : StrictWeak less) {a b : α}
    (hab : less a b = true) : less b a = false := by
  cases hba : less b a with
  | false => rfl
  | true =>
    have := h.2.1 a b a hab hba
    rw [h.1 a] at this
    exact absurd this (by simp)

theorem insertBack_perm {α : Type} (less : α → α → Bool) (x : α) (racc : List α) :
    (insertBack less x racc).Perm (x :: racc) := by
  induction racc with
  | nil => simp [insertBack]
  | cons y racc ih =>
    simp only [insertBack]
    split
    · exact (List.Perm.cons y ih).trans (List.Perm.swap x y racc)
    · exact List.Perm.refl _

theorem insertBack_pairwise {α : Type} {less : α → α → Bool} (h : StrictWeak less) (x : α)
    (racc : List α) (hs : racc.Pairwise (fun a b => less a b = false)) :
    (insertBack less x racc).Pairwise (fun a b => less a b = false) := by
  induction racc with
  | nil => simp [insertBack]
  | cons y racc ih =>
    simp only [insertBack]
    rw [List.pairwise_cons] at hs
    split
    · rename_i hxy
      rw [List.pairwise_cons]
      refine ⟨?_, ih hs.2⟩
      intro z hz
      rcases List.mem_cons.mp ((insertBack_perm less x racc).mem_iff.mp hz) with hzx | hzr
      · subst hzx
        exact h.asymm hxy
      · exact hs.1 z hzr
    · rename_i hxy
      have hxy' : less x y = false := by simpa using hxy
      rw [List.pairwise_cons]
      refine ⟨?_, List.pairwise_cons.mpr hs⟩
      intro z hz
      rcases List.mem_cons.mp hz with hzy | hzr
      · subst hzy; exact hxy'
      · exact h.2.2 x y z hxy' (hs.1 z hzr)

theorem foldl_insertBack_perm {α : Type} (less : α → α → Bool) (l : List α) :
    ∀ racc : List α, (l.foldl (fun racc x => insertBack less x racc) racc).Perm (l ++ racc) := by
  induction l with
  | nil => intro racc; simp
  | cons x l ih =>
    intro racc
    simp only [List.foldl_cons]
    refine (ih _).trans ?_
    refine (List.Perm.append_left l (insertBack_perm less x racc)).trans ?_
    exact List.perm_middle

theorem foldl_insertBack_pairwise {α : Type} {less : α → α → Bool} (h : StrictWeak less)
    (l : List α) : ∀ racc : List α, racc.Pairwise (fun a b => less a b = false) →
      (l.foldl (fun racc x => insertBack less x racc) racc).Pairwise
        (fun a b => less a b = false) := by
  induction l with
  | nil => intro racc hs; simpa using hs
  | cons x l ih =>
    intro racc hs
    simp only [List.foldl_cons]
    exact ih _ (insertBack_pairwise h x racc hs)

theorem insertionSort_perm {α : Type} (less : α → α → Bool) (l : List α) :
    (insertionSort less l).Perm l := by
  unfold insertionSort
  refine (List.reverse_perm _).trans ?_
  simpa using foldl_insertBack_perm less l []

theorem insertionSort_sorted {α : Type} {less : α → α → Bool} (h : StrictWeak less)
    (l : List α) : (insertionSort less l).Pairwise (fun a b => less b a = false) := by
  unfold insertionSort
  rw [List.pairwise_reverse]
  exact foldl_insertBack_pairwise h l [] List.Pairwise.nil

theorem insertionEnv_lawful : insertionEnv.Lawful where
  dists := by decide
  perm := fun _ less l => insertionSort_perm less l
  sorted := fun _ _ l h => insertionSort_sorted h l

/-! ## parseDist and the vocabulary -/

theorem splitOn_length (sep : Char) (s : Str) : (splitOn sep s).length = s.count sep + 1 := by
  induction s with
  | nil => simp [splitOn]
  | cons c cs ih =>
    simp only [splitOn]
    split
    · rename_i h
      subst h
      simp [ih]
    · rename_i h
      have hc : List.count sep (c :: cs) = List.count sep cs := by
        rw [List.count_cons]
        simp [h]
      rw [hc]
      split
      · rename_i h0
        rw [h0] at ih
        simp at ih
      · rename_i p ps h0
        rw [h0] at ih
        simpa using ih

theorem parseDist_some {d : Str} (h : d.count '/' = 1) : ∃ o a, parseDist d = some (o, a) := by
  have hl := splitOn_length '/' d
  rw [h] at hl
  unfold parseDist
  match hs : splitOn '/' d with
  | [] => rw [hs] at hl; simp at hl
  | [_] => rw [hs] at hl; simp at hl
  | [o, a] => exact ⟨o, a, rfl⟩
  | _ :: _ :: _ :: _ => rw [hs] at hl; simp at hl

theorem systemOs_some {d : Str} (h : d.count '/' = 1) : (systemOs d).isSome := by
  obtain ⟨o, a, hp⟩ := parseDist_some h
  simp [systemOs, hp]

theorem systemArch_some {d : Str} (h : d.count '/' = 1) : (systemArch d).isSome := by
  obtain ⟨o, a, hp⟩ := parseDist_some h
  simp [systemArch, hp]

theorem extendSubs_spec (part : Str → Option Str) : ∀ (systems : List Str) (subs : List systemSub),
    (∀ d ∈ systems, (part d).isSome) →
    ∃ r, extendSubs part subs systems = some r ∧
      (∀ x ∈ r, x ∈ subs ∨ ∃ d ∈ systems, part d = some x.val ∧ x = ⟨x.val, x.val, 0, 0⟩) ∧
      (∀ x ∈ subs, x ∈ r) := by
  intro systems
  induction systems with
  | nil => intro subs _; exact ⟨subs, rfl, fun x hx => Or.inl hx, fun x hx => hx⟩
  | cons d rest ih =>
    intro subs hp
    obtain ⟨v, hv⟩ := Option.isSome_iff_exists.mp (hp d (List.mem_cons_self _ _))
    have hrest : ∀ d ∈ rest, (part d).isSome := fun d' hd' => hp d' (List.mem_cons_of_mem _ hd')
    simp only [extendSubs, hv]
    split
    · obtain ⟨r, hr, h1, h2⟩ := ih subs hrest
      refine ⟨r, hr, ?_, h2⟩
      intro x hx
      rcases h1 x hx with h | ⟨d', hd', h⟩
      · exact Or.inl h
      · exact Or.inr ⟨d', List.mem_cons_of_mem _ hd', h⟩
    · obtain ⟨r, hr, h1, h2⟩ := ih (subs ++ [⟨v, v, 0, 0⟩]) hrest
      refine ⟨r, hr, ?_, fun x hx => h2 x (List.mem_append_left _ hx)⟩
      intro x hx
      rcases h1 x hx with h | ⟨d', hd', h⟩
      · rcases List.mem_append.mp h with h | h
        · exact Or.inl h
        · have hx' : x = ⟨v, v, 0, 0⟩ := by simpa using h
          refine Or.inr ⟨d, List.mem_cons_self _ _, ?_, ?_⟩
          · rw [hx']; exact hv
          · rw [hx']
      · exact Or.inr ⟨d', List.mem_cons_of_mem _ hd', h⟩

theorem longerVal_strictWeak : StrictWeak longerVal := by
  refine ⟨?_, ?_, ?_⟩
  · intro a; simp [longerVal]
  · intro a b c; simp only [longerVal, decide_eq_true_eq]; omega
  · intro a b c; simp only [longerVal, decide_eq_false_iff_not]; omega

/-- The systems a vocabulary is built from: the allow-list, or the dist list
when the allow-list is nil. -/
theorem vocabulary_systems_wf {E : Env} (hE : E.Lawful) {systems : Option (List Str)}
    (hw : wellFormed systems) :
    ∀ d ∈ systems.getD (distSystems E), d.count '/' = 1 := by
  cases systems with
  | none => exact hE.dists
  | some l => exact hw

theorem vocab_spec {E : Env} (hE : E.Lawful) (part : Str → Option Str)
    (preamble : List systemSub) (systems : List Str) (hp : ∀ d ∈ systems, (part d).isSome) :
    ∃ subs, (extendSubs part preamble systems).map (E.sortFunc systemSub longerVal) = some subs ∧
      subs.Pairwise (fun a b => b.val.length ≤ a.val.length) ∧
      (∀ x ∈ subs, x ∈ preamble ∨
        ∃ d ∈ systems, part d = some x.val ∧ x = ⟨x.val, x.val, 0, 0⟩) ∧
      (∀ x ∈ preamble, x ∈ subs) := by
  obtain ⟨r, hr, h1, h2⟩ := extendSubs_spec part systems preamble hp
  refine ⟨E.sortFunc systemSub longerVal r, by simp [hr], ?_, ?_, ?_⟩
  · refine (hE.sorted systemSub longerVal r longerVal_strictWeak).imp ?_
    intro a b hab
    simp only [longerVal, decide_eq_false_iff_not] at hab
    omega
  · intro x hx
    exact h1 x ((hE.perm systemSub longerVal r).mem_iff.mp hx)
  · intro x hx
    exact (hE.perm systemSub longerVal r).mem_iff.mpr (h2 x hx)

theorem osSubs_spec {E : Env} (hE : E.Lawful) {systems : Option (List Str)}
    (hw : wellFormed systems) :
    ∃ subs, osSubs E systems = some subs ∧
      subs.Pairwise (fun a b => b.val.length ≤ a.val.length) ∧
      (∀ x ∈ subs, x ∈ osPreamble ∨
        ∃ d ∈ systems.getD (distSystems E), systemOs d = some x.val ∧
          x = ⟨x.val, x.val, 0, 0⟩) ∧
      (∀ x ∈ osPreamble, x ∈ subs) :=
  vocab_spec hE systemOs osPreamble _
    (fun d hd => systemOs_some (vocabulary_systems_wf hE hw d hd))

theorem archSubs_spec {E : Env} (hE : E.Lawful) {systems : Option (List Str)}
    (hw : wellFormed systems) :
    ∃ subs, archSubs E systems = some subs ∧
      subs.Pairwise (fun a b => b.val.length ≤ a.val.length) ∧
      (∀ x ∈ subs, x ∈ archPreamble ∨
        ∃ d ∈ systems.getD (distSystems E), systemArch d = some x.val ∧
          x = ⟨x.val, x.val, 0, 0⟩) ∧
      (∀ x ∈ archPreamble, x ∈ subs) :=
  vocab_spec hE systemArch archPreamble _
    (fun d hd => systemArch_some (vocabulary_systems_wf hE hw d hd))

/-! ## matchSub -/

theorem matchSubLoop_spec (filename downcased : Str) (hlen : downcased.length = filename.length) :
    ∀ subs : List systemSub,
      (matchSubLoop filename downcased subs = some none ∧
        ∀ sub ∈ subs, ¬ occurs sub.val downcased) ∨
      ∃ pre sub post, ∃ i : Nat, subs = pre ++ sub :: post ∧
        (∀ x ∈ pre, ¬ occurs x.val downcased) ∧
        firstOccurrence sub.val downcased i ∧
        matchSubLoop filename downcased subs =
          some (some ⟨(filename.drop i).take sub.val.length, sub.normalized, sub.priority, i⟩) := by
  intro subs
  induction subs with
  | nil => exact Or.inl ⟨rfl, by simp⟩
  | cons sub rest ih =>
    cases hidx : strIndex downcased sub.val with
    | none =>
      have hno := strIndex_none hidx
      rcases ih with ⟨h1, h2⟩ | ⟨pre, sub', post, i, h1, h2, h3, h4⟩
      · left
        refine ⟨by simp [matchSubLoop, hidx, h1], ?_⟩
        intro x hx
        rcases List.mem_cons.mp hx with h | h
        · subst h; exact hno
        · exact h2 x h
      · right
        refine ⟨sub :: pre, sub', post, i, by simp [h1], ?_, h3, by simp [matchSubLoop, hidx, h4]⟩
        intro x hx
        rcases List.mem_cons.mp hx with h | h
        · subst h; exact hno
        · exact h2 x h
    | some i =>
      have hfirst := strIndex_some hidx
      right
      refine ⟨[], sub, rest, i, rfl, by simp, hfirst, ?_⟩
      obtain ⟨⟨p, q, hs, hp⟩, _⟩ := hfirst
      have hb : i + sub.val.length ≤ filename.length := by
        have := congrArg List.length hs
        simp at this
        omega
      simp [matchSubLoop, hidx, substr_eq hb]

theorem toLower_cut {filename sub : Str} {i : Nat} (h : occursAt sub (toLower filename) i) :
    toLower ((filename.drop i).take sub.length) = sub := by
  obtain ⟨p, q, hs, hp⟩ := h
  unfold toLower at *
  rw [List.map_take, List.map_drop, hs, ← hp]
  simp

theorem matchSub_longest (filename : Str) {subs : List systemSub}
    (hsorted : subs.Pairwise (fun a b => b.val.length ≤ a.val.length)) :
    (matchSub filename subs = some none ∧ ∀ sub ∈ subs, ¬ occurs sub.val (toLower filename)) ∨
    ∃ m, matchSub filename subs = some (some m) ∧ LongestMatch filename subs m := by
  rcases matchSubLoop_spec filename (toLower filename) (toLower_length filename) subs with
    h | ⟨pre, sub, post, i, h1, h2, h3, h4⟩
  · exact Or.inl h
  · right
    refine ⟨_, h4, sub, by simp [h1], i, ?_, h3, rfl, rfl, toLower_cut h3.1, rfl, rfl⟩
    intro w hw hocc
    rw [h1] at hw hsorted
    rcases List.mem_append.mp hw with h | h
    · exact absurd hocc (h2 w h)
    · rcases List.mem_cons.mp h with h | h
      · rw [h]
      · exact (List.pairwise_cons.mp (List.pairwise_append.mp hsorted).2.1).1 w h

theorem matchesLongest_of_spec {vocab : Option (List systemSub)} {filename : Str}
    (h : ∃ subs, vocab = some subs ∧ subs.Pairwise (fun a b => b.val.length ≤ a.val.length)) :
    MatchesLongest vocab filename := by
  obtain ⟨subs, hv, hsorted⟩ := h
  refine ⟨subs, hv, ?_⟩
  rintro ⟨sub, hsub, hocc⟩
  rcases matchSub_longest filename hsorted with ⟨_, hno⟩ | hm
  · exact absurd hocc (hno sub hsub)
  · exact hm

/-- C3. Longest token wins: for a lawful environment, a well-formed
allow-list and an ASCII filename, both vocabularies are built without a
panic, and whenever a surface of the vocabulary occurs in the lower-cased
filename `matchSub` returns a match of a surface of maximal length among
the occurring ones, at the offset of that surface's first occurrence, with
`val` cut from the filename in its original case. A filename that contains
`unknown-linux-gnu` is never matched as plain `linux`. -/
theorem longest_token_wins (E : Env) (hE : E.Lawful) (systems : Option (List Str))
    (hw : wellFormed systems) (filename : Str) (_hascii : isASCII filename) :
    MatchesLongest (osSubs E systems) filename ∧
    MatchesLongest (archSubs E systems) filename ∧
    (occurs "unknown-linux-gnu".toList (toLower filename) →
      ∃ subs m, osSubs E systems = some subs ∧ matchSub filename subs = some (some m) ∧
        toLower m.val ≠ "linux".toList) := by
  obtain ⟨osl, ho, hos, _, hopre⟩ := osSubs_spec hE hw
  obtain ⟨arl, ha, has, _, _⟩ := archSubs_spec hE hw
  refine ⟨matchesLongest_of_spec ⟨osl, ho, hos⟩, matchesLongest_of_spec ⟨arl, ha, has⟩, ?_⟩
  intro hocc
  have hmem : (⟨"unknown-linux-gnu".toList, "linux".toList, -1, 0⟩ : systemSub) ∈ osl :=
    hopre _ (by decide)
  rcases matchSub_longest filename hos with ⟨_, hno⟩ | ⟨m, hm, hl⟩
  · exact absurd hocc (hno _ hmem)
  · refine ⟨osl, m, ho, hm, ?_⟩
    obtain ⟨sub, _, i, hmax, _, _, _, hlow, _, _⟩ := hl
    intro hc
    have h17 := hmax _ hmem hocc
    rw [← hlow, hc] at h17
    revert h17
    decide

theorem longest_token_wins_witness :
    insertionEnv.Lawful ∧ wellFormed (some ["linux/amd64".toList]) ∧
    isASCII "Tool-x86_64-Unknown-Linux-GNU.tgz".toList ∧
    (MatchesLongest (osSubs insertionEnv (some ["linux/amd64".toList]))
        "Tool-x86_64-Unknown-Linux-GNU.tgz".toList ∧
      MatchesLongest (archSubs insertionEnv (some ["linux/amd64".toList]))
        "Tool-x86_64-Unknown-Linux-GNU.tgz".toList ∧
      (occurs "unknown-linux-gnu".toList (toLower "Tool-x86_64-Unknown-Linux-GNU.tgz".toList) →
        ∃ subs m, osSubs insertionEnv (some ["linux/amd64".toList]) = some subs ∧
          matchSub "Tool-x86_64-Unknown-Linux-GNU.tgz".toList subs = some (some m) ∧
          toLower m.val ≠ "linux".toList)) :=
  ⟨insertionEnv_lawful, by decide, by decide,
    longest_token_wins insertionEnv insertionEnv_lawful (some ["linux/amd64".toList])
      (by decide) "Tool-x86_64-Unknown-Linux-GNU.tgz".toList (by decide)⟩

/-! ## parseOs, parseArch, parseDownload -/

theorem parseOs_spec {E : Env} (hE : E.Lawful) {systems : Option (List Str)}
    (hw : wellFormed systems) (filename : Str) :
    ∃ subs, osSubs E systems = some subs ∧
      ((parseOs E filename systems = some none ∧
          (∀ sub ∈ subs, ¬ occurs sub.val (toLower filename)) ∧
          hasSuffix (toLower filename) ".exe".toList = false) ∨
        (parseOs E filename systems = some (some ⟨[], "windows".toList, 0, -1⟩) ∧
          (∀ sub ∈ subs, ¬ occurs sub.val (toLower filename)) ∧
          hasSuffix (toLower filename) ".exe".toList = true) ∨
        ∃ m, parseOs E filename systems = some (some m) ∧ LongestMatch filename subs m) := by
  obtain ⟨subs, ho, hsorted, _, _⟩ := osSubs_spec hE hw
  refine ⟨subs, ho, ?_⟩
  rcases matchSub_longest filename hsorted with ⟨hm, hno⟩ | ⟨m, hm, hl⟩
  · cases hexe : hasSuffix (toLower filename) ".exe".toList with
    | false =>
      exact Or.inl ⟨by simp only [parseOs, ho, hm, hexe, Bool.false_eq_true, ↓reduceIte], hno, rfl⟩
    | true =>
      exact Or.inr (Or.inl ⟨by simp only [parseOs, ho, hm, hexe, ↓reduceIte], hno, rfl⟩)
  · exact Or.inr (Or.inr ⟨m, by simp [parseOs, ho, hm], hl⟩)

theorem parseArch_spec {E : Env} (hE : E.Lawful) {systems : Option (List Str)}
    (hw : wellFormed systems) (filename : Str) :
    ∃ subs, archSubs E systems = some subs ∧
      ((parseArch E filename systems = some (some ⟨[], "amd64".toList, -1, -1⟩) ∧
          ∀ sub ∈ subs, ¬ occurs sub.val (toLower filename)) ∨
        ∃ m, parseArch E filename systems = some (some m) ∧ LongestMatch filename subs m) := by
  obtain ⟨subs, ho, hsorted, _, _⟩ := archSubs_spec hE hw
  refine ⟨subs, ho, ?_⟩
  rcases matchSub_longest filename hsorted with ⟨hm, hno⟩ | ⟨m, hm, hl⟩
  · exact Or.inl ⟨by simp [parseArch, ho, hm], hno⟩
  · exact Or.inr ⟨m, by simp [parseArch, ho, hm], hl⟩

theorem substr_prefix {s : Str} {i : Nat} (h : i ≤ s.length) :
    substr s 0 (i : Int) = some (s.take i) := by
  have := substr_eq (s := s) (i := 0) (n := i) (by omega)
  simpa using this

theorem substr_tail {s : Str} {i : Nat} (h : i ≤ s.length) :
    substr s (i : Int) (s.length : Int) = some (s.drop i) := by
  have := substr_eq (s := s) (i := i) (n := s.length - i) (by omega)
  have hc : ((i : Int) + ((s.length - i : Nat) : Int)) = (s.length : Int) := by omega
  rw [hc] at this
  rw [this]
  congr 1
  apply List.take_of_length_le
  simp

theorem LongestMatch.bound {filename : Str} {subs : List systemSub} {m : systemSub}
    (h : LongestMatch filename subs m) :
    ∃ i : Nat, m.idx = (i : Int) ∧ i + m.val.length ≤ filename.length ∧
      m.val = (filename.drop i).take m.val.length ∧ occursAt (toLower m.val) (toLower filename) i := by
  obtain ⟨sub, _, i, _, hfirst, hidx, hval, hlow, _, _⟩ := h
  obtain ⟨p, q, hs, hp⟩ := hfirst.1
  have hlen : i + sub.val.length ≤ filename.length := by
    have := congrArg List.length hs
    rw [toLower_length] at this
    simp at this
    omega
  have hvl : m.val.length = sub.val.length := by
    rw [hval, List.length_take, List.length_drop]
    omega
  refine ⟨i, hidx, by omega, by rw [hvl]; exact hval, ?_⟩
  rw [hlow]
  exact hfirst.1

theorem fillHole_match {s hole : Str} {m : systemSub} {i : Nat} (hidx : m.idx = (i : Int))
    (hb : i + m.val.length ≤ s.length) :
    fillHole s m hole = some (s.take i ++ hole ++ s.drop (i + m.val.length)) := by
  unfold fillHole
  rw [if_pos (by omega), hidx, substr_prefix (by omega)]
  have := substr_tail (s := s) (i := i + m.val.length) hb
  rw [show ((i : Int) + (m.val.length : Int)) = ((i + m.val.length : Nat) : Int) by omega, this]

theorem fillHole_fallback {s hole : Str} {m : systemSub} (hidx : m.idx = -1) :
    fillHole s m hole = some s := by
  unfold fillHole
  rw [if_neg (by simp [hidx])]

theorem containsDist_spec (o a : Str) : ∀ l : List Str, (∀ d ∈ l, d.count '/' = 1) →
    ∃ b, containsDist o a l = some b ∧ (b = true ↔ ∃ d ∈ l, parseDist d = some (o, a)) := by
  intro l
  induction l with
  | nil => intro _; exact ⟨false, rfl, by simp⟩
  | cons d rest ih =>
    intro hw
    obtain ⟨o', a', hd⟩ := parseDist_some (hw d (List.mem_cons_self _ _))
    obtain ⟨b, hb, hiff⟩ := ih (fun d' hd' => hw d' (List.mem_cons_of_mem _ hd'))
    by_cases heq : o' = o ∧ a' = a
    · refine ⟨true, by simp [containsDist, hd, heq], ?_⟩
      simp only [true_iff]
      exact ⟨d, List.mem_cons_self _ _, by rw [hd, heq.1, heq.2]⟩
    · refine ⟨b, by simp only [containsDist, hd, if_neg heq, hb], ?_⟩
      rw [hiff]
      constructor
      · rintro ⟨d', hd', h⟩
        exact ⟨d', List.mem_cons_of_mem _ hd', h⟩
      · rintro ⟨d', hd', h⟩
        rcases List.mem_cons.mp hd' with h' | h'
        · subst h'
          rw [hd] at h
          simp only [Option.some.injEq, Prod.mk.injEq] at h
          exact absurd h heq
        · exact ⟨d', h', h⟩

theorem fillHole_some {filename : Str} (hole : Str) {subs : List systemSub} {m : systemSub}
    (h : m.idx = -1 ∨ LongestMatch filename subs m) :
    ∃ t, fillHole filename m hole = some t := by
  rcases h with h | h
  · exact ⟨_, fillHole_fallback h⟩
  · obtain ⟨i, hidx, hb, _, _⟩ := h.bound
    exact ⟨_, fillHole_match hidx hb⟩

theorem parseDownload_cases {E : Env} (hE : E.Lawful) {systems : Option (List Str)}
    (hw : wellFormed systems) (url version : Str) :
    (parseOs E url systems = some none ∧ parseDownload E url version systems = some none) ∨
    ∃ osSub tmpl1 archSub tmpl2 b,
      parseOs E url systems = some (some osSub) ∧
      fillHole url osSub "{{.os}}".toList = some tmpl1 ∧
      parseArch E tmpl1 systems = some (some archSub) ∧
      fillHole tmpl1 archSub "{{.arch}}".toList = some tmpl2 ∧
      containsDist osSub.normalized archSub.normalized (systems.getD []) = some b ∧
      (b = true ↔ inAllowList systems osSub.normalized archSub.normalized) ∧
      parseDownload E url version systems =
        if archSub.normalized ∈ forbiddenArch ∨ osSub.normalized ∈ forbiddenOS ∨ b = false then
          some none
        else
          (substr tmpl2 0 ((tmpl2.length : Int) - ((urlSuffix url).length : Int))).map
            (fun body => some (acceptedFile url version osSub archSub body)) := by
  obtain ⟨osl, _, hos⟩ := parseOs_spec hE hw url
  have key : ∀ osSub, parseOs E url systems = some (some osSub) →
      (osSub.idx = -1 ∨ LongestMatch url osl osSub) →
      ∃ osSub tmpl1 archSub tmpl2 b,
      parseOs E url systems = some (some osSub) ∧
      fillHole url osSub "{{.os}}".toList = some tmpl1 ∧
      parseArch E tmpl1 systems = some (some archSub) ∧
      fillHole tmpl1 archSub "{{.arch}}".toList = some tmpl2 ∧
      containsDist osSub.normalized archSub.normalized (systems.getD []) = some b ∧
      (b = true ↔ inAllowList systems osSub.normalized archSub.normalized) ∧
      parseDownload E url version systems =
        if archSub.normalized ∈ forbiddenArch ∨ osSub.normalized ∈ forbiddenOS ∨ b = false then
          some none
        else
          (substr tmpl2 0 ((tmpl2.length : Int) - ((urlSuffix url).length : Int))).map
            (fun body => some (acceptedFile url version osSub archSub body)) := by
    intro osSub hpo hcase
    obtain ⟨tmpl1, h1⟩ := fillHole_some "{{.os}}".toList hcase
    obtain ⟨arl, _, har⟩ := parseArch_spec hE hw tmpl1
    have hex : ∃ archSub, parseArch E tmpl1 systems = some (some archSub) ∧
        (archSub.idx = -1 ∨ LongestMatch tmpl1 arl archSub) := by
      rcases har with ⟨h, _⟩ | ⟨m, h, hl⟩
      · exact ⟨_, h, Or.inl rfl⟩
      · exact ⟨m, h, Or.inr hl⟩
    obtain ⟨archSub, hpa, hacase⟩ := hex
    obtain ⟨tmpl2, h2⟩ := fillHole_some "{{.arch}}".toList hacase
    obtain ⟨b, hb, hiff⟩ := containsDist_spec osSub.normalized archSub.normalized
      (systems.getD []) hw
    refine ⟨osSub, tmpl1, archSub, tmpl2, b, hpo, h1, hpa, h2, hb, hiff, ?_⟩
    unfold parseDownload
    simp only [hpo, h1, hpa, h2, hb]
    by_cases hfa : archSub.normalized ∈ forbiddenArch
    · simp [hfa]
    · by_cases hfo : osSub.normalized ∈ forbiddenOS
      · simp [hfo]
      · cases b with
        | false => simp [hfa, hfo]
        | true =>
          simp only [hfa, hfo, decide_False, Bool.or_self, Bool.false_eq_true, ↓reduceIte,
            Bool.true_eq_false, or_self]
          cases hsub : substr tmpl2 0 ((tmpl2.length : Int) - ((urlSuffix url).length : Int)) with
          | none =>
            unfold urlSuffix at hsub
            simp only [hsub, Option.map_none']
          | some body =>
            unfold urlSuffix at hsub
            simp only [hsub, Option.map_some']
            rfl
  rcases hos with ⟨h, _, _⟩ | ⟨h, _, _⟩ | ⟨m, h, hl⟩
  · left
    exact ⟨h, by simp [parseDownload, h]⟩
  · right; exact key _ h (Or.inl rfl)
  · right; exact key _ h (Or.inr hl)

theorem LongestMatch.occurs {filename : Str} {subs : List systemSub} {m : systemSub}
    (h : LongestMatch filename subs m) : ∃ sub ∈ subs, Builddep.occurs sub.val (toLower filename) := by
  obtain ⟨sub, hsub, i, _, hfirst, _⟩ := h
  obtain ⟨p, q, hs, _⟩ := hfirst.1
  exact ⟨sub, hsub, p, q, hs⟩

theorem forbidden_iff (o a : Str) :
    (a ∈ forbiddenArch ∨ o ∈ forbiddenOS) ↔
      (o = "js".toList ∨ a = "arm".toList ∨ a = "wasm".toList) := by
  simp only [forbiddenArch, forbiddenOS, List.mem_cons, List.mem_singleton, List.not_mem_nil,
    or_false]
  tauto

theorem parseDownload_version {E : Env} (hE : E.Lawful) {systems : Option (List Str)}
    (hw : wellFormed systems) (url v v' : Str) :
    (parseDownload E url v' systems = some none ↔ parseDownload E url v systems = some none) ∧
    ((∃ f, parseDownload E url v' systems = some (some f)) ↔
      ∃ f, parseDownload E url v systems = some (some f)) := by
  rcases parseDownload_cases hE hw url v with ⟨h0, h⟩ | ⟨o, t1, a, t2, b, ho, h1, ha, h2, hb, _, h⟩
  · rcases parseDownload_cases hE hw url v' with ⟨_, h'⟩ |
      ⟨o', t1', a', t2', b', ho', _, _, _, _, _, _⟩
    · simp [h, h']
    · rw [h0] at ho'; simp at ho'
  · rcases parseDownload_cases hE hw url v' with ⟨h0', _⟩ |
      ⟨o', t1', a', t2', b', ho', h1', ha', h2', hb', _, h'⟩
    · rw [h0'] at ho; simp at ho
    · rw [ho] at ho'
      simp only [Option.some.injEq] at ho'
      subst ho'
      rw [h1] at h1'
      simp only [Option.some.injEq] at h1'
      subst h1'
      rw [ha] at ha'
      simp only [Option.some.injEq] at ha'
      subst ha'
      rw [h2] at h2'
      simp only [Option.some.injEq] at h2'
      subst h2'
      rw [hb] at hb'
      simp only [Option.some.injEq] at hb'
      subst hb'
      rw [h, h']
      split
      · simp
      · cases substr t2 0 ((t2.length : Int) - ((urlSuffix url).length : Int)) with
        | none => simp
        | some body => simp

/-- C1. For a lawful environment, a well-formed allow-list and an ASCII URL:
`parseOs` returns nil exactly when no surface of `osSubs` occurs in the
lower-cased URL and the lower-cased URL does not end in `.exe`, and then
`parseDownload` rejects; otherwise, for the OS and the arch that `parseOs`
and `parseArch` return, `parseDownload` rejects exactly when the normalized
OS is `js`, or the normalized arch is `arm` or `wasm`, or the pair is not an
entry of the allow-list. Every accepted file has its pair in the allow-list
and outside the forbidden sets; `parseArch` always returns a match, so a
missing arch token alone never rejects; the version changes neither
rejection nor acceptance. -/
theorem parseDownload_rejects_iff (E : Env) (hE : E.Lawful) (url version : Str)
    (systems : Option (List Str)) (hw : wellFormed systems) (_hascii : isASCII url) :
    (∃ o, parseOs E url systems = some o ∧
      (o = none ↔
        (∃ subs, osSubs E systems = some subs ∧
          ∀ sub ∈ subs, ¬ occurs sub.val (toLower url)) ∧
        hasSuffix (toLower url) ".exe".toList = false) ∧
      (o = none → parseDownload E url version systems = some none) ∧
      (∀ osSub, o = some osSub →
        ∃ tmpl archSub, fillHole url osSub "{{.os}}".toList = some tmpl ∧
          parseArch E tmpl systems = some (some archSub) ∧
          (parseDownload E url version systems = some none ↔
            osSub.normalized = "js".toList ∨ archSub.normalized = "arm".toList ∨
            archSub.normalized = "wasm".toList ∨
            ¬ inAllowList systems osSub.normalized archSub.normalized))) ∧
    (∀ f, parseDownload E url version systems = some (some f) →
      f.osSub.normalized ≠ "js".toList ∧ f.archSub.normalized ≠ "arm".toList ∧
      f.archSub.normalized ≠ "wasm".toList ∧
      inAllowList systems f.osSub.normalized f.archSub.normalized) ∧
    (∀ tmpl, ∃ archSub, parseArch E tmpl systems = some (some archSub)) ∧
    (∀ version',
      (parseDownload E url version' systems = some none ↔
        parseDownload E url version systems = some none) ∧
      ((∃ f, parseDownload E url version' systems = some (some f)) ↔
        ∃ f, parseDownload E url version systems = some (some f))) := by
  refine ⟨?_, ?_, ?_, fun v' => parseDownload_version hE hw url version v'⟩
  · obtain ⟨osl, hosl, hos⟩ := parseOs_spec hE hw url
    have hcases := parseDownload_cases hE hw url version
    have hsome : ∀ osSub, parseOs E url systems = some (some osSub) →
        ∃ tmpl archSub, fillHole url osSub "{{.os}}".toList = some tmpl ∧
          parseArch E tmpl systems = some (some archSub) ∧
          (parseDownload E url version systems = some none ↔
            osSub.normalized = "js".toList ∨ archSub.normalized = "arm".toList ∨
            archSub.normalized = "wasm".toList ∨
            ¬ inAllowList systems osSub.normalized archSub.normalized) := by
      intro osSub hpo
      rcases hcases with ⟨h0, _⟩ | ⟨o, t1, a, t2, b, ho, h1, ha, h2, hb, hiff, h⟩
      · rw [h0] at hpo; simp at hpo
      · rw [hpo] at ho
        simp only [Option.some.injEq] at ho
        subst ho
        refine ⟨t1, a, h1, ha, ?_⟩
        have hforb := forbidden_iff osSub.normalized a.normalized
        rw [h]
        by_cases hf : a.normalized ∈ forbiddenArch ∨ osSub.normalized ∈ forbiddenOS
        · have hc : a.normalized ∈ forbiddenArch ∨ osSub.normalized ∈ forbiddenOS ∨
              b = false := by tauto
          rw [if_pos hc]
          simp only [true_iff]
          rcases hforb.mp hf with h' | h' | h'
          · exact Or.inl h'
          · exact Or.inr (Or.inl h')
          · exact Or.inr (Or.inr (Or.inl h'))
        · have hnf : ¬ (osSub.normalized = "js".toList ∨ a.normalized = "arm".toList ∨
              a.normalized = "wasm".toList) := fun hc => hf (hforb.mpr hc)
          cases b with
          | false =>
            rw [if_pos (Or.inr (Or.inr rfl))]
            simp only [true_iff]
            refine Or.inr (Or.inr (Or.inr ?_))
            intro hin
            exact absurd (hiff.mpr hin) (by simp)
          | true =>
            have hc : ¬ (a.normalized ∈ forbiddenArch ∨ osSub.normalized ∈ forbiddenOS ∨
                true = false) := by
              simp only [Bool.true_eq_false, or_false]; exact hf
            rw [if_neg hc]
            have hin := hiff.mp rfl
            constructor
            · intro hmap
              cases hsub : substr t2 0 ((t2.length : Int) - ((urlSuffix url).length : Int)) with
              | none => rw [hsub] at hmap; simp at hmap
              | some body => rw [hsub] at hmap; simp at hmap
            · rintro (h' | h' | h' | h')
              · exact absurd (Or.inl h') hnf
              · exact absurd (Or.inr (Or.inl h')) hnf
              · exact absurd (Or.inr (Or.inr h')) hnf
              · exact absurd hin h'
    rcases hos with ⟨h, hno, hexe⟩ | ⟨h, _, hexe⟩ | ⟨m, h, hl⟩
    · refine ⟨none, h, ?_, ?_, ?_⟩
      · simp only [true_iff]
        exact ⟨⟨osl, hosl, hno⟩, hexe⟩
      · intro _
        rcases hcases with ⟨_, h'⟩ | ⟨o, _, _, _, _, ho, _⟩
        · exact h'
        · rw [h] at ho; simp at ho
      · intro osSub ho; simp at ho
    · refine ⟨_, h, ?_, fun hc => Option.noConfusion hc, ?_⟩
      · constructor
        · intro hc; exact Option.noConfusion hc
        · rintro ⟨_, hne⟩
          rw [hexe] at hne
          exact absurd hne (by simp)
      · intro osSub ho
        apply hsome
        rw [h, ho]
    · refine ⟨_, h, ?_, fun hc => Option.noConfusion hc, ?_⟩
      · constructor
        · intro hc; exact Option.noConfusion hc
        rintro ⟨⟨subs, hsubs, hno⟩, _⟩
        rw [hosl] at hsubs
        simp only [Option.some.injEq] at hsubs
        subst hsubs
        obtain ⟨sub, hsub, hocc⟩ := hl.occurs
        exact absurd hocc (hno sub hsub)
      · intro osSub ho
        apply hsome
        rw [h, ho]
  · intro f hf
    rcases parseDownload_cases hE hw url version with ⟨_, h⟩ |
      ⟨o, t1, a, t2, b, ho, h1, ha, h2, hb, hiff, h⟩
    · rw [h] at hf; simp at hf
    · rw [h] at hf
      split at hf
      · simp at hf
      · rename_i hcond
        cases hsub : substr t2 0 ((t2.length : Int) - ((urlSuffix url).length : Int)) with
        | none => rw [hsub] at hf; simp at hf
        | some body =>
          rw [hsub] at hf
          simp only [Option.map_some', Option.some.injEq] at hf
          subst hf
          simp only [acceptedFile]
          have hnf : ¬ (o.normalized = "js".toList ∨ a.normalized = "arm".toList ∨
              a.normalized = "wasm".toList) := by
            rw [← forbidden_iff]; tauto
          have hb' : b = true := by
            cases b with
            | false => exact absurd (Or.inr (Or.inr rfl)) hcond
            | true => rfl
          refine ⟨fun hc => hnf (Or.inl hc), fun hc => hnf (Or.inr (Or.inl hc)),
            fun hc => hnf (Or.inr (Or.inr hc)), hiff.mp hb'⟩
  · intro tmpl
    obtain ⟨_, _, har⟩ := parseArch_spec hE hw tmpl
    rcases har with ⟨h, _⟩ | ⟨m, h, _⟩
    · exact ⟨_, h⟩
    · exact ⟨m, h⟩

theorem parseDownload_rejects_iff_witness :
    insertionEnv.Lawful ∧ wellFormed sampleSystems ∧ isASCII sampleUrl ∧
    ((∃ o, parseOs insertionEnv sampleUrl sampleSystems = some o ∧
      (o = none ↔
        (∃ subs, osSubs insertionEnv sampleSystems = some subs ∧
          ∀ sub ∈ subs, ¬ occurs sub.val (toLower sampleUrl)) ∧
        hasSuffix (toLower sampleUrl) ".exe".toList = false) ∧
      (o = none → parseDownload insertionEnv sampleUrl sampleVersion sampleSystems = some none) ∧
      (∀ osSub, o = some osSub →
        ∃ tmpl archSub, fillHole sampleUrl osSub "{{.os}}".toList = some tmpl ∧
          parseArch insertionEnv tmpl sampleSystems = some (some archSub) ∧
          (parseDownload insertionEnv sampleUrl sampleVersion sampleSystems = some none ↔
            osSub.normalized = "js".toList ∨ archSub.normalized = "arm".toList ∨
            archSub.normalized = "wasm".toList ∨
            ¬ inAllowList sampleSystems osSub.normalized archSub.normalized))) ∧
    (∀ f, parseDownload insertionEnv sampleUrl sampleVersion sampleSystems = some (some f) →
      f.osSub.normalized ≠ "js".toList ∧ f.archSub.normalized ≠ "arm".toList ∧
      f.archSub.normalized ≠ "wasm".toList ∧
      inAllowList sampleSystems f.osSub.normalized f.archSub.normalized) ∧
    (∀ tmpl, ∃ archSub, parseArch insertionEnv tmpl sampleSystems = some (some archSub)) ∧
    (∀ version',
      (parseDownload insertionEnv sampleUrl version' sampleSystems = some none ↔
        parseDownload insertionEnv sampleUrl sampleVersion sampleSystems = some none) ∧
      ((∃ f, parseDownload insertionEnv sampleUrl version' sampleSystems = some (some f)) ↔
        ∃ f, parseDownload insertionEnv sampleUrl sampleVersion sampleSystems = some (some f)))) :=
  ⟨insertionEnv_lawful, by decide, by decide,
    parseDownload_rejects_iff insertionEnv insertionEnv_lawful sampleUrl sampleVersion
      sampleSystems (by decide) (by decide)⟩

theorem parseDownload_inv {E : Env} {url version : Str} {systems : Option (List Str)}
    {f : dlFile} (h : parseDownload E url version systems = some (some f)) :
    ∃ osSub tmpl1 archSub tmpl2 body,
      parseOs E url systems = some (some osSub) ∧
      fillHole url osSub "{{.os}}".toList = some tmpl1 ∧
      parseArch E tmpl1 systems = some (some archSub) ∧
      fillHole tmpl1 archSub "{{.arch}}".toList = some tmpl2 ∧
      archSub.normalized ∉ forbiddenArch ∧ osSub.normalized ∉ forbiddenOS ∧
      containsDist osSub.normalized archSub.normalized (systems.getD []) = some true ∧
      substr tmpl2 0 ((tmpl2.length : Int) - ((urlSuffix url).length : Int)) = some body ∧
      f = acceptedFile url version osSub archSub body := by
  unfold parseDownload at h
  split at h
  · simp at h
  · simp at h
  · rename_i osSub hpo
    split at h
    · simp at h
    · rename_i tmpl1 h1
      split at h
      · simp at h
      · simp at h
      · rename_i archSub hpa
        split at h
        · simp at h
        · rename_i tmpl2 h2
          split at h
          · simp at h
          · rename_i hforb
            split at h
            · simp at h
            · simp at h
            · rename_i hcd
              cases hsub : substr tmpl2 0
                  ((tmpl2.length : Int) - ((urlSuffix url).length : Int)) with
              | none =>
                unfold urlSuffix at hsub
                simp only [hsub] at h
                exact Option.noConfusion h
              | some body =>
                refine ⟨osSub, tmpl1, archSub, tmpl2, body, hpo, h1, hpa, h2, ?_, ?_, hcd, hsub,
                  ?_⟩
                · intro hc; apply hforb; simp [hc]
                · intro hc; apply hforb; simp [hc]
                · unfold urlSuffix at hsub
                  simp only [hsub, Option.some.injEq] at h
                  rw [← h]; rfl

theorem archiveSuffixes_order :
    archiveSuffixes.Pairwise (fun a b => a.isSuffixOf b = false) := by
  decide

theorem archiveSuffixes_exe :
    ∀ s ∈ archiveSuffixes, s.isSuffixOf ".exe".toList = false ∧
      (".exe".toList).isSuffixOf s = false := by
  decide

theorem archiveSuffix_longest {url s : Str} (h : archiveSuffix url = some s) :
    s ∈ archiveSuffixes ∧ hasSuffix url s = true ∧
      ∀ s' ∈ archiveSuffixes, hasSuffix url s' = true → s'.length ≤ s.length := by
  unfold archiveSuffix at h
  obtain ⟨hs, pre, post, hsplit, hpre⟩ := List.find?_eq_some.mp h
  refine ⟨by rw [hsplit]; simp, hs, ?_⟩
  intro s' hs' hsuf
  by_contra hlt
  have hlt' : s.length < s'.length := by omega
  rw [hsplit] at hs'
  rcases List.mem_append.mp hs' with hin | hin
  · have := hpre s' hin
    rw [hsuf] at this
    simp at this
  · rcases List.mem_cons.mp hin with heq | hin
    · rw [heq] at hlt'; omega
    · have hord := archiveSuffixes_order
      rw [hsplit] at hord
      have h1 := (List.pairwise_cons.mp (List.pairwise_append.mp hord).2.1).1 s' hin
      have h2 : s <:+ s' :=
        List.suffix_of_suffix_length_le (List.isSuffixOf_iff_suffix.mp hs)
          (List.isSuffixOf_iff_suffix.mp hsuf) (by omega)
      rw [← List.isSuffixOf_iff_suffix] at h2
      rw [h2] at h1
      simp at h1

theorem archiveSuffix_not_exe {url s : Str} (hs : s ∈ archiveSuffixes)
    (h : hasSuffix url s = true) : hasSuffix url ".exe".toList = false := by
  cases hexe : hasSuffix url ".exe".toList with
  | false => rfl
  | true =>
    exfalso
    have h1 := List.isSuffixOf_iff_suffix.mp h
    have h2 := List.isSuffixOf_iff_suffix.mp hexe
    obtain ⟨ha, hb⟩ := archiveSuffixes_exe s hs
    rcases Nat.le_total s.length (".exe".toList).length with hl | hl
    · have := List.isSuffixOf_iff_suffix.mpr (List.suffix_of_suffix_length_le h1 h2 hl)
      rw [this] at ha; simp at ha
    · have := List.isSuffixOf_iff_suffix.mpr (List.suffix_of_suffix_length_le h2 h1 hl)
      rw [this] at hb; simp at hb

/-- C4. Suffix classification: for a URL that `parseDownload` accepts, if
the URL ends with an entry of the archive-suffix list, the returned suffix is
an entry the URL ends with, no shorter than every other such entry, and
`isArchive` is true; otherwise `isArchive` is false and the suffix is `.exe`
when the URL ends in `.exe` and empty when it does not. So `isArchive` is
true exactly when the suffix is an entry of the archive-suffix list. -/
theorem suffix_classification (E : Env) (url version : Str) (systems : Option (List Str))
    (f : dlFile) (hf : parseDownload E url version systems = some (some f)) :
    ((∃ s ∈ archiveSuffixes, hasSuffix url s = true) →
      f.suffix ∈ archiveSuffixes ∧ hasSuffix url f.suffix = true ∧
      (∀ s ∈ archiveSuffixes, hasSuffix url s = true → s.length ≤ f.suffix.length) ∧
      f.isArchive = true) ∧
    ((¬ ∃ s ∈ archiveSuffixes, hasSuffix url s = true) →
      f.isArchive = false ∧
      f.suffix = if hasSuffix url ".exe".toList = true then ".exe".toList else []) ∧
    (f.isArchive = true ↔ f.suffix ∈ archiveSuffixes) := by
  obtain ⟨osSub, tmpl1, archSub, tmpl2, body, _, _, _, _, _, _, _, _, hfeq⟩ := parseDownload_inv hf
  subst hfeq
  simp only [acceptedFile, urlSuffix]
  cases hsuf : archiveSuffix url with
  | none =>
    have hnone : ∀ s ∈ archiveSuffixes, ¬ hasSuffix url s = true := by
      unfold archiveSuffix at hsuf
      exact List.find?_eq_none.mp hsuf
    refine ⟨?_, ?_, ?_⟩
    · rintro ⟨s, hs, h⟩
      exact absurd h (hnone s hs)
    · intro _
      simp
    · simp only [Option.isSome_none, Bool.false_eq_true, Option.getD_none, false_iff]
      split
      · decide
      · decide
  | some s =>
    obtain ⟨hmem, hhas, hmax⟩ := archiveSuffix_longest hsuf
    have hexe := archiveSuffix_not_exe hmem hhas
    simp only [hexe, Bool.false_eq_true, ↓reduceIte, Option.getD_some, Option.isSome_some]
    refine ⟨fun _ => ⟨hmem, hhas, hmax, trivial⟩, ?_, ?_⟩
    · intro hno
      exact absurd ⟨s, hmem, hhas⟩ hno
    · simp [hmem]

theorem sampleFile_parsed :
    parseDownload insertionEnv sampleUrl sampleVersion sampleSystems = some (some sampleFile) := by
  decide

theorem suffix_classification_witness :
    parseDownload insertionEnv sampleUrl sampleVersion sampleSystems = some (some sampleFile) ∧
    (((∃ s ∈ archiveSuffixes, hasSuffix sampleUrl s = true) →
      sampleFile.suffix ∈ archiveSuffixes ∧ hasSuffix sampleUrl sampleFile.suffix = true ∧
      (∀ s ∈ archiveSuffixes, hasSuffix sampleUrl s = true →
        s.length ≤ sampleFile.suffix.length) ∧
      sampleFile.isArchive = true) ∧
    ((¬ ∃ s ∈ archiveSuffixes, hasSuffix sampleUrl s = true) →
      sampleFile.isArchive = false ∧
      sampleFile.suffix = if hasSuffix sampleUrl ".exe".toList = true then ".exe".toList else []) ∧
    (sampleFile.isArchive = true ↔ sampleFile.suffix ∈ archiveSuffixes)) :=
  ⟨sampleFile_parsed,
    suffix_classification insertionEnv sampleUrl sampleVersion sampleSystems sampleFile
      sampleFile_parsed⟩

/-! ## Slices, sorting and cutting -/

theorem Slice.elems_length {α : Type} {s : Slice α} (h : s.Valid) : s.elems.length = s.len := by
  unfold Slice.elems Slice.Valid at *
  rw [List.length_take]
  omega

theorem Slice.sortFunc_elems {α : Type} {E : Env} (hE : E.Lawful) (less : α → α → Bool)
    {s : Slice α} (h : s.Valid) : (s.sortFunc E less).elems = E.sortFunc α less s.elems := by
  unfold Slice.sortFunc Slice.elems
  simp only
  apply List.take_left'
  rw [(hE.perm α less _).length_eq]
  exact Slice.elems_length h

theorem Slice.sortFunc_valid {α : Type} {E : Env} (hE : E.Lawful) (less : α → α → Bool)
    {s : Slice α} (h : s.Valid) : (s.sortFunc E less).Valid := by
  unfold Slice.sortFunc Slice.Valid at *
  simp only [List.length_append, (hE.perm α less _).length_eq, List.length_take,
    List.length_drop]
  omega

theorem Slice.sortFunc_arr_length {α : Type} {E : Env} (hE : E.Lawful) (less : α → α → Bool)
    (s : Slice α) : (s.sortFunc E less).arr.length = s.arr.length := by
  unfold Slice.sortFunc
  simp only [List.length_append, (hE.perm α less _).length_eq, List.length_take,
    List.length_drop]
  omega

theorem indexFunc_spec {α : Type} (p : α → Bool) : ∀ l : List α,
    (indexFunc p l = none ∧ l.takeWhile (fun x => !p x) = l) ∨
    ∃ c, indexFunc p l = some c ∧ c < l.length ∧ l.take c = l.takeWhile (fun x => !p x) := by
  intro l
  induction l with
  | nil => left; simp [indexFunc]
  | cons x xs ih =>
    cases hp : p x with
    | true =>
      right
      exact ⟨0, by simp [indexFunc, hp], by simp, by simp [List.takeWhile, hp]⟩
    | false =>
      rcases ih with ⟨h1, h2⟩ | ⟨c, h1, h2, h3⟩
      · left
        exact ⟨by simp [indexFunc, hp, h1], by simp [List.takeWhile, hp, h2]⟩
      · right
        exact ⟨c + 1, by simp [indexFunc, hp, h1], by simp; omega,
          by simp [List.takeWhile, hp, h3]⟩

theorem cutAt_spec {α : Type} (p : α → Bool) {s : Slice α} (h : s.Valid) :
    ∃ s', cutAt p s = some s' ∧ s'.arr = s.arr ∧ s'.Valid ∧
      s'.elems = s.elems.takeWhile (fun x => !p x) := by
  have hl := Slice.elems_length h
  rcases indexFunc_spec p s.elems with ⟨h1, h2⟩ | ⟨c, h1, h2, h3⟩
  · exact ⟨s, by simp [cutAt, h1], rfl, h, h2.symm⟩
  · have hc : c ≤ s.arr.length := by
      unfold Slice.Valid at h; omega
    refine ⟨⟨s.arr, c⟩, by simp [cutAt, h1, Slice.reslice, hc], rfl, hc, ?_⟩
    rw [← h3]
    unfold Slice.elems
    simp only
    rw [List.take_take, Nat.min_eq_left (by omega)]

theorem takeWhile_eq_filter {α : Type} (q : α → Bool) : ∀ l : List α,
    l.Pairwise (fun a b => q b = true → q a = true) → l.takeWhile q = l.filter q := by
  intro l
  induction l with
  | nil => intro _; rfl
  | cons x xs ih =>
    intro h
    rw [List.pairwise_cons] at h
    cases hq : q x with
    | true => simp [List.takeWhile, List.filter, hq, ih h.2]
    | false =>
      have : xs.filter q = [] := by
        rw [List.filter_eq_nil_iff]
        intro b hb hqb
        have := h.1 b hb hqb
        rw [hq] at this
        exact absurd this (by simp)
      simp [List.takeWhile, List.filter, hq, this]

/-- A comparator that compares an integer rank in descending order. -/
theorem strictWeak_of_rank {α : Type} (rank : α → Int) (less : α → α → Bool)
    (hless : ∀ a b, less a b = decide (rank a > rank b)) : StrictWeak less := by
  refine ⟨?_, ?_, ?_⟩
  · intro a; simp [hless]
  · intro a b c; simp only [hless, decide_eq_true_eq]; omega
  · intro a b c; simp only [hless, decide_eq_false_iff_not]; omega

/-- Sorting by descending rank and cutting at the first element whose rank
is below that of the first element keeps the elements of maximal rank. -/
theorem sort_cut_top {α : Type} {E : Env} (hE : E.Lawful) (rank : α → Int)
    (less : α → α → Bool) (hless : ∀ a b, less a b = decide (rank a > rank b))
    (l : List α) (first : α) (hfirst : (E.sortFunc α less l).head? = some first) :
    first ∈ l ∧ (∀ g ∈ l, rank g ≤ rank first) ∧
    (E.sortFunc α less l).takeWhile (fun f => !decide (rank f < rank first)) =
      (E.sortFunc α less l).filter (fun f => decide (∀ g ∈ l, rank g ≤ rank f)) := by
  have hperm := hE.perm α less l
  have hsorted := hE.sorted α less l (strictWeak_of_rank rank less hless)
  obtain ⟨rest, hrest⟩ := List.head?_eq_some_iff.mp hfirst
  have hmem : first ∈ l := hperm.mem_iff.mp (by rw [hrest]; simp)
  have hmax : ∀ g ∈ l, rank g ≤ rank first := by
    intro g hg
    have hg' := hperm.mem_iff.mpr hg
    rw [hrest] at hg' hsorted
    rcases List.mem_cons.mp hg' with h | h
    · rw [h]
    · have := (List.pairwise_cons.mp hsorted).1 g h
      simp only [hless, decide_eq_false_iff_not] at this
      omega
  refine ⟨hmem, hmax, ?_⟩
  rw [takeWhile_eq_filter]
  · apply List.filter_congr
    intro x _
    have : (rank first ≤ rank x) ↔ ∀ g ∈ l, rank g ≤ rank x := by
      constructor
      · intro h g hg
        have := hmax g hg
        omega
      · intro h
        exact h first hmem
    by_cases hx : rank first ≤ rank x
    · have h1 : ¬ rank x < rank first := by omega
      have h2 := this.mp hx
      rw [decide_eq_false h1, decide_eq_true h2]; rfl
    · have h1 : rank x < rank first := by omega
      have h2 : ¬ ∀ g ∈ l, rank g ≤ rank x := fun hc => hx (this.mpr hc)
      rw [decide_eq_true h1, decide_eq_false h2]; rfl
  · refine hsorted.imp ?_
    intro a b hab hb
    simp only [hless, decide_eq_false_iff_not] at hab
    simp only [Bool.not_eq_true', decide_eq_false_iff_not] at hb ⊢
    omega

theorem Slice.elems_singleton {α : Type} {s : Slice α} (h : s.Valid) (h1 : s.len = 1) :
    ∃ x, s.elems = [x] := by
  have hl := Slice.elems_length h
  rw [h1] at hl
  match hs : s.elems with
  | [] => rw [hs] at hl; simp at hl
  | [x] => exact ⟨x, rfl⟩
  | _ :: _ :: _ => rw [hs] at hl; simp at hl

theorem Slice.arr_head {α : Type} {s : Slice α} (hne : s.elems ≠ []) :
    s.arr.head? = s.elems.head? := by
  unfold Slice.elems at *
  rw [List.head?_take]
  split
  · rename_i h0
    rw [h0] at hne
    simp at hne
  · rfl

theorem keepHighestPriority_spec {E : Env} (hE : E.Lawful) {s : Slice dlFile} (hv : s.Valid)
    (hne : 1 ≤ s.len) :
    ∃ s', keepHighestPriority E s = some s' ∧ s'.Valid ∧ 1 ≤ s'.len ∧
      s'.elems.Perm (s.elems.filter (fun f => decide (highestPriority s.elems f))) := by
  by_cases h2 : s.len < 2
  · refine ⟨s, by simp [keepHighestPriority, h2], hv, hne, ?_⟩
    obtain ⟨x, hx⟩ := Slice.elems_singleton hv (by omega)
    rw [hx]
    simp [highestPriority]
  · have hless : ∀ a b : dlFile, higherPriority a b = decide (a.priority > b.priority) :=
      fun _ _ => rfl
    have hvA := Slice.sortFunc_valid hE higherPriority hv
    have hA := Slice.sortFunc_elems hE higherPriority hv
    have hperm := hE.perm dlFile higherPriority s.elems
    have hlen := Slice.elems_length hv
    obtain ⟨first, hfirst⟩ : ∃ first, (E.sortFunc dlFile higherPriority s.elems).head? =
        some first := by
      cases hs : E.sortFunc dlFile higherPriority s.elems with
      | nil =>
        have := hperm.length_eq
        rw [hs] at this
        simp at this
        omega
      | cons x xs => exact ⟨x, rfl⟩
    obtain ⟨hmem, hmax, hcut⟩ := sort_cut_top hE (fun f => f.priority) higherPriority hless
      s.elems first hfirst
    obtain ⟨s', hs', _, hv', he'⟩ :=
      cutAt_spec (fun f => decide (f.priority < first.priority)) hvA
    rw [hA, hcut] at he'
    have hp : s'.elems.Perm (s.elems.filter (fun f => decide (highestPriority s.elems f))) := by
      rw [he']
      exact hperm.filter _
    refine ⟨s', ?_, hv', ?_, hp⟩
    · simp only [keepHighestPriority, h2, ↓reduceIte, hA, hfirst]
      exact hs'
    · have hin : first ∈ s'.elems := by
        apply hp.mem_iff.mpr
        rw [List.mem_filter]
        exact ⟨hmem, decide_eq_true hmax⟩
      have := Slice.elems_length hv'
      have hpos := List.length_pos_of_mem hin
      omega

theorem archiveFirst_rank (a b : dlFile) :
    archiveFirst a b =
      decide ((if a.isArchive = true then (1 : Int) else 0) >
        (if b.isArchive = true then (1 : Int) else 0)) := by
  unfold archiveFirst
  cases a.isArchive <;> cases b.isArchive <;> decide

theorem pick_first {E : Env} (hE : E.Lawful) (less : dlFile → dlFile → Bool)
    {s : Slice dlFile} (hv : s.Valid) (harr : 1 ≤ s.arr.length) :
    ∃ s' f, (s.sortFunc E less).reslice 1 = some s' ∧ s'.Valid ∧ s'.elems = [f] ∧
      ((s.len = 0 ∧ s.arr.head? = some f) ∨ f ∈ s.elems) := by
  have hal := Slice.sortFunc_arr_length hE less s
  have hA := Slice.sortFunc_elems hE less hv
  have hperm := hE.perm dlFile less s.elems
  obtain ⟨f, rest, hf⟩ : ∃ f rest, (s.sortFunc E less).arr = f :: rest := by
    cases hs : (s.sortFunc E less).arr with
    | nil => rw [hs] at hal; simp at hal; omega
    | cons x xs => exact ⟨x, xs, rfl⟩
  refine ⟨⟨(s.sortFunc E less).arr, 1⟩, f, ?_, ?_, ?_, ?_⟩
  · simp [Slice.reslice, hal, harr]
  · unfold Slice.Valid; simp only; omega
  · simp [Slice.elems, hf]
  · by_cases h0 : s.len = 0
    · left
      refine ⟨h0, ?_⟩
      have : (s.sortFunc E less).arr = s.arr := by
        unfold Slice.sortFunc
        simp only [h0, List.take_zero, List.drop_zero]
        have hnil : E.sortFunc dlFile less [] = [] :=
          List.length_eq_zero.mp (hE.perm dlFile less []).length_eq
        rw [hnil]
        rfl
      rw [← this, hf]
      rfl
    · right
      have hne : (s.sortFunc E less).elems ≠ [] := by
        intro hc
        have := Slice.elems_length (Slice.sortFunc_valid hE less hv)
        rw [hc] at this
        simp [Slice.sortFunc] at this
        omega
      have hh := Slice.arr_head hne
      rw [hf, hA] at hh
      apply hperm.mem_iff.mp
      exact List.mem_of_mem_head? hh.symm

theorem sorted_nonempty {α : Type} {E : Env} (hE : E.Lawful) (less : α → α → Bool)
    {l : List α} (h : 1 ≤ l.length) : ∃ first, (E.sortFunc α less l).head? = some first := by
  cases hs : E.sortFunc α less l with
  | nil =>
    have := (hE.perm α less l).length_eq
    rw [hs] at this
    simp at this
    omega
  | cons x xs => exact ⟨x, rfl⟩

/-- The body of the third loop on a bucket that holds at least one file: it
does not panic and leaves exactly one file, a file of the bucket with the
greatest frequency, and an archive if a file of the greatest frequency is
an archive. -/
theorem reduceBucket_spec {E : Env} (hE : E.Lawful) (freq : Str → Nat) {s : Slice dlFile}
    (hv : s.Valid) (hne : 1 ≤ s.len) :
    ∃ s' f, reduceBucket E freq s = some s' ∧ s'.Valid ∧ s'.elems = [f] ∧ f ∈ s.elems ∧
      (∀ c ∈ s.elems, freq c.url ≤ freq f.url) ∧
      ((∃ c ∈ s.elems, (∀ c' ∈ s.elems, freq c'.url ≤ freq c.url) ∧ c.isArchive = true) →
        f.isArchive = true) := by
  have hlen := Slice.elems_length hv
  by_cases h2 : s.len < 2
  · obtain ⟨x, hx⟩ := Slice.elems_singleton hv (by omega)
    refine ⟨s, x, by simp [reduceBucket, h2], hv, hx, by simp [hx], ?_, ?_⟩
    · intro c hc
      rw [hx] at hc
      rw [List.mem_singleton.mp hc]
    · rintro ⟨c, hc, _, harch⟩
      rw [hx] at hc
      rw [← List.mem_singleton.mp hc]
      exact harch
  · -- frequency
    have hlessA : ∀ a b : dlFile, moreFrequent freq a b =
        decide (((freq a.url : Nat) : Int) > ((freq b.url : Nat) : Int)) := by
      intro a b
      simp [moreFrequent]
    have hvA := Slice.sortFunc_valid hE (moreFrequent freq) hv
    have hA := Slice.sortFunc_elems hE (moreFrequent freq) hv
    have hpermA := hE.perm dlFile (moreFrequent freq) s.elems
    obtain ⟨first, hfirst⟩ := sorted_nonempty hE (moreFrequent freq) (l := s.elems) (by omega)
    obtain ⟨hmem, hmax, hcut⟩ := sort_cut_top hE (fun f => ((freq f.url : Nat) : Int))
      (moreFrequent freq) hlessA s.elems first hfirst
    obtain ⟨sB, hsB, harrB, hvB, heB⟩ :=
      cutAt_spec (fun f => decide (freq f.url < freq first.url)) hvA
    have hpred : (fun f : dlFile => !decide (freq f.url < freq first.url)) =
        (fun f : dlFile => !decide (((freq f.url : Nat) : Int) < ((freq first.url : Nat) : Int))) := by
      funext f
      simp
    rw [hA, hpred, hcut] at heB
    have hmemB : ∀ x, x ∈ sB.elems ↔ x ∈ s.elems ∧ ∀ c ∈ s.elems, freq c.url ≤ freq x.url := by
      intro x
      rw [heB, List.mem_filter, hpermA.mem_iff]
      simp only [decide_eq_true_eq, Nat.cast_le]
    have hfirstB : first ∈ sB.elems := (hmemB first).mpr ⟨hmem, by
      intro c hc
      have := hmax c hc
      simpa using this⟩
    have hlenB := Slice.elems_length hvB
    have hposB : 1 ≤ sB.len := by
      have := List.length_pos_of_mem hfirstB
      omega
    have harrlen : 2 ≤ sB.arr.length := by
      rw [harrB, Slice.sortFunc_arr_length hE]
      unfold Slice.Valid at hv
      omega
    have hstart : reduceBucket E freq s =
        (if sB.len = 1 then some sB
          else
            match cutAt (fun f => !f.isArchive) (sB.sortFunc E archiveFirst) with
            | none => none
            | some s =>
              if s.len = 1 then some s
              else (s.sortFunc E origUrlLess).reslice 1) := by
      simp only [reduceBucket, h2, ↓reduceIte, hA, hfirst, hsB]
    rw [hstart]
    by_cases hB1 : sB.len = 1
    · obtain ⟨x, hx⟩ := Slice.elems_singleton hvB hB1
      have hxin : x ∈ sB.elems := by rw [hx]; simp
      refine ⟨sB, x, by simp [hB1], hvB, hx, ((hmemB x).mp hxin).1, ((hmemB x).mp hxin).2, ?_⟩
      rintro ⟨c, hc, hcmax, harch⟩
      have : c ∈ sB.elems := (hmemB c).mpr ⟨hc, hcmax⟩
      rw [hx] at this
      rw [← List.mem_singleton.mp this]
      exact harch
    · -- archives
      simp only [hB1, ↓reduceIte]
      have hvC := Slice.sortFunc_valid hE archiveFirst hvB
      have hC := Slice.sortFunc_elems hE archiveFirst hvB
      have hpermC := hE.perm dlFile archiveFirst sB.elems
      have hsortedC := hE.sorted dlFile archiveFirst sB.elems
        (strictWeak_of_rank _ archiveFirst archiveFirst_rank)
      obtain ⟨sD, hsD, harrD, hvD, heD⟩ := cutAt_spec (fun f : dlFile => !f.isArchive) hvC
      rw [hC] at heD
      have hlenD := Slice.elems_length hvD
      have hmemD : ∀ x ∈ sD.elems, x ∈ sB.elems ∧ x.isArchive = true := by
        intro x hx
        rw [heD] at hx
        refine ⟨hpermC.mem_iff.mp ((List.takeWhile_prefix _).subset hx), ?_⟩
        have := List.mem_takeWhile_imp hx
        simpa using this
      obtain ⟨firstC, hfirstC⟩ := sorted_nonempty hE archiveFirst (l := sB.elems) (by omega)
      obtain ⟨restC, hrestC⟩ := List.head?_eq_some_iff.mp hfirstC
      have hfirstCin : firstC ∈ sB.elems := hpermC.mem_iff.mp (by rw [hrestC]; simp)
      have hDne : (∃ c ∈ sB.elems, c.isArchive = true) → sD.elems ≠ [] := by
        rintro ⟨c, hc, harch⟩
        have hfa : firstC.isArchive = true := by
          have hc' := hpermC.mem_iff.mpr hc
          rw [hrestC] at hc' hsortedC
          rcases List.mem_cons.mp hc' with h | h
          · rw [← h]; exact harch
          · have := (List.pairwise_cons.mp hsortedC).1 c h
            simp only [archiveFirst, harch, Bool.true_and, Bool.not_eq_false'] at this
            exact this
        rw [heD, hrestC]
        simp [List.takeWhile, hfa]
      simp only [hsD]
      by_cases hD1 : sD.len = 1
      · obtain ⟨x, hx⟩ := Slice.elems_singleton hvD hD1
        have hxin := hmemD x (by rw [hx]; simp)
        refine ⟨sD, x, by simp [hD1], hvD, hx, ((hmemB x).mp hxin.1).1,
          ((hmemB x).mp hxin.1).2, fun _ => hxin.2⟩
      · simp only [hD1, ↓reduceIte]
        have harrD' : 1 ≤ sD.arr.length := by
          rw [harrD, Slice.sortFunc_arr_length hE]
          omega
        obtain ⟨sE, f, hsE, hvE, heE, hcase⟩ := pick_first hE origUrlLess hvD harrD'
        rcases hcase with ⟨hD0, hhead⟩ | hin
        · have hDnil : sD.elems = [] := by
            apply List.length_eq_zero.mp
            omega
          have hCne : (sB.sortFunc E archiveFirst).elems ≠ [] := by
            rw [hC, hrestC]; simp
          have hh := Slice.arr_head hCne
          rw [hC, hfirstC, ← harrD, hhead] at hh
          simp only [Option.some.injEq] at hh
          subst hh
          refine ⟨sE, f, hsE, hvE, heE, ((hmemB f).mp hfirstCin).1,
            ((hmemB f).mp hfirstCin).2, ?_⟩
          rintro ⟨c, hc, hcmax, harch⟩
          exact absurd hDnil (hDne ⟨c, (hmemB c).mpr ⟨hc, hcmax⟩, harch⟩)
        · have hfin := hmemD f hin
          exact ⟨sE, f, hsE, hvE, heE, ((hmemB f).mp hfin.1).1, ((hmemB f).mp hfin.1).2,
            fun _ => hfin.2⟩

/-! ## The map of buckets -/

theorem getFiles_setFiles (k0 : Str) (s0 : Slice dlFile) : ∀ (m : FileMap) (k : Str),
    getFiles (setFiles m k0 s0) k = if k = k0 then s0 else getFiles m k := by
  intro m
  induction m with
  | nil =>
    intro k
    by_cases h : k = k0
    · simp [setFiles, getFiles, h]
    · have h' : ¬ k0 = k := fun hc => h hc.symm
      simp [setFiles, getFiles, h, h']
  | cons e rest ih =>
    intro k
    obtain ⟨k', s'⟩ := e
    by_cases h1 : k' = k0
    · subst h1
      by_cases h : k = k'
      · simp [setFiles, getFiles, h]
      · have h' : ¬ k' = k := fun hc => h hc.symm
        simp [setFiles, getFiles, h, h']
    · simp only [setFiles, h1, ↓reduceIte, getFiles]
      by_cases h2 : k' = k
      · have : ¬ k = k0 := fun hc => h1 (h2.trans hc)
        simp [h2, this]
      · simp only [h2, ↓reduceIte]
        exact ih k

theorem mapKeys_setFiles (k0 : Str) (s0 : Slice dlFile) : ∀ m : FileMap,
    mapKeys (setFiles m k0 s0) = if k0 ∈ mapKeys m then mapKeys m else mapKeys m ++ [k0] := by
  intro m
  induction m with
  | nil => simp [setFiles, mapKeys]
  | cons e rest ih =>
    obtain ⟨k', s'⟩ := e
    by_cases h1 : k' = k0
    · subst h1
      simp only [setFiles, ↓reduceIte, mapKeys, List.map_cons, List.mem_cons, true_or]
    · have h1' : ¬ k0 = k' := fun hc => h1 hc.symm
      simp only [setFiles, h1, ↓reduceIte]
      unfold mapKeys at ih ⊢
      simp only [List.map_cons, List.mem_cons, h1', false_or, ih]
      split <;> simp

theorem holdsBuckets_add {m : FileMap} {files : List dlFile} (h : holdsBuckets m files)
    (f : dlFile) :
    holdsBuckets (setFiles m f.system ((getFiles m f.system).append f)) (files ++ [f]) := by
  obtain ⟨hnd, hkeys, hget⟩ := h
  refine ⟨?_, ?_, ?_⟩
  · rw [mapKeys_setFiles]
    split
    · exact hnd
    · rename_i hnot
      exact List.Nodup.append hnd (by simp) (by simpa using hnot)
  · intro k
    rw [mapKeys_setFiles]
    constructor
    · intro hk
      split at hk
      · obtain ⟨g, hg, hgk⟩ := (hkeys k).mp hk
        exact ⟨g, List.mem_append_left _ hg, hgk⟩
      · rcases List.mem_append.mp hk with hk | hk
        · obtain ⟨g, hg, hgk⟩ := (hkeys k).mp hk
          exact ⟨g, List.mem_append_left _ hg, hgk⟩
        · exact ⟨f, by simp, (List.mem_singleton.mp hk).symm⟩
    · rintro ⟨g, hg, hgk⟩
      rcases List.mem_append.mp hg with hg | hg
      · have := (hkeys k).mpr ⟨g, hg, hgk⟩
        split
        · exact this
        · exact List.mem_append_left _ this
      · rw [List.mem_singleton.mp hg] at hgk
        split
        · rename_i hin; rw [← hgk]; exact hin
        · rw [← hgk]; simp
  · intro k
    rw [getFiles_setFiles]
    by_cases hk : k = f.system
    · subst hk
      simp only [↓reduceIte, hget, Slice.append, List.filter_append, List.take_length]
      simp
    · have hk' : ¬ f.system = k := fun hc => hk hc.symm
      simp only [hk, ↓reduceIte, hget, List.filter_append]
      simp [List.filter, hk']

theorem classify_holds {E : Env} {version : Str} {allowedSystems : Option (List Str)} :
    ∀ (dlUrls : List Str) (m m' : FileMap) (files : List dlFile), holdsBuckets m files →
      classify E version allowedSystems m dlUrls = some m' →
      holdsBuckets m' (files ++ acceptedFiles E dlUrls version allowedSystems) := by
  intro dlUrls
  induction dlUrls with
  | nil =>
    intro m m' files h hc
    simp only [classify, Option.some.injEq] at hc
    subst hc
    simpa [acceptedFiles] using h
  | cons u rest ih =>
    intro m m' files h hc
    simp only [classify] at hc
    split at hc
    · simp at hc
    · rename_i hp
      have := ih m m' files h hc
      simpa [acceptedFiles, hp] using this
    · rename_i f hp
      have := ih _ m' _ (holdsBuckets_add h f) hc
      simpa [acceptedFiles, hp] using this

theorem holdsBuckets_nil : holdsBuckets [] [] := by
  refine ⟨by simp [mapKeys], ?_, ?_⟩
  · intro k; simp [mapKeys]
  · intro k; simp [getFiles]

theorem getFiles_of_mem : ∀ {m : FileMap}, (mapKeys m).Nodup → ∀ e ∈ m, getFiles m e.1 = e.2 := by
  intro m
  induction m with
  | nil => intro _ e he; simp at he
  | cons e0 rest ih =>
    intro hnd e he
    obtain ⟨k0, s0⟩ := e0
    simp only [mapKeys, List.map_cons, List.nodup_cons] at hnd
    rcases List.mem_cons.mp he with h | h
    · subst h; simp [getFiles]
    · have hne : ¬ k0 = e.1 := by
        intro hc
        apply hnd.1
        rw [hc]
        exact List.mem_map_of_mem Prod.fst h
      simp only [getFiles, hne, ↓reduceIte]
      exact ih hnd.2 e h

theorem getFiles_not_key : ∀ {m : FileMap} {k : Str}, k ∉ mapKeys m → getFiles m k = ⟨[], 0⟩ := by
  intro m
  induction m with
  | nil => intro k _; rfl
  | cons e0 rest ih =>
    intro k hk
    obtain ⟨k0, s0⟩ := e0
    simp only [mapKeys, List.map_cons, List.mem_cons, not_or] at hk
    have hne : ¬ k0 = k := fun hc => hk.1 hc.symm
    simp only [getFiles, hne, ↓reduceIte]
    exact ih hk.2

theorem forEachBucket_spec (body : Slice dlFile → Option (Slice dlFile)) :
    ∀ (m : FileMap), (∀ e ∈ m, (body e.2).isSome) →
      ∃ m', forEachBucket body m = some m' ∧ mapKeys m' = mapKeys m ∧
        ∀ k ∈ mapKeys m, body (getFiles m k) = some (getFiles m' k) := by
  intro m
  induction m with
  | nil => intro _; exact ⟨[], rfl, rfl, by simp [mapKeys]⟩
  | cons e0 rest ih =>
    intro hb
    obtain ⟨k0, s0⟩ := e0
    obtain ⟨s0', hs0⟩ := Option.isSome_iff_exists.mp (hb (k0, s0) (List.mem_cons_self _ _))
    obtain ⟨rest', hrest, hkeys, hget⟩ := ih (fun e he => hb e (List.mem_cons_of_mem _ he))
    simp only at hs0
    refine ⟨(k0, s0') :: rest', by simp [forEachBucket, hs0, hrest], ?_, ?_⟩
    · simp only [mapKeys, List.map_cons] at hkeys ⊢
      rw [hkeys]
    · intro k hk
      by_cases h : k0 = k
      · simp only [getFiles, h, ↓reduceIte]
        exact hs0
      · simp only [getFiles, h, ↓reduceIte]
        simp only [mapKeys, List.map_cons, List.mem_cons] at hk
        rcases hk with hk | hk
        · exact absurd hk.symm h
        · exact hget k hk

theorem flatten_by_keys {m : FileMap} (hnd : (mapKeys m).Nodup) :
    (m.map (fun e => e.2.elems)).flatten =
      ((mapKeys m).map (fun k => (getFiles m k).elems)).flatten := by
  unfold mapKeys
  rw [List.map_map]
  congr 1
  apply List.map_congr_left
  intro e he
  simp only [Function.comp_apply]
  rw [getFiles_of_mem hnd e he]

theorem flatten_map_perm {α β : Type} (g1 g2 : α → List β) : ∀ K : List α,
    (∀ k ∈ K, (g1 k).Perm (g2 k)) → ((K.map g1).flatten).Perm ((K.map g2).flatten) := by
  intro K
  induction K with
  | nil => intro _; simp
  | cons k K ih =>
    intro h
    simp only [List.map_cons, List.flatten_cons]
    exact (h k (List.mem_cons_self _ _)).append (ih (fun k' hk' => h k' (List.mem_cons_of_mem _ hk')))

/-- Splitting a list by the distinct values of a key and concatenating the
parts gives a permutation of the list. -/
theorem partition_perm {α : Type} (key : α → Str) : ∀ (K : List Str), K.Nodup →
    ∀ l : List α, (∀ x ∈ l, key x ∈ K) →
      ((K.map (fun k => l.filter (fun x => decide (key x = k)))).flatten).Perm l := by
  intro K
  induction K with
  | nil =>
    intro _ l hl
    cases l with
    | nil => simp
    | cons x xs => exact absurd (hl x (List.mem_cons_self _ _)) (by simp)
  | cons k K ih =>
    intro hnd l hl
    rw [List.nodup_cons] at hnd
    simp only [List.map_cons, List.flatten_cons]
    have hrest : ∀ k' ∈ K, l.filter (fun x => decide (key x = k')) =
        (l.filter (fun x => !decide (key x = k))).filter (fun x => decide (key x = k')) := by
      intro k' hk'
      rw [List.filter_filter]
      apply List.filter_congr
      intro x _
      by_cases hx : key x = k'
      · have hne : ¬ k' = k := by
          intro hc
          rw [hc] at hk'
          exact hnd.1 hk'
        simp [hx, hne]
      · simp [hx]
    have hmap : K.map (fun k' => l.filter (fun x => decide (key x = k'))) =
        K.map (fun k' => (l.filter (fun x => !decide (key x = k))).filter
          (fun x => decide (key x = k'))) :=
      List.map_congr_left hrest
    rw [hmap]
    have hih := ih hnd.2 (l.filter (fun x => !decide (key x = k))) (by
      intro x hx
      rw [List.mem_filter] at hx
      have := hl x hx.1
      rcases List.mem_cons.mp this with h | h
      · simp [h] at hx
      · exact h)
    exact (List.Perm.append_left _ hih).trans (List.filter_append_perm _ l)

/-! ## The selection of one file for each system -/

theorem topCandidates_eq (E : Env) (dlUrls : List Str) (version : Str)
    (allowedSystems : Option (List Str)) (k : Str) :
    topCandidates E dlUrls version allowedSystems k =
      (survivors E dlUrls version allowedSystems).filter (fun f => decide (f.system = k)) := by
  unfold topCandidates survivors
  rw [classifiedTo, List.filter_filter, List.filter_filter]
  apply List.filter_congr
  intro f _
  by_cases hk : f.system = k
  · subst hk
    simp [classifiedTo]
  · simp [hk]

theorem mem_topCandidates {E : Env} {dlUrls : List Str} {version : Str}
    {allowedSystems : Option (List Str)} {k : Str} {f : dlFile}
    (h : f ∈ topCandidates E dlUrls version allowedSystems k) :
    f ∈ classifiedTo E dlUrls version allowedSystems k ∧
      highestPriority (classifiedTo E dlUrls version allowedSystems k) f := by
  unfold topCandidates at h
  rw [List.mem_filter] at h
  exact ⟨h.1, of_decide_eq_true h.2⟩

theorem classify_buckets {E : Env} {dlUrls : List Str} {version : Str}
    {allowedSystems : Option (List Str)} {m0 : FileMap}
    (hc : classify E version allowedSystems [] dlUrls = some m0) :
    (mapKeys m0).Nodup ∧
    (∀ k, k ∈ mapKeys m0 ↔ classifiedTo E dlUrls version allowedSystems k ≠ []) ∧
    ∀ k, getFiles m0 k =
      ⟨classifiedTo E dlUrls version allowedSystems k,
        (classifiedTo E dlUrls version allowedSystems k).length⟩ := by
  have h := classify_holds dlUrls [] m0 [] holdsBuckets_nil hc
  simp only [List.nil_append] at h
  obtain ⟨hnd, hkeys, hget⟩ := h
  refine ⟨hnd, ?_, hget⟩
  intro k
  rw [hkeys k]
  unfold classifiedTo
  constructor
  · rintro ⟨f, hf, hfk⟩ hnil
    have : f ∈ (acceptedFiles E dlUrls version allowedSystems).filter
        (fun f => decide (f.system = k)) := by
      rw [List.mem_filter]; exact ⟨hf, by simp [hfk]⟩
    rw [hnil] at this
    simp at this
  · intro hne
    obtain ⟨f, hf⟩ := List.exists_mem_of_ne_nil _ hne
    rw [List.mem_filter] at hf
    exact ⟨f, hf.1, of_decide_eq_true hf.2⟩

theorem priorityFiles_spec {E : Env} (hE : E.Lawful) {dlUrls : List Str} {version : Str}
    {allowedSystems : Option (List Str)} {m0 : FileMap}
    (hc : classify E version allowedSystems [] dlUrls = some m0) :
    ∃ m1, priorityFiles E dlUrls version allowedSystems = some m1 ∧ mapKeys m1 = mapKeys m0 ∧
      (∀ k ∈ mapKeys m0, (getFiles m1 k).Valid ∧ 1 ≤ (getFiles m1 k).len ∧
        (getFiles m1 k).elems.Perm (topCandidates E dlUrls version allowedSystems k)) ∧
      ∀ u, urlFrequency m1 u = frequency E dlUrls version allowedSystems u := by
  obtain ⟨hnd, hkeys, hget⟩ := classify_buckets hc
  have hbucket : ∀ k ∈ mapKeys m0, (getFiles m0 k).Valid ∧ 1 ≤ (getFiles m0 k).len ∧
      (getFiles m0 k).elems = classifiedTo E dlUrls version allowedSystems k := by
    intro k hk
    rw [hget k]
    refine ⟨Nat.le_refl _, ?_, by simp [Slice.elems]⟩
    have := (hkeys k).mp hk
    exact List.length_pos.mpr this
  have hsome : ∀ e ∈ m0, (keepHighestPriority E e.2).isSome := by
    intro e he
    have hk : e.1 ∈ mapKeys m0 := List.mem_map_of_mem Prod.fst he
    obtain ⟨hv, hl, _⟩ := hbucket e.1 hk
    rw [getFiles_of_mem hnd e he] at hv hl
    obtain ⟨s', hs', _⟩ := keepHighestPriority_spec hE hv hl
    rw [hs']; rfl
  obtain ⟨m1, hm1, hkeys1, hget1⟩ := forEachBucket_spec (keepHighestPriority E) m0 hsome
  have hb1 : ∀ k ∈ mapKeys m0, (getFiles m1 k).Valid ∧ 1 ≤ (getFiles m1 k).len ∧
      (getFiles m1 k).elems.Perm (topCandidates E dlUrls version allowedSystems k) := by
    intro k hk
    obtain ⟨hv, hl, he⟩ := hbucket k hk
    obtain ⟨s', hs', hv', hl', hp'⟩ := keepHighestPriority_spec hE hv hl
    rw [hget1 k hk] at hs'
    simp only [Option.some.injEq] at hs'
    rw [hs']
    refine ⟨hv', hl', ?_⟩
    rw [he] at hp'
    exact hp'
  refine ⟨m1, by simp [priorityFiles, hc, hm1], hkeys1, hb1, ?_⟩
  intro u
  unfold urlFrequency frequency
  apply List.Perm.length_eq
  apply List.Perm.filter
  rw [flatten_by_keys (by rw [hkeys1]; exact hnd), hkeys1]
  refine (flatten_map_perm _ (fun k => topCandidates E dlUrls version allowedSystems k) _
    (fun k hk => (hb1 k hk).2.2)).trans ?_
  have hfun : (fun k => topCandidates E dlUrls version allowedSystems k) =
      (fun k => (survivors E dlUrls version allowedSystems).filter
        (fun f => decide (f.system = k))) := by
    funext k
    exact topCandidates_eq E dlUrls version allowedSystems k
  rw [hfun]
  apply partition_perm dlFile.system _ hnd
  intro x hx
  unfold survivors at hx
  rw [List.mem_filter] at hx
  rw [hkeys]
  intro hnil
  have : x ∈ classifiedTo E dlUrls version allowedSystems x.system := by
    unfold classifiedTo
    rw [List.mem_filter]
    exact ⟨hx.1, by simp⟩
  rw [hnil] at this
  simp at this

theorem mem_finalists {E : Env} {dlUrls : List Str} {version : Str}
    {allowedSystems : Option (List Str)} {k : Str} {f : dlFile} :
    f ∈ finalists E dlUrls version allowedSystems k ↔
      f ∈ topCandidates E dlUrls version allowedSystems k ∧
      ∀ g ∈ topCandidates E dlUrls version allowedSystems k,
        frequency E dlUrls version allowedSystems g.url ≤
          frequency E dlUrls version allowedSystems f.url := by
  unfold finalists
  rw [List.mem_filter]
  simp only [decide_eq_true_eq]

/-- The state of the map after the tie-break cascade. -/
theorem reducedFiles_spec {E : Env} (hE : E.Lawful) {dlUrls : List Str} {version : Str}
    {allowedSystems : Option (List Str)} {m0 : FileMap}
    (hc : classify E version allowedSystems [] dlUrls = some m0) :
    ∃ m2, reducedFiles E dlUrls version allowedSystems = some m2 ∧
      (∀ k, classifiedTo E dlUrls version allowedSystems k = [] → getFiles m2 k = ⟨[], 0⟩) ∧
      ∀ k, classifiedTo E dlUrls version allowedSystems k ≠ [] →
        ∃ f, (getFiles m2 k).elems = [f] ∧ (getFiles m2 k).len = 1 ∧
          f ∈ topCandidates E dlUrls version allowedSystems k ∧
          (∀ c ∈ topCandidates E dlUrls version allowedSystems k,
            frequency E dlUrls version allowedSystems c.url ≤
              frequency E dlUrls version allowedSystems f.url) ∧
          ((∃ c ∈ finalists E dlUrls version allowedSystems k, c.isArchive = true) →
            f.isArchive = true) := by
  obtain ⟨hnd, hkeys, _⟩ := classify_buckets hc
  obtain ⟨m1, hm1, hkeys1, hb1, hfreq⟩ := priorityFiles_spec hE hc
  have hfreq' : urlFrequency m1 = frequency E dlUrls version allowedSystems := funext hfreq
  have hnd1 : (mapKeys m1).Nodup := by rw [hkeys1]; exact hnd
  have hsome : ∀ e ∈ m1, (reduceBucket E (urlFrequency m1) e.2).isSome := by
    intro e he
    have hk : e.1 ∈ mapKeys m0 := by
      rw [← hkeys1]; exact List.mem_map_of_mem Prod.fst he
    obtain ⟨hv, hl, _⟩ := hb1 e.1 hk
    rw [getFiles_of_mem hnd1 e he] at hv hl
    obtain ⟨s', f, hs', _⟩ := reduceBucket_spec hE (urlFrequency m1) hv hl
    rw [hs']; rfl
  obtain ⟨m2, hm2, hkeys2, hget2⟩ := forEachBucket_spec (reduceBucket E (urlFrequency m1)) m1 hsome
  refine ⟨m2, by simp [reducedFiles, hm1, hm2], ?_, ?_⟩
  · intro k hk
    apply getFiles_not_key
    rw [hkeys2, hkeys1, hkeys k]
    simp [hk]
  · intro k hk
    have hkin : k ∈ mapKeys m0 := (hkeys k).mpr hk
    obtain ⟨hv, hl, hp⟩ := hb1 k hkin
    obtain ⟨s', f, hs', hv', he', hfin, hmax, harch⟩ :=
      reduceBucket_spec hE (urlFrequency m1) hv hl
    rw [hget2 k (by rw [hkeys1]; exact hkin)] at hs'
    simp only [Option.some.injEq] at hs'
    rw [hs']
    rw [hfreq'] at hmax harch
    refine ⟨f, he', ?_, hp.mem_iff.mp hfin, ?_, ?_⟩
    · have := Slice.elems_length hv'
      rw [he'] at this
      simpa using this.symm
    · intro c hc'
      exact hmax c (hp.mem_iff.mpr hc')
    · rintro ⟨c, hcf, hca⟩
      rw [mem_finalists] at hcf
      apply harch
      refine ⟨c, hp.mem_iff.mpr hcf.1, ?_, hca⟩
      intro c' hc'
      exact hcf.2 c' (hp.mem_iff.mp hc')

theorem remapDarwinArm64_spec {E : Env} {dlUrls : List Str} {version : Str}
    {allowedSystems : Option (List Str)} (m2 : FileMap)
    (hnil : ∀ k, classifiedTo E dlUrls version allowedSystems k = [] → getFiles m2 k = ⟨[], 0⟩)
    (hone : ∀ k, classifiedTo E dlUrls version allowedSystems k ≠ [] →
      ∃ f, (getFiles m2 k).elems = [f] ∧ (getFiles m2 k).len = 1) :
    ∃ m3, remapDarwinArm64 m2 allowedSystems = some m3 ∧
      (remapApplies E dlUrls version allowedSystems →
        ∃ f0, (getFiles m2 "darwin/amd64".toList).elems = [f0] ∧
          ∀ k, getFiles m3 k =
            if k = "darwin/arm64".toList then ⟨[remappedFile f0], 1⟩ else getFiles m2 k) ∧
      (¬ remapApplies E dlUrls version allowedSystems → m3 = m2) := by
  by_cases hcond : remapApplies E dlUrls version allowedSystems
  · obtain ⟨hallow, harm, hamd⟩ := hcond
    obtain ⟨f0, hf0, hlen⟩ := hone _ hamd
    have harm' := hnil _ harm
    refine ⟨setFiles m2 "darwin/arm64".toList ⟨[remappedFile f0], 1⟩, ?_, ?_, ?_⟩
    · unfold remapDarwinArm64
      rw [if_pos ⟨by omega, by rw [harm'], hallow⟩, hf0, harm']
      rfl
    · intro _
      exact ⟨f0, hf0, fun k => getFiles_setFiles _ _ m2 k⟩
    · intro hno
      exact absurd ⟨hallow, harm, hamd⟩ hno
  · refine ⟨m2, ?_, fun h => absurd h hcond, fun _ => rfl⟩
    unfold remapDarwinArm64
    rw [if_neg]
    rintro ⟨h1, h2, h3⟩
    apply hcond
    refine ⟨h3, ?_, ?_⟩
    · by_contra hne
      obtain ⟨f, _, hl⟩ := hone _ hne
      omega
    · intro hnil'
      rw [hnil _ hnil'] at h1
      simp at h1

/-- The buckets after the cascade and after the darwin/arm64 remapping. -/
theorem systemFiles_spec {E : Env} (hE : E.Lawful) {dlUrls : List Str} {version : Str}
    {allowedSystems : Option (List Str)}
    (hc : (classify E version allowedSystems [] dlUrls).isSome) :
    ∃ m2 m3, reducedFiles E dlUrls version allowedSystems = some m2 ∧
      systemFiles E dlUrls version allowedSystems = some m3 ∧
      (∀ k, classifiedTo E dlUrls version allowedSystems k = [] → getFiles m2 k = ⟨[], 0⟩) ∧
      (∀ k, classifiedTo E dlUrls version allowedSystems k ≠ [] →
        ∃ f, (getFiles m2 k).elems = [f] ∧ (getFiles m3 k).elems = [f] ∧
          f ∈ topCandidates E dlUrls version allowedSystems k ∧
          (∀ c ∈ topCandidates E dlUrls version allowedSystems k,
            frequency E dlUrls version allowedSystems c.url ≤
              frequency E dlUrls version allowedSystems f.url) ∧
          ((∃ c ∈ finalists E dlUrls version allowedSystems k, c.isArchive = true) →
            f.isArchive = true)) ∧
      (remapApplies E dlUrls version allowedSystems →
        ∃ f0, (getFiles m2 "darwin/amd64".toList).elems = [f0] ∧
          ∀ k, getFiles m3 k =
            if k = "darwin/arm64".toList then ⟨[remappedFile f0], 1⟩ else getFiles m2 k) ∧
      (¬ remapApplies E dlUrls version allowedSystems → m3 = m2) := by
  obtain ⟨m0, hm0⟩ := Option.isSome_iff_exists.mp hc
  obtain ⟨m2, hm2, hnil, hone⟩ := reducedFiles_spec hE hm0
  obtain ⟨m3, hm3, hyes, hno⟩ := remapDarwinArm64_spec m2 hnil
    (fun k hk => by
      obtain ⟨f, h1, h2, _⟩ := hone k hk
      exact ⟨f, h1, h2⟩)
  refine ⟨m2, m3, hm2, by simp [systemFiles, hm2, hm3], hnil, ?_, hyes, hno⟩
  intro k hk
  obtain ⟨f, h1, _, h3, h4, h5⟩ := hone k hk
  refine ⟨f, h1, ?_, h3, h4, h5⟩
  by_cases hcond : remapApplies E dlUrls version allowedSystems
  · obtain ⟨f0, _, hget⟩ := hyes hcond
    rw [hget k]
    have : ¬ k = "darwin/arm64".toList := by
      intro hc'
      rw [hc'] at hk
      exact hk hcond.2.1
    rw [if_neg this]
    exact h1
  · rw [hno hcond]
    exact h1

theorem chosenFile_of_elems {m : FileMap} {k : Str} {f g : dlFile}
    (h : (getFiles m k).elems = [f]) (hg : chosenFile m k = some g) : g = f := by
  unfold chosenFile at hg
  rw [h] at hg
  simpa using hg.symm

/-- C5. Whenever the classification loop of `parseDownloads` has not
panicked, the tie-break cascade and the darwin/arm64 remapping return, and
every system to which at least one URL was classified holds exactly one
file after the cascade (and still when the group builder takes over), one
of the files `parseDownload` produced for that system. No assumption is
made on archives: the statement covers a bucket of several candidates none
of which is an archive. -/
theorem cascade_keeps_one (E : Env) (hE : E.Lawful) (dlUrls : List Str) (version : Str)
    (allowedSystems : Option (List Str))
    (hc : (classify E version allowedSystems [] dlUrls).isSome) :
    ∃ m2 m3, reducedFiles E dlUrls version allowedSystems = some m2 ∧
      systemFiles E dlUrls version allowedSystems = some m3 ∧
      ∀ system, classifiedTo E dlUrls version allowedSystems system ≠ [] →
        ∃ f, (getFiles m2 system).elems = [f] ∧ (getFiles m3 system).elems = [f] ∧
          f ∈ classifiedTo E dlUrls version allowedSystems system := by
  obtain ⟨m2, m3, h2, h3, _, hone, _, _⟩ := systemFiles_spec hE hc
  refine ⟨m2, m3, h2, h3, ?_⟩
  intro k hk
  obtain ⟨f, h1, h1', htop, _, _⟩ := hone k hk
  exact ⟨f, h1, h1', (mem_topCandidates htop).1⟩

/-- C7. Frequency tie-break: with the frequency of a templated url being the
number of files, over all systems, that survive the highest-priority filter
and carry that url, the file `parseDownloads` chooses for a system has a
templated url of maximal frequency among the highest-priority candidates of
that system, whatever the order of the origUrls. -/
theorem chosen_has_max_frequency (E : Env) (hE : E.Lawful) (dlUrls : List Str)
    (version : Str) (allowedSystems : Option (List Str))
    (hc : (classify E version allowedSystems [] dlUrls).isSome) :
    ∃ m, systemFiles E dlUrls version allowedSystems = some m ∧
      ∀ system f, chosenFile m system = some f →
        ∀ c ∈ topCandidates E dlUrls version allowedSystems system,
          frequency E dlUrls version allowedSystems c.url ≤
            frequency E dlUrls version allowedSystems f.url := by
  obtain ⟨m2, m3, _, h3, hnil, hone, hyes, hno⟩ := systemFiles_spec hE hc
  refine ⟨m3, h3, ?_⟩
  intro k f hf c hc'
  by_cases hk : classifiedTo E dlUrls version allowedSystems k = []
  · unfold topCandidates at hc'
    rw [hk] at hc'
    simp at hc'
  · obtain ⟨f', _, h1', _, hmax, _⟩ := hone k hk
    rw [chosenFile_of_elems h1' hf]
    exact hmax c hc'

theorem splitOn_no_sep (sep : Char) : ∀ s : Str, ∀ p ∈ splitOn sep s, sep ∉ p := by
  intro s
  induction s with
  | nil => intro p hp; simp [splitOn] at hp; simp [hp]
  | cons c cs ih =>
    intro p hp
    simp only [splitOn] at hp
    split at hp
    · rcases List.mem_cons.mp hp with h | h
      · simp [h]
      · exact ih p h
    · rename_i hc
      split at hp
      · rename_i h0
        have := splitOn_length sep cs
        rw [h0] at this
        simp at this
      · rename_i q qs h0
        rw [h0] at ih
        rcases List.mem_cons.mp hp with h | h
        · rw [h]
          intro hmem
          rcases List.mem_cons.mp hmem with h' | h'
          · exact hc h'.symm
          · exact ih q (List.mem_cons_self _ _) h'
        · exact ih p (List.mem_cons_of_mem _ h)

theorem parseDist_parts {d o a : Str} (h : parseDist d = some (o, a)) : '/' ∉ o ∧ '/' ∉ a := by
  unfold parseDist at h
  split at h
  · rename_i o' a' hs
    simp only [Option.some.injEq, Prod.mk.injEq] at h
    have := splitOn_no_sep '/' d
    rw [hs] at this
    rw [← h.1, ← h.2]
    exact ⟨this o' (by simp), this a' (by simp)⟩
  · simp at h

theorem containsDist_true {o a : Str} : ∀ {l : List Str}, containsDist o a l = some true →
    ∃ d ∈ l, parseDist d = some (o, a) := by
  intro l
  induction l with
  | nil => intro h; simp [containsDist] at h
  | cons d rest ih =>
    intro h
    simp only [containsDist] at h
    split at h
    · simp at h
    · rename_i o' a' hd
      split at h
      · rename_i heq
        exact ⟨d, List.mem_cons_self _ _, by rw [hd, heq.1, heq.2]⟩
      · obtain ⟨d', hd', h'⟩ := ih h
        exact ⟨d', List.mem_cons_of_mem _ hd', h'⟩

theorem append_sep_inj (sep : Char) : ∀ {a a' b b' : Str}, sep ∉ a → sep ∉ a' →
    a ++ sep :: b = a' ++ sep :: b' → a = a' ∧ b = b' := by
  intro a
  induction a with
  | nil =>
    intro a' b b' _ ha' h
    cases a' with
    | nil => simpa using h
    | cons c cs =>
      simp only [List.nil_append, List.cons_append, List.cons.injEq] at h
      exact absurd (by simp [h.1]) ha'
  | cons x xs ih =>
    intro a' b b' ha ha' h
    cases a' with
    | nil =>
      simp only [List.nil_append, List.cons_append, List.cons.injEq] at h
      exact absurd (by simp [h.1]) ha
    | cons c cs =>
      simp only [List.cons_append, List.cons.injEq] at h
      have := ih (fun hc => ha (List.mem_cons_of_mem _ hc))
        (fun hc => ha' (List.mem_cons_of_mem _ hc)) h.2
      exact ⟨by rw [h.1, this.1], this.2⟩

theorem mem_acceptedFiles {E : Env} {dlUrls : List Str} {version : Str}
    {allowedSystems : Option (List Str)} {f : dlFile}
    (h : f ∈ acceptedFiles E dlUrls version allowedSystems) :
    ∃ u ∈ dlUrls, parseDownload E u version allowedSystems = some (some f) := by
  unfold acceptedFiles at h
  obtain ⟨u, hu, hf⟩ := List.mem_filterMap.mp h
  refine ⟨u, hu, ?_⟩
  cases hp : parseDownload E u version allowedSystems with
  | none => rw [hp] at hf; simp at hf
  | some r =>
    rw [hp] at hf
    simp only [Option.getD_some] at hf
    rw [hf]

theorem classified_darwin_amd64 {E : Env} {dlUrls : List Str} {version : Str}
    {allowedSystems : Option (List Str)} {f : dlFile}
    (h : f ∈ classifiedTo E dlUrls version allowedSystems "darwin/amd64".toList) :
    f.osSub.normalized = "darwin".toList ∧ f.archSub.normalized = "amd64".toList := by
  unfold classifiedTo at h
  rw [List.mem_filter] at h
  obtain ⟨u, _, hp⟩ := mem_acceptedFiles h.1
  obtain ⟨osSub, _, archSub, _, body, _, _, _, _, _, _, hcd, _, hf⟩ := parseDownload_inv hp
  obtain ⟨d, _, hd⟩ := containsDist_true hcd
  have hfree := (parseDist_parts hd).1
  have hsys : f.system = "darwin/amd64".toList := of_decide_eq_true h.2
  subst hf
  simp only [acceptedFile, dlFile.system] at hsys ⊢
  exact append_sep_inj '/' hfree (by decide) hsys

/-- C10. darwin/arm64 synthesis: whenever the classification loop has not
panicked, if darwin/arm64 is in the allow-list, no URL was classified to it
and some URL was classified to darwin/amd64, then darwin/arm64 receives
exactly one file, which has the origUrl, the templated url and the arch
surface of the file chosen for darwin/amd64, normalized arch `arm64` and the
priority of that file minus 2, while the file chosen for darwin/amd64 is
unchanged, with normalized arch `amd64`. If one of the three conditions
fails, the map is left as the cascade produced it. -/
theorem darwin_arm64_synthesis (E : Env) (hE : E.Lawful) (dlUrls : List Str)
    (version : Str) (allowedSystems : Option (List Str))
    (hc : (classify E version allowedSystems [] dlUrls).isSome) :
    ∃ m2 m3, reducedFiles E dlUrls version allowedSystems = some m2 ∧
      systemFiles E dlUrls version allowedSystems = some m3 ∧
      (remapApplies E dlUrls version allowedSystems →
        ∃ f0, chosenFile m2 "darwin/amd64".toList = some f0 ∧
          chosenFile m3 "darwin/amd64".toList = some f0 ∧
          f0.archSub.normalized = "amd64".toList ∧
          (getFiles m3 "darwin/arm64".toList).elems = [remappedFile f0] ∧
          (remappedFile f0).origUrl = f0.origUrl ∧ (remappedFile f0).url = f0.url ∧
          (remappedFile f0).archSub.val = f0.archSub.val ∧
          (remappedFile f0).archSub.normalized = "arm64".toList ∧
          (remappedFile f0).priority = f0.priority - 2) ∧
      (¬ remapApplies E dlUrls version allowedSystems → m3 = m2) := by
  obtain ⟨m2, m3, h2, h3, hnil, hone, hyes, hno⟩ := systemFiles_spec hE hc
  refine ⟨m2, m3, h2, h3, ?_, hno⟩
  intro hcond
  obtain ⟨f0, hf0, hget⟩ := hyes hcond
  obtain ⟨f, h1, h1', htop, _, _⟩ := hone _ hcond.2.2
  rw [hf0] at h1
  simp only [List.cons.injEq, and_true] at h1
  subst h1
  refine ⟨f0, by unfold chosenFile; rw [hf0]; rfl, by unfold chosenFile; rw [h1']; rfl,
    (classified_darwin_amd64 (mem_topCandidates htop).1).2, ?_, rfl, rfl, rfl, rfl, rfl⟩
  rw [hget, if_pos rfl]
  rfl

theorem cascade_keeps_one_witness :
    insertionEnv.Lawful ∧
    (classify insertionEnv sampleVersion sampleAllowed [] sampleUrls).isSome = true ∧
    (∃ m2 m3, reducedFiles insertionEnv sampleUrls sampleVersion sampleAllowed = some m2 ∧
      systemFiles insertionEnv sampleUrls sampleVersion sampleAllowed = some m3 ∧
      ∀ system, classifiedTo insertionEnv sampleUrls sampleVersion sampleAllowed system ≠ [] →
        ∃ f, (getFiles m2 system).elems = [f] ∧ (getFiles m3 system).elems = [f] ∧
          f ∈ classifiedTo insertionEnv sampleUrls sampleVersion sampleAllowed system) :=
  ⟨insertionEnv_lawful, by decide,
    cascade_keeps_one insertionEnv insertionEnv_lawful sampleUrls sampleVersion sampleAllowed
      (by decide)⟩

theorem chosen_has_max_frequency_witness :
    insertionEnv.Lawful ∧
    (classify insertionEnv sampleVersion sampleAllowed [] sampleUrls).isSome = true ∧
    (∃ m, systemFiles insertionEnv sampleUrls sampleVersion sampleAllowed = some m ∧
      ∀ system f, chosenFile m system = some f →
        ∀ c ∈ topCandidates insertionEnv sampleUrls sampleVersion sampleAllowed system,
          frequency insertionEnv sampleUrls sampleVersion sampleAllowed c.url ≤
            frequency insertionEnv sampleUrls sampleVersion sampleAllowed f.url) ∧
    (systemFiles insertionEnv sampleUrls sampleVersion sampleAllowed).map
        (fun m => (chosenFile m "linux/amd64".toList).map (fun f => f.origUrl)) =
      some (some "t_linux_amd64.tar.gz".toList) :=
  ⟨insertionEnv_lawful, by decide,
    chosen_has_max_frequency insertionEnv insertionEnv_lawful sampleUrls sampleVersion sampleAllowed
      (by decide), by decide⟩

theorem darwin_arm64_synthesis_witness :
    insertionEnv.Lawful ∧
    (classify insertionEnv sampleVersion sampleAllowed [] sampleUrls).isSome = true ∧
    (∃ m2 m3, reducedFiles insertionEnv sampleUrls sampleVersion sampleAllowed = some m2 ∧
      systemFiles insertionEnv sampleUrls sampleVersion sampleAllowed = some m3 ∧
      (remapApplies insertionEnv sampleUrls sampleVersion sampleAllowed →
        ∃ f0, chosenFile m2 "darwin/amd64".toList = some f0 ∧
          chosenFile m3 "darwin/amd64".toList = some f0 ∧
          f0.archSub.normalized = "amd64".toList ∧
          (getFiles m3 "darwin/arm64".toList).elems = [remappedFile f0] ∧
          (remappedFile f0).origUrl = f0.origUrl ∧ (remappedFile f0).url = f0.url ∧
          (remappedFile f0).archSub.val = f0.archSub.val ∧
          (remappedFile f0).archSub.normalized = "arm64".toList ∧
          (remappedFile f0).priority = f0.priority - 2) ∧
      (¬ remapApplies insertionEnv sampleUrls sampleVersion sampleAllowed → m3 = m2)) :=
  ⟨insertionEnv_lawful, by decide,
    darwin_arm64_synthesis insertionEnv insertionEnv_lawful sampleUrls sampleVersion sampleAllowed
      (by decide)⟩

/-- C9 at the failing input: two candidates of linux/amd64 survive the
priority, frequency and archive-preference steps, neither is an archive, and
`parseDownloads` chooses the one whose origUrl is not the smallest. -/
theorem alphabetical_tiebreak_broken :
    (finalists insertionEnv checksumFirstUrls [] linuxOnly "linux/amd64".toList).map
        (fun f => (f.origUrl, f.isArchive)) =
      [("tool_linux_amd64.sha256".toList, false), ("tool_linux_amd64".toList, false)] ∧
    (systemFiles insertionEnv checksumFirstUrls [] linuxOnly).map
        (fun m => (chosenFile m "linux/amd64".toList).map (fun f => f.origUrl)) =
      some (some "tool_linux_amd64.sha256".toList) ∧
    "tool_linux_amd64".toList < "tool_linux_amd64.sha256".toList := by
  decide

/-! ## ReplaceAll -/

theorem replaceAllAux_skip (old new : Str) : ∀ (x r : Str) (k : Nat), x.length = k →
    replaceAllAux old new k (x ++ r) = replaceAllAux old new 0 r := by
  intro x
  induction x with
  | nil => intro r k hk; simp at hk; subst hk; rfl
  | cons c x ih =>
    intro r k hk
    cases k with
    | zero => simp at hk
    | succ k =>
      simp only [List.cons_append, replaceAllAux]
      exact ih r k (by simpa using hk)

theorem replaceAll_nil (old new : Str) : replaceAll [] old new = [] := rfl

theorem replaceAll_hit {old : Str} (new r : Str) (h : old ≠ []) :
    replaceAll (old ++ r) old new = new ++ replaceAll r old new := by
  cases old with
  | nil => exact absurd rfl h
  | cons c o =>
    have hpre : (c :: o).isPrefixOf (c :: (o ++ r)) = true :=
      List.isPrefixOf_iff_prefix.mpr ⟨r, rfl⟩
    show replaceAllAux (c :: o) new 0 (c :: (o ++ r)) = new ++ replaceAllAux (c :: o) new 0 r
    simp only [replaceAllAux]
    rw [if_pos hpre]
    congr 1
    exact replaceAllAux_skip (c :: o) new o r _ (by simp)

theorem replaceAll_miss {old : Str} (new : Str) {c : Char} {cs : Str}
    (h : ¬ old <+: c :: cs) :
    replaceAll (c :: cs) old new = c :: replaceAll cs old new := by
  unfold replaceAll
  simp only [replaceAllAux]
  rw [if_neg (fun hc => h (List.isPrefixOf_iff_prefix.mp hc))]

theorem replaceAll_plain {old : Str} (new : Str) {b : Char} (hb : old.head? = some b) :
    ∀ (t r : Str), b ∉ t → replaceAll (t ++ r) old new = t ++ replaceAll r old new := by
  intro t
  induction t with
  | nil => intro r _; rfl
  | cons c t ih =>
    intro r hc
    have hcb : c ≠ b := fun h => hc (by simp [h])
    have hmiss : ¬ old <+: c :: (t ++ r) := by
      intro hp
      obtain ⟨o, ho⟩ := List.head?_eq_some_iff.mp hb
      rw [ho, List.cons_prefix_cons] at hp
      exact hcb hp.1.symm
    rw [List.cons_append, replaceAll_miss new hmiss, ih r (fun h => hc (List.mem_cons_of_mem _ h))]
    rfl

theorem NoOcc.cons {H : Str} {c : Char} {t : Str} (h : NoOcc H (c :: t)) : NoOcc H t :=
  fun u hu => h u (List.suffix_cons_iff.mpr (Or.inr hu))

theorem NoOcc.drop_append {H : Str} : ∀ (v : Str) {t : Str}, NoOcc H (v ++ t) → NoOcc H t := by
  intro v
  induction v with
  | nil => intro t h; exact h
  | cons c v ih => intro t h; exact ih (NoOcc.cons h)

theorem noOcc_cons_iff {H : Str} {c : Char} {t : Str} :
    NoOcc H (c :: t) ↔ ¬ H <+: c :: t ∧ NoOcc H t := by
  constructor
  · intro h
    exact ⟨h _ (List.suffix_refl _), h.cons⟩
  · rintro ⟨h1, h2⟩ u hu
    rcases List.suffix_cons_iff.mp hu with h | h
    · rw [h]; exact h1
    · exact h2 u h

theorem noOcc_plain {H : Str} {b : Char} (hb : H.head? = some b) :
    ∀ (t r : Str), b ∉ t → NoOcc H r → NoOcc H (t ++ r) := by
  intro t
  induction t with
  | nil => intro r _ h; exact h
  | cons c t ih =>
    intro r hc h
    rw [List.cons_append, noOcc_cons_iff]
    refine ⟨?_, ih r (fun h' => hc (List.mem_cons_of_mem _ h')) h⟩
    intro hp
    obtain ⟨o, ho⟩ := List.head?_eq_some_iff.mp hb
    rw [ho, List.cons_prefix_cons] at hp
    exact hc (by simp [hp.1])

/-- The text left of the first replacement: `replaceAll t v H` starts with a
prefix of `t` that is followed by nothing or by `H`. -/
theorem replaceAll_shape (v H : Str) (hv : v ≠ []) : ∀ (n : Nat) (t : Str), t.length ≤ n →
    ∃ s0 rest, replaceAll t v H = s0 ++ rest ∧ s0 <+: t ∧ (rest = [] ∨ H <+: rest) := by
  intro n
  induction n with
  | zero =>
    intro t ht
    have : t = [] := List.length_eq_zero.mp (by omega)
    subst this
    exact ⟨[], [], rfl, List.prefix_refl _, Or.inl rfl⟩
  | succ n ih =>
    intro t ht
    cases t with
    | nil => exact ⟨[], [], rfl, List.prefix_refl _, Or.inl rfl⟩
    | cons c r =>
      by_cases hp : v <+: c :: r
      · obtain ⟨q, hq⟩ := hp
        refine ⟨[], H ++ replaceAll q v H, ?_, List.nil_prefix, Or.inr (List.prefix_append _ _)⟩
        rw [← hq, replaceAll_hit H q hv]
        rfl
      · obtain ⟨s0, rest, h1, h2, h3⟩ := ih r (by simpa using ht)
        refine ⟨c :: s0, rest, ?_, ?_, h3⟩
        · rw [replaceAll_miss H hp, h1]; rfl
        · rw [List.cons_prefix_cons]; exact ⟨rfl, h2⟩

/-- Replacing every `v` by `H` and then every `H` by `v` gives the text
back, when `H` does not occur in the text and no proper non-empty prefix of
`H` is a suffix of `H`. -/
theorem replaceAll_round_trip (v H : Str) (hv : v ≠ []) (hH : H ≠ [])
    (hunb : ∀ w, w ≠ [] → w.length < H.length → w <+: H → ¬ w <:+ H) :
    ∀ (n : Nat) (t : Str), t.length ≤ n → NoOcc H t →
      replaceAll (replaceAll t v H) H v = t := by
  intro n
  induction n with
  | zero =>
    intro t ht _
    have : t = [] := List.length_eq_zero.mp (by omega)
    subst this
    rfl
  | succ n ih =>
    intro t ht hno
    cases t with
    | nil => rfl
    | cons c r =>
      by_cases hp : v <+: c :: r
      · obtain ⟨q, hq⟩ := hp
        have hlen : q.length ≤ n := by
          have := congrArg List.length hq
          simp only [List.length_append, List.length_cons] at this ht
          have hvl : 0 < v.length := List.length_pos.mpr hv
          omega
        rw [← hq, replaceAll_hit H q hv, replaceAll_hit v _ hH,
          ih q hlen (NoOcc.drop_append v (by rw [hq]; exact hno))]
      · rw [replaceAll_miss H hp]
        have hmiss : ¬ H <+: c :: replaceAll r v H := by
          intro hc
          obtain ⟨s0, rest, h1, h2, h3⟩ := replaceAll_shape v H hv r.length r (Nat.le_refl _)
          rw [h1] at hc
          have hs0 : c :: s0 <+: c :: r := by
            rw [List.cons_prefix_cons]; exact ⟨rfl, h2⟩
          by_cases hl : H.length ≤ (c :: s0).length
          · have : H <+: c :: s0 :=
              List.prefix_of_prefix_length_le hc
                (by rw [← List.cons_append]; exact List.prefix_append _ _) hl
            exact hno _ (List.suffix_refl _) (this.trans hs0)
          · have hl' : (c :: s0).length < H.length := by omega
            have hpre : c :: s0 <+: H :=
              List.prefix_of_prefix_length_le
                (by rw [← List.cons_append]; exact List.prefix_append _ _) hc (by omega)
            obtain ⟨w, hw⟩ := hpre
            have hwne : w ≠ [] := by
              intro h0
              rw [h0] at hw
              rw [← hw] at hl'
              simp at hl'
            have hwlen : w.length < H.length := by
              rw [← hw]; simp; omega
            have hwrest : w <+: rest := by
              rw [← hw, ← List.cons_append, List.prefix_append_right_inj] at hc
              exact hc
            rcases h3 with h3 | h3
            · rw [h3] at hwrest
              exact hwne (List.prefix_nil.mp hwrest)
            · have hwH : w <+: H :=
                List.prefix_of_prefix_length_le hwrest h3 (by omega)
              exact hunb w hwne hwlen hwH ⟨c :: s0, hw⟩
        rw [replaceAll_miss v hmiss, ih r (by simpa using ht) hno.cons]

theorem replaceAll_noOcc {old : Str} (new : Str) : ∀ t : Str, NoOcc old t →
    replaceAll t old new = t := by
  intro t
  induction t with
  | nil => intro _; rfl
  | cons c t ih =>
    intro h
    rw [replaceAll_miss new (h _ (List.suffix_refl _)), ih h.cons]

/-- A hole other than the one being rendered is passed over. -/
theorem replaceAll_over_hole (old new : Str) (body r : Str)
    (hold : old.head? = some '{') (hbody : '{' ∉ body)
    (h1 : ¬ old <+: '{' :: '{' :: (body ++ r)) (h2 : ¬ old <+: '{' :: (body ++ r)) :
    replaceAll ('{' :: '{' :: (body ++ r)) old new =
      '{' :: '{' :: (body ++ replaceAll r old new) := by
  rw [replaceAll_miss new h1, replaceAll_miss new h2, replaceAll_plain new hold body r hbody]

theorem segsTmpl_cons (s : Seg) (segs : List Seg) :
    segsTmpl (s :: segs) = s.tmpl ++ segsTmpl segs := by
  simp [segsTmpl]

theorem replaceAll_segs (h : Seg) (hh : h = .os ∨ h = .arch ∨ h = .urlSuffix) (v : Str) :
    ∀ segs : List Seg, (∀ s ∈ segs, s.plain) →
      replaceAll (segsTmpl segs) h.tmpl v = segsTmpl (segs.map (Seg.fill h v)) := by
  intro segs
  induction segs with
  | nil => intro _; rfl
  | cons s segs ih =>
    intro hp
    have ihr := ih (fun s' hs' => hp s' (List.mem_cons_of_mem _ hs'))
    have hs := hp s (List.mem_cons_self _ _)
    have hhead : h.tmpl.head? = some '{' := by
      rcases hh with rfl | rfl | rfl <;> rfl
    have hne : h.tmpl ≠ [] := by
      rcases hh with rfl | rfl | rfl <;> decide
    rw [List.map_cons, segsTmpl_cons, segsTmpl_cons, ← ihr]
    cases s with
    | text t =>
      exact replaceAll_plain v hhead t _ hs
    | os =>
      rcases hh with rfl | rfl | rfl
      · exact replaceAll_hit v _ hne
      · exact replaceAll_over_hole "{{.arch}}".toList v ".os\x7d\x7d".toList
          (segsTmpl segs) rfl (by decide) (by simp [List.cons_prefix_cons])
          (by simp [List.cons_prefix_cons])
      · exact replaceAll_over_hole "{{.urlSuffix}}".toList v ".os\x7d\x7d".toList
          (segsTmpl segs) rfl (by decide) (by simp [List.cons_prefix_cons])
          (by simp [List.cons_prefix_cons])
    | arch =>
      rcases hh with rfl | rfl | rfl
      · exact replaceAll_over_hole "{{.os}}".toList v ".arch\x7d\x7d".toList
          (segsTmpl segs) rfl (by decide) (by simp [List.cons_prefix_cons])
          (by simp [List.cons_prefix_cons])
      · exact replaceAll_hit v _ hne
      · exact replaceAll_over_hole "{{.urlSuffix}}".toList v ".arch\x7d\x7d".toList
          (segsTmpl segs) rfl (by decide) (by simp [List.cons_prefix_cons])
          (by simp [List.cons_prefix_cons])
    | urlSuffix =>
      rcases hh with rfl | rfl | rfl
      · exact replaceAll_over_hole "{{.os}}".toList v ".urlSuffix\x7d\x7d".toList
          (segsTmpl segs) rfl (by decide) (by simp [List.cons_prefix_cons])
          (by simp [List.cons_prefix_cons])
      · exact replaceAll_over_hole "{{.arch}}".toList v ".urlSuffix\x7d\x7d".toList
          (segsTmpl segs) rfl (by decide) (by simp [List.cons_prefix_cons])
          (by simp [List.cons_prefix_cons])
      · exact replaceAll_hit v _ hne

theorem fill_plain (h : Seg) {v : Str} (hv : '{' ∉ v) :
    ∀ {segs : List Seg}, (∀ s ∈ segs, s.plain) → ∀ s ∈ segs.map (Seg.fill h v), s.plain := by
  intro segs hp s hs
  obtain ⟨s0, hs0, rfl⟩ := List.mem_map.mp hs
  have := hp s0 hs0
  cases s0 <;> cases h <;> simp only [Seg.fill, Seg.plain] <;> first | exact hv | exact this

theorem fill_all (osVal archVal suffix : Str) : ∀ segs : List Seg,
    segsTmpl (((segs.map (Seg.fill .urlSuffix suffix)).map (Seg.fill .arch archVal)).map
      (Seg.fill .os osVal)) = segsValue osVal archVal suffix segs := by
  intro segs
  induction segs with
  | nil => rfl
  | cons s segs ih =>
    simp only [segsTmpl, segsValue, List.map_cons, List.flatten_cons] at ih ⊢
    rw [ih]
    cases s <;> rfl

theorem noOcc_nil {H : Str} (h : H ≠ []) : NoOcc H [] := by
  intro u hu hp
  rw [List.suffix_nil.mp hu] at hp
  exact h (List.prefix_nil.mp hp)

theorem noOcc_version_segs : ∀ segs : List Seg, (∀ s ∈ segs, s.plain) →
    NoOcc "{{.version}}".toList (segsTmpl segs) := by
  intro segs
  induction segs with
  | nil => intro _; exact noOcc_nil (by decide)
  | cons s segs ih =>
    intro hp
    have ihr := ih (fun s' hs' => hp s' (List.mem_cons_of_mem _ hs'))
    have hs := hp s (List.mem_cons_self _ _)
    cases s with
    | text t =>
      simp only [segsTmpl, List.map_cons, List.flatten_cons, Seg.tmpl] at ihr ⊢
      exact noOcc_plain (H := "{{.version}}".toList) (b := '{') rfl t _ hs ihr
    | os =>
      simp only [segsTmpl, List.map_cons, List.flatten_cons, Seg.tmpl] at ihr ⊢
      show NoOcc _ ('{' :: '{' :: (".os\x7d\x7d".toList ++ _))
      rw [noOcc_cons_iff, noOcc_cons_iff]
      exact ⟨by simp [List.cons_prefix_cons], by simp [List.cons_prefix_cons],
        noOcc_plain (H := "{{.version}}".toList) (b := '{') rfl _ _ (by decide) ihr⟩
    | arch =>
      simp only [segsTmpl, List.map_cons, List.flatten_cons, Seg.tmpl] at ihr ⊢
      show NoOcc _ ('{' :: '{' :: (".arch\x7d\x7d".toList ++ _))
      rw [noOcc_cons_iff, noOcc_cons_iff]
      exact ⟨by simp [List.cons_prefix_cons], by simp [List.cons_prefix_cons],
        noOcc_plain (H := "{{.version}}".toList) (b := '{') rfl _ _ (by decide) ihr⟩
    | urlSuffix =>
      simp only [segsTmpl, List.map_cons, List.flatten_cons, Seg.tmpl] at ihr ⊢
      show NoOcc _ ('{' :: '{' :: (".urlSuffix\x7d\x7d".toList ++ _))
      rw [noOcc_cons_iff, noOcc_cons_iff]
      exact ⟨by simp [List.cons_prefix_cons], by simp [List.cons_prefix_cons],
        noOcc_plain (H := "{{.version}}".toList) (b := '{') rfl _ _ (by decide) ihr⟩

theorem version_hole_unbordered : ∀ w : Str, w ≠ [] → w.length < "{{.version}}".toList.length →
    w <+: "{{.version}}".toList → ¬ w <:+ "{{.version}}".toList := by
  intro w hne hlen hp hs
  have h1 := List.prefix_iff_eq_take.mp hp
  have h2 := List.suffix_iff_eq_drop.mp hs
  have hpos : 0 < w.length := List.length_pos.mpr hne
  have key : ∀ k < 12, 0 < k →
      ("{{.version}}".toList).take k ≠ ("{{.version}}".toList).drop (12 - k) := by decide
  have hl : "{{.version}}".toList.length = 12 := rfl
  rw [hl] at hlen h2
  exact key w.length hlen hpos (h1.symm.trans h2)

/-- Rendering the template of the pieces, after the version was replaced,
gives the URL of the pieces. -/
theorem render_segs (segs : List Seg) (hp : ∀ s ∈ segs, s.plain) (version osVal archVal suffix : Str)
    (hs : '{' ∉ suffix) (ha : '{' ∉ archVal) :
    render (withVersion (segsTmpl segs) version) version suffix archVal osVal =
      segsValue osVal archVal suffix segs := by
  have hno := noOcc_version_segs segs hp
  have hback : replaceAll (withVersion (segsTmpl segs) version) "{{.version}}".toList version =
      segsTmpl segs := by
    unfold withVersion
    by_cases hv : version = []
    · rw [if_neg (by simp [hv])]
      exact replaceAll_noOcc _ _ hno
    · rw [if_pos hv]
      exact replaceAll_round_trip version _ hv (by decide) version_hole_unbordered _ _
        (Nat.le_refl _) hno
  unfold render
  rw [hback]
  have e1 := replaceAll_segs .urlSuffix (Or.inr (Or.inr rfl)) suffix segs hp
  have hp1 := fill_plain .urlSuffix hs hp
  have e2 := replaceAll_segs .arch (Or.inr (Or.inl rfl)) archVal _ hp1
  have hp2 := fill_plain .arch ha hp1
  have e3 := replaceAll_segs .os (Or.inl rfl) osVal _ hp2
  simp only [Seg.tmpl] at e1 e2 e3
  rw [e1, e2, e3]
  exact fill_all osVal archVal suffix segs

/-! ## Clean names -/

theorem cleanName_of_check {n : Str} (h : cleanCheck n = true) : cleanName n := by
  unfold cleanCheck at h
  simp only [Bool.and_eq_true, Bool.not_eq_true', List.all_eq_true, Option.isNone_iff_eq_none,
    List.contains_eq_any_beq, List.any_eq_false, beq_iff_eq] at h
  obtain ⟨⟨⟨⟨⟨⟨h1, h2⟩, h3⟩, h4⟩, h5⟩, h6⟩, h7⟩ := h
  refine ⟨?_, ?_, ?_, ?_, strIndex_none h5, fun s hs => strIndex_none (h6 s hs), strIndex_none h7⟩
  · intro hc
    rw [hc] at h1
    simp at h1
  · intro hc; exact h2 _ hc rfl
  · intro hc; exact h3 _ hc rfl
  · intro hc; exact h4 _ hc rfl

theorem preamble_clean :
    (∀ x ∈ osPreamble, cleanCheck x.val = true) ∧ (∀ x ∈ archPreamble, cleanCheck x.val = true) := by
  decide

theorem cleanAllowList_of_check {systems : Option (List Str)}
    (h : cleanAllowListCheck systems = true) : cleanAllowList systems := by
  intro d hd o a hp
  unfold cleanAllowListCheck at h
  rw [List.all_eq_true] at h
  have := h d hd
  rw [hp] at this
  simp only [Bool.and_eq_true] at this
  exact ⟨cleanName_of_check this.1, cleanName_of_check this.2⟩

theorem occurs_toLower {v s : Str} (h : occurs v s) : occurs (toLower v) (toLower s) := by
  obtain ⟨p, q, hs⟩ := h
  exact ⟨toLower p, toLower q, by simp [toLower, hs]⟩

theorem lowercase_fixed :
    toLower "{{.os}}".toList = "{{.os}}".toList ∧ toLower ".exe".toList = ".exe".toList ∧
    ∀ s ∈ archiveSuffixes, toLower s = s := by
  decide

theorem cleanName_of_lower {v : Str} (h : cleanName (toLower v)) : cleanName v := by
  obtain ⟨h1, h2, h3, h4, h5, h6, h7⟩ := h
  have hmem : ∀ c : Char, c.toLower = c → c ∈ v → c ∈ toLower v := by
    intro c hc hv
    rw [← hc]
    exact List.mem_map_of_mem Char.toLower hv
  refine ⟨?_, fun hc => h2 (hmem _ (by decide) hc), fun hc => h3 (hmem _ (by decide) hc),
    fun hc => h4 (hmem _ (by decide) hc), ?_, ?_, ?_⟩
  · intro hc
    rw [hc] at h1
    exact h1 rfl
  · intro hc
    have := occurs_toLower hc
    rw [lowercase_fixed.1] at this
    exact h5 this
  · intro s hs hc
    have := occurs_toLower hc
    rw [lowercase_fixed.2.2 s hs] at this
    exact h6 s hs this
  · intro hc
    have := occurs_toLower hc
    rw [lowercase_fixed.2.1] at this
    exact h7 this

/-- One step of templating: either nothing was matched and the template is
unchanged, or the match is a clean piece of the text and the hole replaces
exactly that piece. -/
theorem hole_step {filename hole tmpl : Str} {subs : List systemSub} {m : systemSub}
    (hcase : (m.idx = -1 ∧ m.val = []) ∨ LongestMatch filename subs m)
    (hclean : ∀ sub ∈ subs, cleanName sub.val)
    (hfill : fillHole filename m hole = some tmpl) :
    (m.val = [] ∧ tmpl = filename) ∨
    (cleanName m.val ∧ ∃ X Y, filename = X ++ m.val ++ Y ∧ tmpl = X ++ hole ++ Y) := by
  rcases hcase with ⟨hidx, hval⟩ | hl
  · left
    rw [fillHole_fallback hidx] at hfill
    exact ⟨hval, (Option.some.inj hfill).symm⟩
  · right
    obtain ⟨i, hidx, hb, hval, _⟩ := hl.bound
    obtain ⟨sub, hsub, _, _, _, _, _, hlow, _, _⟩ := hl
    have hc : cleanName m.val := cleanName_of_lower (by rw [hlow]; exact hclean sub hsub)
    rw [fillHole_match hidx hb] at hfill
    refine ⟨hc, filename.take i, filename.drop (i + m.val.length), ?_, (Option.some.inj hfill).symm⟩
    have e1 : filename = filename.take i ++ filename.drop i := (List.take_append_drop i filename).symm
    have e2 : filename.drop i =
        (filename.drop i).take m.val.length ++ (filename.drop i).drop m.val.length :=
      (List.take_append_drop _ _).symm
    rw [List.drop_drop] at e2
    rw [← hval] at e2
    calc filename = filename.take i ++ filename.drop i := e1
      _ = filename.take i ++ (m.val ++ filename.drop (i + m.val.length)) := by rw [← e2]
      _ = filename.take i ++ m.val ++ filename.drop (i + m.val.length) := by
        rw [List.append_assoc]

/-- A clean word that occurs in a text with an `{{.os}}` hole lies entirely
on one side of the hole. -/
theorem occ_around_hole {w X Y P Q : Str} (hw : cleanName w)
    (h : X ++ "{{.os}}".toList ++ Y = P ++ w ++ Q) :
    (∃ X2, X = P ++ w ++ X2 ∧ Q = X2 ++ "{{.os}}".toList ++ Y) ∨
    (∃ Y1, P = X ++ "{{.os}}".toList ++ Y1 ∧ Y = Y1 ++ w ++ Q) := by
  obtain ⟨hne, hlb, hrb, _, hin, _, _⟩ := hw
  rw [List.append_assoc, List.append_assoc] at h
  rcases List.append_eq_append_iff.mp h with ⟨a, hP, hrest⟩ | ⟨c, hX, hrest⟩
  · -- the word starts at or after the start of the hole
    rcases List.append_eq_append_iff.mp hrest with ⟨a2, ha, hY⟩ | ⟨c2, hhole, hwq⟩
    · -- a = hole ++ a2: the word starts after the hole
      right
      exact ⟨a2, by rw [hP, ha, List.append_assoc], by rw [hY, List.append_assoc]⟩
    · -- hole = a ++ c2 and w ++ Q = c2 ++ Y
      by_cases hc2 : c2 = []
      · right
        subst hc2
        simp only [List.append_nil] at hhole
        simp only [List.nil_append] at hwq
        exact ⟨[], by rw [hP, hhole]; simp, by rw [← hwq]; simp⟩
      · exfalso
        rcases List.append_eq_append_iff.mp hwq with ⟨a3, hc2', _⟩ | ⟨c3, hw', _⟩
        · -- c2 = w ++ a3: the word lies inside the hole
          apply hin
          exact ⟨a, a3, by rw [hhole, hc2', List.append_assoc]⟩
        · -- w = c2 ++ c3: the word contains the last character of the hole
          apply hrb
          have hlast : '}' ∈ c2 := by
            have hsuf : c2 <:+ "{{.os}}".toList := ⟨a, hhole.symm⟩
            have hl := List.suffix_iff_eq_drop.mp hsuf
            have hpos : 0 < c2.length := List.length_pos.mpr hc2
            have hle := hsuf.length_le
            have key : ∀ k < 8, 0 < k →
                '}' ∈ ("{{.os}}".toList).drop (("{{.os}}".toList).length - k) := by decide
            rw [hl]
            exact key c2.length (Nat.lt_succ_of_le hle) hpos
          rw [hw']
          exact List.mem_append_left _ hlast
  · -- the word starts before the hole
    rcases List.append_eq_append_iff.mp hrest with ⟨a2, hc, hQ⟩ | ⟨c2, hw', hholeY⟩
    · -- c = w ++ a2
      left
      exact ⟨a2, by rw [hX, hc, List.append_assoc], by rw [hQ, List.append_assoc]⟩
    · -- w = c ++ c2 and hole ++ Y = c2 ++ Q
      by_cases hc2 : c2 = []
      · left
        subst hc2
        simp only [List.append_nil] at hw'
        simp only [List.nil_append] at hholeY
        exact ⟨[], by rw [hX, hw']; simp, by rw [← hholeY]; simp⟩
      · exfalso
        apply hlb
        rw [hw']
        apply List.mem_append_right
        cases c2 with
        | nil => exact absurd rfl hc2
        | cons x xs =>
          have : x = '{' := by
            have := congrArg List.head? hholeY
            simpa using this.symm
          rw [this]
          exact List.mem_cons_self _ _

/-! ## The suffix and the assembly of the template -/

theorem urlSuffix_cases (url : Str) :
    urlSuffix url <:+ url ∧
    (urlSuffix url = [] ∨ urlSuffix url ∈ archiveSuffixes ∨ urlSuffix url = ".exe".toList) := by
  unfold urlSuffix
  split
  · rename_i h
    exact ⟨List.isSuffixOf_iff_suffix.mp h, Or.inr (Or.inr rfl)⟩
  · cases hs : archiveSuffix url with
    | none => exact ⟨List.nil_suffix, Or.inl rfl⟩
    | some x =>
      obtain ⟨hmem, hhas, _⟩ := archiveSuffix_longest hs
      exact ⟨List.isSuffixOf_iff_suffix.mp hhas, Or.inr (Or.inl hmem)⟩

theorem suffixes_start_with_dot :
    ∀ s ∈ ".exe".toList :: archiveSuffixes, s.head? = some '.' := by
  decide

/-- An archive suffix (or `.exe`) at the end of a text that ends with a clean
word followed by `t2` lies inside `t2`. -/
theorem suffix_in_last_text {v pre t2 sfx : Str} (hv : cleanName v)
    (hs : sfx ∈ archiveSuffixes ∨ sfx = ".exe".toList) (h : sfx <:+ pre ++ v ++ t2) :
    sfx <:+ t2 := by
  obtain ⟨_, _, _, hdot, _, harch, hexe⟩ := hv
  have hocc : ¬ occurs v sfx := by
    rcases hs with hs | hs
    · exact harch sfx hs
    · rw [hs]; exact hexe
  have hhead : sfx.head? = some '.' := by
    apply suffixes_start_with_dot
    rcases hs with hs | hs
    · exact List.mem_cons_of_mem _ hs
    · rw [hs]; exact List.mem_cons_self _ _
  have ht2 : t2 <:+ pre ++ v ++ t2 := List.suffix_append _ _
  by_cases hl : sfx.length ≤ t2.length
  · exact List.suffix_of_suffix_length_le h ht2 hl
  · exfalso
    obtain ⟨s1, hs1⟩ := List.suffix_of_suffix_length_le ht2 h (by omega)
    have hvt : v ++ t2 <:+ pre ++ v ++ t2 := by
      rw [List.append_assoc]; exact List.suffix_append _ _
    by_cases hl2 : (v ++ t2).length ≤ sfx.length
    · obtain ⟨z, hz⟩ := List.suffix_of_suffix_length_le hvt h hl2
      exact hocc ⟨z, t2, by rw [← hz, List.append_assoc]⟩
    · obtain ⟨z, hz⟩ := List.suffix_of_suffix_length_le h hvt (by omega)
      rw [← hs1, ← List.append_assoc] at hz
      have hv' : z ++ s1 = v := List.append_cancel_right hz
      have hs1ne : s1 ≠ [] := by
        intro hc
        rw [hc] at hs1
        simp only [List.nil_append] at hs1
        rw [hs1] at hl
        exact hl (Nat.le_refl _)
      cases s1 with
      | nil => exact hs1ne rfl
      | cons c cs =>
        rw [← hs1] at hhead
        simp only [List.cons_append, List.head?_cons, Option.some.injEq] at hhead
        apply hdot
        rw [← hv', hhead]
        simp

theorem urlSuffix_in_text {url pre v t2 : Str} (hv : cleanName v) (hurl : url = pre ++ v ++ t2) :
    urlSuffix url <:+ t2 := by
  obtain ⟨hsuf, hcases⟩ := urlSuffix_cases url
  rcases hcases with h | h | h
  · rw [h]; exact List.nil_suffix
  · exact suffix_in_last_text hv (Or.inl h) (by rw [← hurl]; exact hsuf)
  · exact suffix_in_last_text hv (Or.inr h) (by rw [← hurl]; exact hsuf)

theorem segsTmpl_append (a b : List Seg) : segsTmpl (a ++ b) = segsTmpl a ++ segsTmpl b := by
  simp [segsTmpl]

theorem segsValue_append (osVal archVal suffix : Str) (a b : List Seg) :
    segsValue osVal archVal suffix (a ++ b) =
      segsValue osVal archVal suffix a ++ segsValue osVal archVal suffix b := by
  simp [segsValue]

/-- The template is pieces followed by a last text that ends with the
suffix: cutting the suffix, appending its hole, replacing the version and
rendering gives the URL back. -/
theorem assemble (pre : List Seg) (version : Str) {url tmpl2 body t2 : Str}
    {osVal archVal : Str} (hpre : ∀ s ∈ pre, s.plain)
    (hT : tmpl2 = segsTmpl pre ++ t2)
    (hV : url = segsValue osVal archVal (urlSuffix url) pre ++ t2)
    (hsfx : urlSuffix url <:+ t2) (hbrace : '{' ∉ url) (ha : '{' ∉ archVal)
    (hbody : substr tmpl2 0 ((tmpl2.length : Int) - ((urlSuffix url).length : Int)) = some body) :
    render (withVersion (body ++ "{{.urlSuffix}}".toList) version) version (urlSuffix url)
      archVal osVal = url := by
  obtain ⟨L, hL⟩ := hsfx
  have ht2 : ∀ c ∈ t2, c ∈ url := by
    intro c hc
    rw [hV]
    exact List.mem_append_right _ hc
  have hLb : '{' ∉ L := fun hc => hbrace (ht2 _ (by rw [← hL]; exact List.mem_append_left _ hc))
  have hsb : '{' ∉ urlSuffix url :=
    fun hc => hbrace (ht2 _ (by rw [← hL]; exact List.mem_append_right _ hc))
  have hbodyeq : body = segsTmpl pre ++ L := by
    unfold substr at hbody
    split at hbody
    · simp only [Option.some.injEq] at hbody
      rw [← hbody, hT, ← hL]
      simp only [Int.toNat_zero, List.drop_zero, Nat.sub_zero]
      rw [← List.append_assoc]
      apply List.take_left'
      simp only [List.length_append]
      omega
    · exact Option.noConfusion hbody
  have hsegsT : segsTmpl (pre ++ [.text L, .urlSuffix]) = body ++ "{{.urlSuffix}}".toList := by
    rw [segsTmpl_append, hbodyeq]
    simp [segsTmpl, Seg.tmpl]
  have hsegsV : segsValue osVal archVal (urlSuffix url) (pre ++ [.text L, .urlSuffix]) = url := by
    rw [segsValue_append]
    conv_rhs => rw [hV, ← hL]
    simp [segsValue, Seg.value]
  have hplain : ∀ s ∈ pre ++ [.text L, .urlSuffix], s.plain := by
    intro s hs
    rcases List.mem_append.mp hs with h | h
    · exact hpre s h
    · simp only [List.mem_cons, List.mem_singleton, List.not_mem_nil, or_false] at h
      rcases h with h | h
      · rw [h]; exact hLb
      · rw [h]; trivial
  rw [← hsegsT, render_segs _ hplain version osVal archVal (urlSuffix url) hsb ha, hsegsV]

theorem vocab_clean {l : List Str} (hclean : cleanAllowList (some l))
    (part : Str → Option Str) (preamble : List systemSub)
    (hpre : ∀ x ∈ preamble, cleanCheck x.val = true)
    (hpart : ∀ d v, part d = some v → ∃ o a, parseDist d = some (o, a) ∧ (v = o ∨ v = a))
    {subs : List systemSub}
    (hsubs : ∀ x ∈ subs, x ∈ preamble ∨
      ∃ d ∈ l, part d = some x.val ∧ x = ⟨x.val, x.val, 0, 0⟩) :
    ∀ x ∈ subs, cleanName x.val := by
  intro x hx
  rcases hsubs x hx with h | ⟨d, hd, hp, _⟩
  · exact cleanName_of_check (hpre x h)
  · obtain ⟨o, a, hda, hv⟩ := hpart d x.val hp
    have := hclean d hd o a hda
    rcases hv with hv | hv
    · rw [hv]; exact this.1
    · rw [hv]; exact this.2

theorem systemOs_part : ∀ d v, systemOs d = some v →
    ∃ o a, parseDist d = some (o, a) ∧ (v = o ∨ v = a) := by
  intro d v h
  unfold systemOs at h
  cases hp : parseDist d with
  | none => rw [hp] at h; simp at h
  | some p =>
    rw [hp] at h
    simp only [Option.map_some', Option.some.injEq] at h
    exact ⟨p.1, p.2, rfl, Or.inl h.symm⟩

theorem systemArch_part : ∀ d v, systemArch d = some v →
    ∃ o a, parseDist d = some (o, a) ∧ (v = o ∨ v = a) := by
  intro d v h
  unfold systemArch at h
  cases hp : parseDist d with
  | none => rw [hp] at h; simp at h
  | some p =>
    rw [hp] at h
    simp only [Option.map_some', Option.some.injEq] at h
    exact ⟨p.1, p.2, rfl, Or.inr h.symm⟩

/-- C2. Template round trip: for a lawful environment, a well-formed
allow-list whose OS and arch names are clean (non-empty, without `{`, `}`,
`.`, and not occurring in `{{.os}}`, in an archive suffix or in `.exe`), an
ASCII URL without `{` and any version: if `parseDownload` accepts the URL,
then rendering the returned templated url (version, then urlSuffix, then
arch, then os) with the returned suffix and surfaces gives the original URL,
which is also the returned origUrl. -/
theorem template_round_trip (E : Env) (hE : E.Lawful) (url version : Str)
    (systems : Option (List Str)) (hw : wellFormed systems) (_hascii : isASCII url)
    (hbrace : '{' ∉ url) (hclean : cleanAllowList systems) (f : dlFile)
    (hf : parseDownload E url version systems = some (some f)) :
    render f.url version f.suffix f.archSub.val f.osSub.val = url ∧ f.origUrl = url := by
  obtain ⟨osSub, tmpl1, archSub, tmpl2, body, hpo, h1, hpa, h2, _, _, hcd, hsub, hfeq⟩ :=
    parseDownload_inv hf
  subst hfeq
  refine ⟨?_, rfl⟩
  show render (withVersion (body ++ "{{.urlSuffix}}".toList) version) version (urlSuffix url)
    archSub.val osSub.val = url
  cases systems with
  | none => simp [containsDist] at hcd
  | some l =>
    -- the vocabularies are clean
    obtain ⟨osl, hosl, _, hosrc, _⟩ := osSubs_spec hE hw
    obtain ⟨arl, harl, _, harsrc, _⟩ := archSubs_spec hE hw
    have hoc := vocab_clean hclean systemOs osPreamble preamble_clean.1 systemOs_part hosrc
    have hac := vocab_clean hclean systemArch archPreamble preamble_clean.2 systemArch_part harsrc
    -- the OS step
    have hocase : (osSub.idx = -1 ∧ osSub.val = []) ∨ LongestMatch url osl osSub := by
      obtain ⟨osl', hosl', hos⟩ := parseOs_spec hE hw url
      rw [hosl] at hosl'
      simp only [Option.some.injEq] at hosl'
      subst hosl'
      rcases hos with ⟨h, _⟩ | ⟨h, _⟩ | ⟨m, h, hl⟩
      · rw [h] at hpo; simp at hpo
      · rw [h] at hpo
        simp only [Option.some.injEq] at hpo
        subst hpo
        exact Or.inl ⟨rfl, rfl⟩
      · rw [h] at hpo
        simp only [Option.some.injEq] at hpo
        subst hpo
        exact Or.inr hl
    have hacase : (archSub.idx = -1 ∧ archSub.val = []) ∨ LongestMatch tmpl1 arl archSub := by
      obtain ⟨arl', harl', har⟩ := parseArch_spec hE hw tmpl1
      rw [harl] at harl'
      simp only [Option.some.injEq] at harl'
      subst harl'
      rcases har with ⟨h, _⟩ | ⟨m, h, hl⟩
      · rw [h] at hpa
        simp only [Option.some.injEq] at hpa
        subst hpa
        exact Or.inl ⟨rfl, rfl⟩
      · rw [h] at hpa
        simp only [Option.some.injEq] at hpa
        subst hpa
        exact Or.inr hl
    rcases hole_step hocase hoc h1 with ⟨hov, ht1⟩ | ⟨hoclean, X, Y, hurl, ht1⟩
    · -- no OS hole
      rw [ht1] at hacase h2
      rcases hole_step hacase hac h2 with ⟨hav, ht2⟩ | ⟨haclean, C, D, hurl2, ht2⟩
      · -- no arch hole
        rw [ht2] at hsub
        exact assemble [] version (by simp) (by simp [segsTmpl]) (by simp [segsValue])
          (urlSuffix_cases url).1 hbrace (by rw [hav]; simp) hsub
      · have hab : '{' ∉ archSub.val := haclean.2.1
        exact assemble [.text C, .arch] version
          (by
            intro s hs
            simp only [List.mem_cons, List.mem_singleton, List.not_mem_nil, or_false] at hs
            rcases hs with h | h
            · rw [h]; exact fun hc => hbrace (by rw [hurl2]; simp [hc])
            · rw [h]; trivial)
          (by rw [ht2]; simp [segsTmpl, Seg.tmpl])
          (by conv_lhs => rw [hurl2]
              simp [segsValue, Seg.value])
          (urlSuffix_in_text haclean hurl2) hbrace hab hsub
    · rcases hole_step hacase hac h2 with ⟨hav, ht2⟩ | ⟨haclean, C, D, htm1, ht2⟩
      · -- an OS hole, no arch hole
        rw [ht2] at hsub
        exact assemble [.text X, .os] version
          (by
            intro s hs
            simp only [List.mem_cons, List.mem_singleton, List.not_mem_nil, or_false] at hs
            rcases hs with h | h
            · rw [h]; exact fun hc => hbrace (by rw [hurl]; simp [hc])
            · rw [h]; trivial)
          (by rw [ht1]; simp [segsTmpl, Seg.tmpl])
          (by conv_lhs => rw [hurl]
              simp [segsValue, Seg.value])
          (urlSuffix_in_text hoclean hurl) hbrace (by rw [hav]; simp) hsub
      · -- both holes
        have hab : '{' ∉ archSub.val := haclean.2.1
        rw [ht1] at htm1
        rcases occ_around_hole haclean htm1 with ⟨X2, hX, hD⟩ | ⟨Y1, hC, hY⟩
        · -- the arch lies before the OS
          have hurl' : url = (C ++ archSub.val ++ X2) ++ osSub.val ++ Y := by rw [hurl, hX]
          exact assemble [.text C, .arch, .text X2, .os] version
            (by
              intro s hs
              simp only [List.mem_cons, List.mem_singleton, List.not_mem_nil, or_false] at hs
              rcases hs with h | h | h | h
              · rw [h]; exact fun hc => hbrace (by rw [hurl']; simp [hc])
              · rw [h]; trivial
              · rw [h]; exact fun hc => hbrace (by rw [hurl']; simp [hc])
              · rw [h]; trivial)
            (by rw [ht2, hD]; simp [segsTmpl, Seg.tmpl])
            (by conv_lhs => rw [hurl']
                simp [segsValue, Seg.value])
            (urlSuffix_in_text hoclean hurl') hbrace hab hsub
        · -- the arch lies after the OS
          have hurl' : url = (X ++ osSub.val ++ Y1) ++ archSub.val ++ D := by
            rw [hurl, hY]; simp
          exact assemble [.text X, .os, .text Y1, .arch] version
            (by
              intro s hs
              simp only [List.mem_cons, List.mem_singleton, List.not_mem_nil, or_false] at hs
              rcases hs with h | h | h | h
              · rw [h]; exact fun hc => hbrace (by rw [hurl']; simp [hc])
              · rw [h]; trivial
              · rw [h]; exact fun hc => hbrace (by rw [hurl']; simp [hc])
              · rw [h]; trivial)
            (by rw [ht2, hC]; simp [segsTmpl, Seg.tmpl])
            (by conv_lhs => rw [hurl']
                simp [segsValue, Seg.value])
            (urlSuffix_in_text haclean hurl') hbrace hab hsub

theorem template_round_trip_witness :
    insertionEnv.Lawful ∧ wellFormed sampleSystems ∧ isASCII sampleUrl ∧ '{' ∉ sampleUrl ∧
    cleanAllowList sampleSystems ∧
    parseDownload insertionEnv sampleUrl sampleVersion sampleSystems = some (some sampleFile) ∧
    (render sampleFile.url sampleVersion sampleFile.suffix sampleFile.archSub.val
        sampleFile.osSub.val = sampleUrl ∧
      sampleFile.origUrl = sampleUrl) :=
  ⟨insertionEnv_lawful, by decide, by decide, by decide, cleanAllowList_of_check (by decide),
    sampleFile_parsed,
    template_round_trip insertionEnv insertionEnv_lawful sampleUrl sampleVersion sampleSystems
      (by decide) (by decide) (by decide) (cleanAllowList_of_check (by decide)) sampleFile
      sampleFile_parsed⟩

/-! ## The classification loop returns -/

theorem splitOn_subset (sep : Char) : ∀ s : Str, ∀ p ∈ splitOn sep s, ∀ c ∈ p, c ∈ s := by
  intro s
  induction s with
  | nil => intro p hp c hc; simp [splitOn] at hp; rw [hp] at hc; exact hc
  | cons x xs ih =>
    intro p hp c hc
    simp only [splitOn] at hp
    split at hp
    · rcases List.mem_cons.mp hp with h | h
      · rw [h] at hc; simp at hc
      · exact List.mem_cons_of_mem _ (ih p h c hc)
    · split at hp
      · rename_i h0
        have := splitOn_length sep xs
        rw [h0] at this
        simp at this
      · rename_i q qs h0
        rw [h0] at ih
        rcases List.mem_cons.mp hp with h | h
        · rw [h] at hc
          rcases List.mem_cons.mp hc with h' | h'
          · rw [h']; exact List.mem_cons_self _ _
          · exact List.mem_cons_of_mem _ (ih q (List.mem_cons_self _ _) c h')
        · exact List.mem_cons_of_mem _ (ih p (List.mem_cons_of_mem _ h) c hc)

theorem parseDist_subset {d o a : Str} (h : parseDist d = some (o, a)) :
    (∀ c ∈ o, c ∈ d) ∧ (∀ c ∈ a, c ∈ d) := by
  unfold parseDist at h
  split at h
  · rename_i o' a' hs
    simp only [Option.some.injEq, Prod.mk.injEq] at h
    have := splitOn_subset '/' d
    rw [hs] at this
    rw [← h.1, ← h.2]
    exact ⟨this o' (by simp), this a' (by simp)⟩
  · simp at h

theorem preamble_dotFree : ∀ x ∈ osPreamble, '.' ∉ x.val := by
  decide

theorem suffix_length_le : ∀ s ∈ ".exe".toList :: archiveSuffixes, s.length ≤ 8 := by
  decide

theorem urlSuffix_length (url : Str) : (urlSuffix url).length ≤ 8 := by
  rcases (urlSuffix_cases url).2 with h | h | h
  · rw [h]; simp
  · exact suffix_length_le _ (List.mem_cons_of_mem _ h)
  · exact suffix_length_le _ (by rw [h]; exact List.mem_cons_self _ _)

/-- One step of templating, without an assumption on the vocabulary. -/
theorem hole_step_any {filename hole tmpl : Str} {subs : List systemSub} {m : systemSub}
    (hcase : (m.idx = -1 ∧ m.val = []) ∨ LongestMatch filename subs m)
    (hfill : fillHole filename m hole = some tmpl) :
    tmpl = filename ∨
    ((∃ sub ∈ subs, toLower m.val = sub.val) ∧
      ∃ X Y, filename = X ++ m.val ++ Y ∧ tmpl = X ++ hole ++ Y) := by
  rcases hcase with ⟨hidx, _⟩ | hl
  · left
    rw [fillHole_fallback hidx] at hfill
    exact (Option.some.inj hfill).symm
  · right
    obtain ⟨i, hidx, hb, hval, _⟩ := hl.bound
    obtain ⟨sub, hsub, _, _, _, _, _, hlow, _, _⟩ := hl
    rw [fillHole_match hidx hb] at hfill
    refine ⟨⟨sub, hsub, hlow⟩, filename.take i, filename.drop (i + m.val.length), ?_,
      (Option.some.inj hfill).symm⟩
    have e1 : filename = filename.take i ++ filename.drop i := (List.take_append_drop i filename).symm
    have e2 : filename.drop i =
        (filename.drop i).take m.val.length ++ (filename.drop i).drop m.val.length :=
      (List.take_append_drop _ _).symm
    rw [List.drop_drop] at e2
    rw [← hval] at e2
    calc filename = filename.take i ++ filename.drop i := e1
      _ = filename.take i ++ (m.val ++ filename.drop (i + m.val.length)) := by rw [← e2]
      _ = filename.take i ++ m.val ++ filename.drop (i + m.val.length) := by
        rw [List.append_assoc]

/-- For a lawful environment and a well-formed allow-list none of whose
systems contains a `.`, `parseDownload` returns: it does not panic. -/
theorem parseDownload_returns {E : Env} (hE : E.Lawful) {systems : Option (List Str)}
    (hw : wellFormed systems) (hdot : dotFree systems) (url version : Str) :
    (parseDownload E url version systems).isSome = true := by
  rcases parseDownload_cases hE hw url version with ⟨_, h⟩ |
    ⟨osSub, tmpl1, archSub, tmpl2, b, hpo, h1, hpa, h2, hb, hiff, h⟩
  · rw [h]; rfl
  · rw [h]
    split
    · rfl
    · rename_i hcond
      have hbt : b = true := by
        cases b with
        | false => exact absurd (Or.inr (Or.inr rfl)) hcond
        | true => rfl
      have hin := hiff.mp hbt
      cases systems with
      | none =>
        obtain ⟨d, hd, _⟩ := hin
        simp at hd
      | some l =>
        obtain ⟨osl, hosl, _, hosrc, _⟩ := osSubs_spec hE hw
        obtain ⟨arl, harl, _, _, _⟩ := archSubs_spec hE hw
        have hodot : ∀ x ∈ osl, '.' ∉ x.val := by
          intro x hx
          rcases hosrc x hx with hp | ⟨d, hd, hp, _⟩
          · exact preamble_dotFree x hp
          · obtain ⟨o, a, hda, hv⟩ := systemOs_part d x.val hp
            intro hc
            apply hdot d hd
            rcases hv with hv | hv
            · rw [hv] at hc; exact (parseDist_subset hda).1 _ hc
            · rw [hv] at hc; exact (parseDist_subset hda).2 _ hc
        have hocase : (osSub.idx = -1 ∧ osSub.val = []) ∨ LongestMatch url osl osSub := by
          obtain ⟨osl', hosl', hos⟩ := parseOs_spec hE hw url
          rw [hosl] at hosl'
          simp only [Option.some.injEq] at hosl'
          subst hosl'
          rcases hos with ⟨h', _⟩ | ⟨h', _⟩ | ⟨m, h', hl⟩
          · rw [h'] at hpo; simp at hpo
          · rw [h'] at hpo
            simp only [Option.some.injEq] at hpo
            subst hpo
            exact Or.inl ⟨rfl, rfl⟩
          · rw [h'] at hpo
            simp only [Option.some.injEq] at hpo
            subst hpo
            exact Or.inr hl
        have hacase : (archSub.idx = -1 ∧ archSub.val = []) ∨
            LongestMatch tmpl1 arl archSub := by
          obtain ⟨arl', harl', har⟩ := parseArch_spec hE hw tmpl1
          rw [harl] at harl'
          simp only [Option.some.injEq] at harl'
          subst harl'
          rcases har with ⟨h', _⟩ | ⟨m, h', hl⟩
          · rw [h'] at hpa
            simp only [Option.some.injEq] at hpa
            subst hpa
            exact Or.inl ⟨rfl, rfl⟩
          · rw [h'] at hpa
            simp only [Option.some.injEq] at hpa
            subst hpa
            exact Or.inr hl
        have hs8 := urlSuffix_length url
        have hsuf := (urlSuffix_cases url).1
        have hlen : (urlSuffix url).length ≤ tmpl2.length := by
          rcases hole_step_any hacase h2 with ht2 | ⟨_, C, D, _, ht2⟩
          · rw [ht2]
            rcases hole_step_any hocase h1 with ht1 | ⟨⟨sub, hsub, hlow⟩, X, Y, hurl, ht1⟩
            · rw [ht1]; exact hsuf.length_le
            · rw [ht1]
              simp only [List.length_append]
              have h7 : ("{{.os}}".toList).length = 7 := rfl
              rw [h7]
              by_contra hlt
              have hX : X = [] := List.length_eq_zero.mp (by omega)
              have hY : Y = [] := List.length_eq_zero.mp (by omega)
              rw [hX, hY] at hurl
              simp only [List.nil_append, List.append_nil] at hurl
              have hne : urlSuffix url ≠ [] := by
                intro hc
                rw [hc] at hlt
                simp at hlt
              have hhead : (urlSuffix url).head? = some '.' := by
                rcases (urlSuffix_cases url).2 with h' | h' | h'
                · exact absurd h' hne
                · exact suffixes_start_with_dot _ (List.mem_cons_of_mem _ h')
                · exact suffixes_start_with_dot _ (by rw [h']; exact List.mem_cons_self _ _)
              have hdotin : '.' ∈ osSub.val := by
                rw [← hurl]
                exact hsuf.subset (List.mem_of_mem_head? hhead)
              apply hodot sub hsub
              rw [← hlow]
              have : Char.toLower '.' ∈ toLower osSub.val :=
                List.mem_map_of_mem Char.toLower hdotin
              exact this
          · rw [ht2]
            simp only [List.length_append]
            have h9 : ("{{.arch}}".toList).length = 9 := rfl
            rw [h9]
            omega
        have : substr tmpl2 0 ((tmpl2.length : Int) - ((urlSuffix url).length : Int)) =
            some ((tmpl2.drop (0 : Int).toNat).take
              (((tmpl2.length : Int) - ((urlSuffix url).length : Int)).toNat -
                (0 : Int).toNat)) := by
          unfold substr
          rw [if_pos (by omega)]
        rw [this]
        rfl

theorem classify_returns {E : Env} (hE : E.Lawful) {systems : Option (List Str)}
    (hw : wellFormed systems) (hdot : dotFree systems) (version : Str) :
    ∀ (dlUrls : List Str) (m : FileMap),
      (classify E version systems m dlUrls).isSome = true := by
  intro dlUrls
  induction dlUrls with
  | nil => intro m; rfl
  | cons u rest ih =>
    intro m
    have hp := parseDownload_returns hE hw hdot u version
    simp only [classify]
    split
    · rename_i hnone
      rw [hnone] at hp
      simp at hp
    · exact ih m
    · exact ih _

/-! ## Priorities and fallbacks -/

theorem extendSubs_mem (part : Str → Option Str) : ∀ (systems : List Str) (subs r : List systemSub),
    extendSubs part subs systems = some r →
    ∀ x ∈ r, x ∈ subs ∨ x = ⟨x.val, x.val, 0, 0⟩ := by
  intro systems
  induction systems with
  | nil =>
    intro subs r h x hx
    simp only [extendSubs, Option.some.injEq] at h
    subst h
    exact Or.inl hx
  | cons d rest ih =>
    intro subs r h x hx
    simp only [extendSubs] at h
    cases hp : part d with
    | none => simp [hp] at h
    | some v =>
      simp only [hp] at h
      split at h
      · exact ih subs r h x hx
      · rcases ih _ r h x hx with h1 | h1
        · rcases List.mem_append.mp h1 with h2 | h2
          · exact Or.inl h2
          · have hx' : x = ⟨v, v, 0, 0⟩ := by simpa using h2
            right; rw [hx']
        · exact Or.inr h1

/-- The priority of every vocabulary entry is 0 or -1, and an arch entry has
priority 0. -/
theorem vocab_priority {E : Env} (hE : E.Lawful) {systems : Option (List Str)} :
    (∀ subs, osSubs E systems = some subs → ∀ x ∈ subs, x.priority = 0 ∨ x.priority = -1) ∧
    (∀ subs, archSubs E systems = some subs → ∀ x ∈ subs, x.priority = 0) := by
  constructor
  · intro subs h x hx
    unfold osSubs at h
    simp only [Option.map_eq_some'] at h
    obtain ⟨r, hr, hs⟩ := h
    subst hs
    have hx' := (hE.perm systemSub longerVal r).mem_iff.mp hx
    rcases extendSubs_mem _ _ _ _ hr x hx' with h1 | h1
    · exact (by decide : ∀ y ∈ osPreamble, y.priority = 0 ∨ y.priority = -1) x h1
    · rw [h1]; exact Or.inl rfl
  · intro subs h x hx
    unfold archSubs at h
    simp only [Option.map_eq_some'] at h
    obtain ⟨r, hr, hs⟩ := h
    subst hs
    have hx' := (hE.perm systemSub longerVal r).mem_iff.mp hx
    rcases extendSubs_mem _ _ _ _ hr x hx' with h1 | h1
    · exact (by decide : ∀ y ∈ archPreamble, y.priority = 0) x h1
    · rw [h1]


theorem matchSub_mem {filename : Str} {subs : List systemSub} {m : systemSub}
    (h : matchSub filename subs = some (some m)) :
    ∃ sub ∈ subs, 0 ≤ m.idx ∧ m.normalized = sub.normalized ∧ m.priority = sub.priority ∧
      m.val.length = sub.val.length := by
  unfold matchSub at h
  rcases matchSubLoop_spec filename (toLower filename) (toLower_length filename) subs with
    ⟨h1, _⟩ | ⟨pre, sub, post, i, h1, _, h3, h4⟩
  · rw [h1] at h; simp at h
  · rw [h4] at h
    simp only [Option.some.injEq] at h
    subst h
    refine ⟨sub, by simp [h1], by simp, rfl, rfl, ?_⟩
    obtain ⟨⟨p, q, hs, hp⟩, _⟩ := h3
    have := congrArg List.length hs
    simp [toLower_length] at this
    simp
    omega

/-- C18. For a lawful environment and an ASCII URL that `parseDownload`
accepts, the priority of the file is `osSub.priority + archSub.priority`,
each summand is 0 or -1, hence the priority lies between -2 and 0, and a
priority of 0 is reached only when the arch was matched by an entry of the
arch vocabulary, not by the `amd64` fallback. -/
theorem priority_sum_bounds (E : Env) (hE : E.Lawful) (url version : Str)
    (systems : Option (List Str)) (_hascii : isASCII url) (f : dlFile)
    (hf : parseDownload E url version systems = some (some f)) :
    f.priority = f.osSub.priority + f.archSub.priority ∧
    (f.osSub.priority = 0 ∨ f.osSub.priority = -1) ∧
    (f.archSub.priority = 0 ∨ f.archSub.priority = -1) ∧
    -2 ≤ f.priority ∧ f.priority ≤ 0 ∧
    (f.priority = 0 → archMatched E systems f) := by
  obtain ⟨osSub, tmpl1, archSub, tmpl2, body, hos, _, har, _, _, _, _, _, hfe⟩ :=
    parseDownload_inv hf
  have hfo : f.osSub = osSub := by rw [hfe]; rfl
  have hfa : f.archSub = archSub := by rw [hfe]; rfl
  have hfp : f.priority = 0 + osSub.priority + archSub.priority := by rw [hfe]; rfl
  have hO : osSub.priority = 0 ∨ osSub.priority = -1 := by
    unfold parseOs at hos
    cases hv : osSubs E systems with
    | none => simp [hv] at hos
    | some subs =>
      simp only [hv] at hos
      cases hm : matchSub url subs with
      | none => simp [hm] at hos
      | some r =>
        cases r with
        | some m =>
          simp only [hm, Option.some.injEq] at hos
          subst hos
          obtain ⟨sub, hsub, _, _, hp, _⟩ := matchSub_mem hm
          rw [hp]
          exact (vocab_priority hE).1 subs hv sub hsub
        | none =>
          simp only [hm] at hos
          split at hos
          · simp only [Option.some.injEq] at hos
            subst hos
            exact Or.inl rfl
          · simp at hos
  have hA : (archSub.priority = 0 ∧ archMatched E systems f) ∨ archSub.priority = -1 := by
    unfold parseArch at har
    cases hv : archSubs E systems with
    | none => simp [hv] at har
    | some subs =>
      simp only [hv] at har
      cases hm : matchSub tmpl1 subs with
      | none => simp [hm] at har
      | some r =>
        cases r with
        | some m =>
          simp only [hm, Option.some.injEq] at har
          subst har
          obtain ⟨sub, hsub, hi, hn, hp, hl⟩ := matchSub_mem hm
          left
          refine ⟨by rw [hp]; exact (vocab_priority hE).2 subs hv sub hsub, subs, hv, sub, hsub, ?_⟩
          rw [hfa]
          exact ⟨hi, hn, hp, hl⟩
        | none =>
          simp only [hm, Option.some.injEq] at har
          subst har
          exact Or.inr rfl
  rw [hfo, hfa, hfp]
  refine ⟨by omega, hO, ?_, ?_, ?_, ?_⟩
  · rcases hA with h | h
    · exact Or.inl h.1
    · exact Or.inr h
  · rcases hO with h1 | h1 <;> rcases hA with h2 | h2 <;> omega
  · rcases hO with h1 | h1 <;> rcases hA with h2 | h2 <;> omega
  · intro h0
    rcases hA with h2 | h2
    · exact h2.2
    · rcases hO with h1 | h1 <;> omega

theorem priority_sum_bounds_witness :
    insertionEnv.Lawful ∧ isASCII sampleUrl ∧
    parseDownload insertionEnv sampleUrl sampleVersion sampleSystems = some (some sampleFile) ∧
    (sampleFile.priority = sampleFile.osSub.priority + sampleFile.archSub.priority ∧
      (sampleFile.osSub.priority = 0 ∨ sampleFile.osSub.priority = -1) ∧
      (sampleFile.archSub.priority = 0 ∨ sampleFile.archSub.priority = -1) ∧
      -2 ≤ sampleFile.priority ∧ sampleFile.priority ≤ 0 ∧
      (sampleFile.priority = 0 → archMatched insertionEnv sampleSystems sampleFile)) :=
  ⟨insertionEnv_lawful, by decide, sampleFile_parsed,
    priority_sum_bounds insertionEnv insertionEnv_lawful sampleUrl sampleVersion sampleSystems
      (by decide) sampleFile sampleFile_parsed⟩

theorem noSurface_of_check {vocab : Option (List systemSub)} {filename : Str}
    (h : noSurfaceCheck vocab filename = true) : noSurface vocab filename := by
  cases vocab with
  | none => simp [noSurfaceCheck] at h
  | some subs =>
    refine ⟨subs, rfl, ?_⟩
    intro sub hsub
    simp only [noSurfaceCheck, List.all_eq_true] at h
    have := h sub hsub
    apply strIndex_none
    simpa using this

theorem matchSubLoop_none (filename downcased : Str) : ∀ subs : List systemSub,
    (∀ sub ∈ subs, ¬ occurs sub.val downcased) →
    matchSubLoop filename downcased subs = some none := by
  intro subs
  induction subs with
  | nil => intro _; rfl
  | cons sub rest ih =>
    intro h
    have h1 : strIndex downcased sub.val = none := by
      cases hi : strIndex downcased sub.val with
      | none => rfl
      | some i =>
        have := (@strIndex_isSome_iff downcased sub.val).mp (by simp [hi])
        exact absurd this (h sub (List.mem_cons_self _ _))
    simp only [matchSubLoop, h1]
    exact ih (fun x hx => h x (List.mem_cons_of_mem _ hx))

/-- C19 (amended). Fallbacks: for an ASCII filename in whose lower-cased form
no surface of the arch vocabulary occurs, `parseArch` returns the `amd64`
fallback (normalized `amd64`, idx -1, priority -1); when no surface of the OS
vocabulary occurs, `parseOs` returns the `windows` fallback (normalized
`windows`, idx -1, priority 0) if the lower-cased filename ends in `.exe`,
and no result otherwise. -/
theorem fallbacks (E : Env) (systems : Option (List Str)) (filename : Str)
    (_hascii : isASCII filename) :
    (noSurface (archSubs E systems) filename →
      parseArch E filename systems = some (some amd64Fallback)) ∧
    (noSurface (osSubs E systems) filename →
      parseOs E filename systems =
        if hasSuffix (toLower filename) ".exe".toList then some (some windowsFallback)
        else some none) := by
  constructor
  · rintro ⟨subs, hv, hno⟩
    simp only [parseArch, hv, matchSub, matchSubLoop_none filename (toLower filename) subs hno]
    rfl
  · rintro ⟨subs, hv, hno⟩
    simp only [parseOs, hv, matchSub, matchSubLoop_none filename (toLower filename) subs hno]
    rfl

theorem fallbacks_witness :
    isASCII upperExe ∧
    noSurface (archSubs insertionEnv sampleSystems) upperExe ∧
    noSurface (osSubs insertionEnv sampleSystems) upperExe ∧
    parseArch insertionEnv upperExe sampleSystems = some (some amd64Fallback) ∧
    parseOs insertionEnv upperExe sampleSystems =
      (if hasSuffix (toLower upperExe) ".exe".toList then some (some windowsFallback)
        else some none) :=
  ⟨by decide, noSurface_of_check (by decide), noSurface_of_check (by decide),
    (fallbacks insertionEnv sampleSystems upperExe (by decide)).1
      (noSurface_of_check (by decide)),
    (fallbacks insertionEnv sampleSystems upperExe (by decide)).2
      (noSurface_of_check (by decide))⟩

/-- C19, as stated, fails: no surface of the OS vocabulary occurs in the
lower-cased `TOOL.EXE` and the filename does not end in `.exe`, yet `parseOs`
returns the `windows` fallback instead of no result. -/
theorem fallback_exe_any_case :
    noSurface (osSubs insertionEnv sampleSystems) upperExe ∧
    hasSuffix upperExe ".exe".toList = false ∧
    parseOs insertionEnv upperExe sampleSystems = some (some windowsFallback) ∧
    parseOs insertionEnv upperExe sampleSystems ≠ some none :=
  ⟨noSurface_of_check (by decide), by decide, by decide, by decide⟩

/-! ## systemsMatcher -/

theorem splitOn_ne_nil (sep : Char) (s : Str) : splitOn sep s ≠ [] := by
  intro h
  have := splitOn_length sep s
  rw [h] at this
  simp at this

theorem splitOn_one (sep : Char) : ∀ (s a : Str), splitOn sep s = [a] → s = a := by
  intro s
  induction s with
  | nil => intro a h; simp only [splitOn, List.cons.injEq, and_true] at h; exact h
  | cons c cs ih =>
    intro a h
    simp only [splitOn] at h
    split at h
    · simp only [List.cons.injEq] at h
      exact absurd h.2 (splitOn_ne_nil sep cs)
    · cases hs : splitOn sep cs with
      | nil => exact absurd hs (splitOn_ne_nil sep cs)
      | cons p ps =>
        simp only [hs, List.cons.injEq] at h
        rw [h.2] at hs
        rw [← h.1, ih p hs]

theorem splitOn_two (sep : Char) : ∀ (s o a : Str), splitOn sep s = [o, a] → s = o ++ sep :: a := by
  intro s
  induction s with
  | nil => intro o a h; simp [splitOn] at h
  | cons c cs ih =>
    intro o a h
    simp only [splitOn] at h
    split at h
    · rename_i hc
      simp only [List.cons.injEq] at h
      rw [← h.1, hc, splitOn_one sep cs a h.2]
      rfl
    · cases hs : splitOn sep cs with
      | nil => exact absurd hs (splitOn_ne_nil sep cs)
      | cons p ps =>
        simp only [hs, List.cons.injEq] at h
        rw [h.2] at hs
        rw [← h.1, ih p a hs]
        rfl

theorem parseDist_join {d o a : Str} (h : parseDist d = some (o, a)) : d = o ++ '/' :: a := by
  unfold parseDist at h
  split at h
  · rename_i o' a' hs
    simp only [Option.some.injEq, Prod.mk.injEq] at h
    rw [← h.1, ← h.2]
    exact splitOn_two '/' d o' a' hs
  · simp at h

theorem splitSystemsLoop_spec (fn : Str → Option Bool) (p : Str → Bool) :
    ∀ (systems matching nonMatching : List Str), (∀ s ∈ systems, fn s = some (p s)) →
    splitSystemsLoop fn systems matching nonMatching =
      some (matching ++ systems.filter p, nonMatching ++ systems.filter (fun s => !p s)) := by
  intro systems
  induction systems with
  | nil => intro m n _; simp [splitSystemsLoop]
  | cons s rest ih =>
    intro m n h
    have hs := h s (List.mem_cons_self _ _)
    have hr : ∀ s ∈ rest, fn s = some (p s) := fun x hx => h x (List.mem_cons_of_mem _ hx)
    simp only [splitSystemsLoop, hs]
    cases hp : p s with
    | true => simp only [ih _ _ hr]; simp [List.filter_cons, hp]
    | false => simp only [ih _ _ hr]; simp [List.filter_cons, hp]

theorem splitSystems_spec (fn : Str → Option Bool) (p : Str → Bool) (systems : List Str)
    (h : ∀ s ∈ systems, fn s = some (p s)) :
    splitSystems systems fn = some (systems.filter p, systems.filter (fun s => !p s)) := by
  unfold splitSystems
  rw [splitSystemsLoop_spec fn p systems [] [] h]
  simp

theorem distNames_spec : ∀ (systems oses arches : List Str),
    (∀ d ∈ systems, d.count '/' = 1) →
    ∃ oses' arches', distNames systems oses arches = some (oses', arches') ∧
      (∀ o, o ∈ oses' ↔ o ∈ oses ∨ ∃ s ∈ systems, systemOs s = some o) ∧
      (∀ a, a ∈ arches' ↔ a ∈ arches ∨ ∃ s ∈ systems, systemArch s = some a) := by
  intro systems
  induction systems with
  | nil => intro oses arches _; exact ⟨oses, arches, rfl, by simp, by simp⟩
  | cons d rest ih =>
    intro oses arches hw
    obtain ⟨o, a, hd⟩ := parseDist_some (hw d (List.mem_cons_self _ _))
    obtain ⟨oses', arches', hr, hO, hA⟩ :=
      ih (if oses.contains o then oses else oses ++ [o])
        (if arches.contains a then arches else arches ++ [a])
        (fun x hx => hw x (List.mem_cons_of_mem _ hx))
    refine ⟨oses', arches', by simp only [distNames, hd, hr], ?_, ?_⟩
    · intro x
      rw [hO x]
      have hso : systemOs d = some o := by simp [systemOs, hd]
      constructor
      · rintro (h | ⟨s, hs, h⟩)
        · split at h
          · exact Or.inl h
          · rcases List.mem_append.mp h with h | h
            · exact Or.inl h
            · right
              refine ⟨d, List.mem_cons_self _ _, ?_⟩
              rw [hso]; simp at h; rw [h]
        · exact Or.inr ⟨s, List.mem_cons_of_mem _ hs, h⟩
      · rintro (h | ⟨s, hs, h⟩)
        · left
          split
          · exact h
          · exact List.mem_append_left _ h
        · rcases List.mem_cons.mp hs with h1 | h1
          · left
            rw [h1, hso] at h
            simp only [Option.some.injEq] at h
            subst h
            split
            · rename_i hc; simpa using hc
            · simp
          · exact Or.inr ⟨s, h1, h⟩
    · intro x
      rw [hA x]
      have hsa : systemArch d = some a := by simp [systemArch, hd]
      constructor
      · rintro (h | ⟨s, hs, h⟩)
        · split at h
          · exact Or.inl h
          · rcases List.mem_append.mp h with h | h
            · exact Or.inl h
            · right
              refine ⟨d, List.mem_cons_self _ _, ?_⟩
              rw [hsa]; simp at h; rw [h]
        · exact Or.inr ⟨s, List.mem_cons_of_mem _ hs, h⟩
      · rintro (h | ⟨s, hs, h⟩)
        · left
          split
          · exact h
          · exact List.mem_append_left _ h
        · rcases List.mem_cons.mp hs with h1 | h1
          · left
            rw [h1, hsa] at h
            simp only [Option.some.injEq] at h
            subst h
            split
            · rename_i hc; simpa using hc
            · simp
          · exact Or.inr ⟨s, h1, h⟩

theorem archBranchLoop_spec (a : Str) : ∀ (systems ms ao rs : List Str),
    (∀ d ∈ systems, d.count '/' = 1) →
    archBranchLoop a systems ms ao rs =
      some (ms ++ systems.filter (fun s => decide (systemArch s = some a)),
        ao ++ (systems.filter (fun s => decide (systemArch s = some a))).filterMap systemOs,
        rs ++ systems.filter (fun s => !decide (systemArch s = some a))) := by
  intro systems
  induction systems with
  | nil => intro ms ao rs _; simp [archBranchLoop]
  | cons d rest ih =>
    intro ms ao rs hw
    obtain ⟨o, a', hd⟩ := parseDist_some (hw d (List.mem_cons_self _ _))
    have hso : systemOs d = some o := by simp [systemOs, hd]
    have hsa : systemArch d = some a' := by simp [systemArch, hd]
    have hr : ∀ d ∈ rest, d.count '/' = 1 := fun x hx => hw x (List.mem_cons_of_mem _ hx)
    simp only [archBranchLoop, hsa, hso]
    by_cases h : a' = a
    · simp only [h, ↓reduceIte, ih _ _ _ hr]
      subst h
      simp [List.filter_cons, hsa, hso]
    · simp only [h, ↓reduceIte, ih _ _ _ hr]
      simp [List.filter_cons, hsa, h]

theorem osArchesLoop_spec (o : Str) : ∀ (systems acc : List Str),
    (∀ d ∈ systems, d.count '/' = 1) →
    osArchesLoop o systems acc =
      some (acc ++ (systems.filter (fun s => decide (systemOs s = some o))).filterMap systemArch) := by
  intro systems
  induction systems with
  | nil => intro acc _; simp [osArchesLoop]
  | cons d rest ih =>
    intro acc hw
    obtain ⟨o', a, hd⟩ := parseDist_some (hw d (List.mem_cons_self _ _))
    have hso : systemOs d = some o' := by simp [systemOs, hd]
    have hsa : systemArch d = some a := by simp [systemArch, hd]
    have hr : ∀ d ∈ rest, d.count '/' = 1 := fun x hx => hw x (List.mem_cons_of_mem _ hx)
    simp only [osArchesLoop, hsa, hso]
    by_cases h : o' = o
    · simp only [h, ↓reduceIte, ih _ hr]
      subst h
      simp [List.filter_cons, hsa, hso]
    · simp only [h, ↓reduceIte, ih _ hr]
      simp [List.filter_cons, hso, h]


theorem satisfies_parsed (matcher : Matcher) {s o a : Str} (h : parseDist s = some (o, a)) :
    satisfies matcher s = (dimensionAllows (matcher.lookup "os".toList) o &&
      dimensionAllows (matcher.lookup "arch".toList) a) := by
  simp only [satisfies, h]

theorem systemOs_of_parsed {s o a : Str} (h : parseDist s = some (o, a)) :
    systemOs s = some o := by simp [systemOs, h]

theorem systemArch_of_parsed {s o a : Str} (h : parseDist s = some (o, a)) :
    systemArch s = some a := by simp [systemArch, h]

theorem parsed_of_names {s o a : Str} (ho : systemOs s = some o) (ha : systemArch s = some a) :
    parseDist s = some (o, a) := by
  unfold systemOs at ho
  unfold systemArch at ha
  cases h : parseDist s with
  | none => simp [h] at ho
  | some p =>
    obtain ⟨o', a'⟩ := p
    simp only [h, Option.map_some', Option.some.injEq] at ho ha
    rw [ho, ha]

theorem mem_exclusiveNames {own other : List Str} {x : Str} :
    x ∈ exclusiveNames own other ↔ x ∈ own ∧ x ∉ other := by
  simp [exclusiveNames]

/-- What `systemsMatcher` returns on well-formed systems: it does not panic,
`matcherSystems` are the systems that satisfy the matcher, in their order,
and `remainingSystems` are the others. -/
theorem systemsMatcher_spec (systems otherSystems : List Str)
    (hw : ∀ d ∈ systems, d.count '/' = 1) (hwo : ∀ d ∈ otherSystems, d.count '/' = 1) :
    ∃ matcher, systemsMatcher systems otherSystems =
        some (matcher, systems.filter (satisfies matcher),
          systems.filter (fun s => !satisfies matcher s)) ∧
      (systems ≠ [] → ∃ s ∈ systems, satisfies matcher s = true) ∧
      (systems ≠ [] → (∀ d ∈ systems, d ∉ otherSystems) →
        ∀ s ∈ otherSystems, satisfies matcher s = false) := by
  obtain ⟨oses, arches, h1, hO, hA⟩ := distNames_spec systems [] [] hw
  obtain ⟨oo, oa, h2, hOO, hOA⟩ := distNames_spec otherSystems [] [] hwo
  simp only [List.not_mem_nil, false_or] at hO hA hOO hOA
  unfold systemsMatcher
  simp only [h1, h2]
  by_cases hex : (exclusiveNames oses oo).length > 0
  · simp only [hex, ↓reduceIte]
    have hsat : ∀ s ∈ systems,
        (systemOs s).map (fun o => (exclusiveNames oses oo).contains o) =
          some (satisfies [("os".toList, exclusiveNames oses oo)] s) := by
      intro s hs
      obtain ⟨o, a, hd⟩ := parseDist_some (hw s hs)
      rw [systemOs_of_parsed hd, satisfies_parsed _ hd]
      simp [dimensionAllows, List.lookup]
    rw [splitSystems_spec _ _ systems hsat]
    refine ⟨_, rfl, ?_, ?_⟩
    · intro _
      obtain ⟨x, hx⟩ := List.exists_mem_of_length_pos hex
      obtain ⟨s, hs, hso⟩ := (hO x).mp (mem_exclusiveNames.mp hx).1
      refine ⟨s, hs, ?_⟩
      obtain ⟨o, a, hd⟩ := parseDist_some (hw s hs)
      rw [systemOs_of_parsed hd] at hso
      simp only [Option.some.injEq] at hso
      subst hso
      rw [satisfies_parsed _ hd]
      simpa [dimensionAllows, List.lookup] using hx
    · intro _ _ s hs
      obtain ⟨o, a, hd⟩ := parseDist_some (hwo s hs)
      rw [satisfies_parsed _ hd]
      have hno : o ∉ exclusiveNames oses oo := by
        intro hc
        exact (mem_exclusiveNames.mp hc).2 ((hOO o).mpr ⟨s, hs, systemOs_of_parsed hd⟩)
      simpa [dimensionAllows, List.lookup] using hno
  · simp only [hex, ↓reduceIte]
    by_cases hea : (exclusiveNames arches oa).length > 0
    · simp only [hea, ↓reduceIte]
      have hsat : ∀ s ∈ systems,
          (systemArch s).map (fun a => (exclusiveNames arches oa).contains a) =
            some (satisfies [("arch".toList, exclusiveNames arches oa)] s) := by
        intro s hs
        obtain ⟨o, a, hd⟩ := parseDist_some (hw s hs)
        rw [systemArch_of_parsed hd, satisfies_parsed _ hd]
        simp [dimensionAllows, List.lookup]
      rw [splitSystems_spec _ _ systems hsat]
      refine ⟨_, rfl, ?_, ?_⟩
      · intro _
        obtain ⟨x, hx⟩ := List.exists_mem_of_length_pos hea
        obtain ⟨s, hs, hsa⟩ := (hA x).mp (mem_exclusiveNames.mp hx).1
        refine ⟨s, hs, ?_⟩
        obtain ⟨o, a, hd⟩ := parseDist_some (hw s hs)
        rw [systemArch_of_parsed hd] at hsa
        simp only [Option.some.injEq] at hsa
        subst hsa
        rw [satisfies_parsed _ hd]
        simpa [dimensionAllows, List.lookup] using hx
      · intro _ _ s hs
        obtain ⟨o, a, hd⟩ := parseDist_some (hwo s hs)
        rw [satisfies_parsed _ hd]
        have hno : a ∉ exclusiveNames arches oa := by
          intro hc
          exact (mem_exclusiveNames.mp hc).2 ((hOA a).mpr ⟨s, hs, systemArch_of_parsed hd⟩)
        simpa [dimensionAllows, List.lookup] using hno
    · simp only [hea, ↓reduceIte]
      cases systems with
      | nil =>
        simp only [distNames, Option.some.injEq, Prod.mk.injEq] at h1
        obtain ⟨rfl, rfl⟩ := h1
        exact ⟨[], by simp, by simp, by simp⟩
      | cons d rest =>
        obtain ⟨o0, a0, hd0⟩ := parseDist_some (hw d (List.mem_cons_self _ _))
        have ho0 : o0 ∈ oses :=
          (hO o0).mpr ⟨d, List.mem_cons_self _ _, systemOs_of_parsed hd0⟩
        have ha0 : a0 ∈ arches :=
          (hA a0).mpr ⟨d, List.mem_cons_self _ _, systemArch_of_parsed hd0⟩
        have hol : oses.length ≠ 0 := by
          intro hc; rw [List.length_eq_zero] at hc; rw [hc] at ho0; simp at ho0
        have hal : arches.length ≠ 0 := by
          intro hc; rw [List.length_eq_zero] at hc; rw [hc] at ha0; simp at ha0
        have hcons : ((oses.length == 0) != (arches.length == 0)) = false := by
          simp [hol, hal]
        simp only [hcons, Bool.false_eq_true, ↓reduceIte, hol]
        by_cases hlt : arches.length < oses.length
        · simp only [hlt, ↓reduceIte]
          cases arches with
          | nil => simp at hal
          | cons a at' =>
            simp only [List.head?_cons, archBranchLoop_spec a (d :: rest) [] [] [] hw,
              List.nil_append]
            obtain ⟨M, hM⟩ : ∃ M : Matcher, M = [("arch".toList, [a]), ("os".toList,
                ((d :: rest).filter (fun s => decide (systemArch s = some a))).filterMap
                  systemOs)] := ⟨_, rfl⟩
            have hl1 : List.lookup "os".toList M = some (((d :: rest).filter
                (fun s => decide (systemArch s = some a))).filterMap systemOs) := by
              rw [hM]; rfl
            have hl2 : List.lookup "arch".toList M = some [a] := by rw [hM]; rfl
            rw [← hM]
            have hcongr : ∀ s ∈ d :: rest, decide (systemArch s = some a) = satisfies M s := by
              intro s hs
              obtain ⟨o, a', hd⟩ := parseDist_some (hw s hs)
              rw [satisfies_parsed _ hd, systemArch_of_parsed hd, hl1, hl2]
              by_cases haa : a' = a
              · subst haa
                have hmem : o ∈ ((d :: rest).filter
                    (fun s => decide (systemArch s = some a'))).filterMap systemOs := by
                  rw [List.mem_filterMap]
                  exact ⟨s, List.mem_filter.mpr ⟨hs, by simp [systemArch_of_parsed hd]⟩,
                    systemOs_of_parsed hd⟩
                simpa [dimensionAllows] using hmem
              · simp [dimensionAllows, haa]
            refine ⟨M, ?_, ?_, ?_⟩
            · have e2 : ∀ l : List Str, (∀ s ∈ l, s ∈ d :: rest) →
                  l.filter (fun s => !decide (systemArch s = some a)) = l.filter (fun s => !satisfies M s) :=
                fun l hl => List.filter_congr (fun s hs => by rw [hcongr s (hl s hs)])
              rw [List.filter_congr hcongr, e2 _ (fun s hs => hs)]
            · intro _
              obtain ⟨s, hs, hsa⟩ := (hA a).mp (List.mem_cons_self _ _)
              exact ⟨s, hs, by rw [← hcongr s hs]; simp [hsa]⟩
            · intro _ hdisj s hs
              obtain ⟨o, a', hd⟩ := parseDist_some (hwo s hs)
              rw [satisfies_parsed _ hd, hl1, hl2]
              by_contra hc
              simp only [dimensionAllows, Bool.not_eq_false, Bool.and_eq_true] at hc
              obtain ⟨hmem, haa⟩ := hc
              have haa : a' = a := by simpa using haa
              obtain ⟨t, ht, hto⟩ := List.mem_filterMap.mp (List.mem_of_elem_eq_true hmem)
              obtain ⟨htm, hta⟩ := List.mem_filter.mp ht
              have hta' : systemArch t = some a := of_decide_eq_true hta
              have hpt := parsed_of_names hto hta'
              have : t = s := by
                rw [parseDist_join hpt, parseDist_join hd, haa]
              exact hdisj t htm (this ▸ hs)
        · simp only [hlt, ↓reduceIte]
          cases oses with
          | nil => simp at hol
          | cons o ot' =>
            simp only [List.head?_cons, osArchesLoop_spec o (d :: rest) [] hw, List.nil_append]
            obtain ⟨M, hM⟩ : ∃ M : Matcher, M = [("os".toList, [o]), ("arch".toList,
                ((d :: rest).filter (fun s => decide (systemOs s = some o))).filterMap
                  systemArch)] := ⟨_, rfl⟩
            have hl1 : List.lookup "os".toList M = some [o] := by rw [hM]; rfl
            have hl2 : List.lookup "arch".toList M = some (((d :: rest).filter
                (fun s => decide (systemOs s = some o))).filterMap systemArch) := by
              rw [hM]; rfl
            have hcongr : ∀ s ∈ d :: rest, decide (systemOs s = some o) = satisfies M s := by
              intro s hs
              obtain ⟨o', a, hd⟩ := parseDist_some (hw s hs)
              rw [satisfies_parsed _ hd, systemOs_of_parsed hd, hl1, hl2]
              by_cases hoo : o' = o
              · subst hoo
                have hmem : a ∈ ((d :: rest).filter
                    (fun s => decide (systemOs s = some o'))).filterMap systemArch := by
                  rw [List.mem_filterMap]
                  exact ⟨s, List.mem_filter.mpr ⟨hs, by simp [systemOs_of_parsed hd]⟩,
                    systemArch_of_parsed hd⟩
                simpa [dimensionAllows] using hmem
              · simp [dimensionAllows, hoo]
            have hfn : ∀ s ∈ d :: rest,
                (systemOs s).map (fun o' => decide (o' = o)) =
                  some (decide (systemOs s = some o)) := by
              intro s hs
              obtain ⟨o', a, hd⟩ := parseDist_some (hw s hs)
              rw [systemOs_of_parsed hd]
              simp
            rw [splitSystems_spec _ _ (d :: rest) hfn, ← hM]
            refine ⟨M, ?_, ?_, ?_⟩
            · have e2 : ∀ l : List Str, (∀ s ∈ l, s ∈ d :: rest) →
                  l.filter (fun s => !decide (systemOs s = some o)) = l.filter (fun s => !satisfies M s) :=
                fun l hl => List.filter_congr (fun s hs => by rw [hcongr s (hl s hs)])
              rw [List.filter_congr hcongr, e2 _ (fun s hs => hs)]
            · intro _
              obtain ⟨s, hs, hso⟩ := (hO o).mp (List.mem_cons_self _ _)
              exact ⟨s, hs, by rw [← hcongr s hs]; simp [hso]⟩
            · intro _ hdisj s hs
              obtain ⟨o', a, hd⟩ := parseDist_some (hwo s hs)
              rw [satisfies_parsed _ hd, hl1, hl2]
              by_contra hc
              simp only [dimensionAllows, Bool.not_eq_false, Bool.and_eq_true] at hc
              obtain ⟨hoo, hmem⟩ := hc
              have hoo : o' = o := by simpa using hoo
              obtain ⟨t, ht, hta⟩ := List.mem_filterMap.mp (List.mem_of_elem_eq_true hmem)
              obtain ⟨htm, hto⟩ := List.mem_filter.mp ht
              have hto' : systemOs t = some o := of_decide_eq_true hto
              have hpt := parsed_of_names hto' hta
              have : t = s := by
                rw [parseDist_join hpt, parseDist_join hd, hoo]
              exact hdisj t htm (this ▸ hs)

/-- C11. Matcher exactness: for well-formed systems and other systems that
share no element, the systems being non-empty, `systemsMatcher` returns a
matcher that every element of `matcherSystems` satisfies and that no element
of `remainingSystems` and no element of the other systems satisfies. -/
theorem matcher_exact (systems otherSystems : List Str)
    (hw : ∀ d ∈ systems, d.count '/' = 1) (hwo : ∀ d ∈ otherSystems, d.count '/' = 1)
    (hdisj : ∀ d ∈ systems, d ∉ otherSystems) (hne : systems ≠ []) :
    ∃ matcher matcherSystems remainingSystems,
      systemsMatcher systems otherSystems = some (matcher, matcherSystems, remainingSystems) ∧
      (∀ s ∈ matcherSystems, satisfies matcher s = true) ∧
      (∀ s ∈ remainingSystems, satisfies matcher s = false) ∧
      (∀ s ∈ otherSystems, satisfies matcher s = false) := by
  obtain ⟨matcher, hm, _, hother⟩ := systemsMatcher_spec systems otherSystems hw hwo
  refine ⟨matcher, _, _, hm, ?_, ?_, hother hne hdisj⟩
  · intro s hs
    exact (List.mem_filter.mp hs).2
  · intro s hs
    simpa using (List.mem_filter.mp hs).2

theorem matcher_exact_witness :
    (∀ d ∈ groupSystems, d.count '/' = 1) ∧ (∀ d ∈ otherGroupSystems, d.count '/' = 1) ∧
    (∀ d ∈ groupSystems, d ∉ otherGroupSystems) ∧ groupSystems ≠ [] ∧
    ∃ matcher matcherSystems remainingSystems,
      systemsMatcher groupSystems otherGroupSystems =
        some (matcher, matcherSystems, remainingSystems) ∧
      (∀ s ∈ matcherSystems, satisfies matcher s = true) ∧
      (∀ s ∈ remainingSystems, satisfies matcher s = false) ∧
      (∀ s ∈ otherGroupSystems, satisfies matcher s = false) :=
  ⟨by decide, by decide, by decide, by decide,
    matcher_exact groupSystems otherGroupSystems (by decide) (by decide) (by decide)
      (by decide)⟩

/-- C20. For systems and other systems in which every element has exactly
one `/`, `systemsMatcher` returns: neither the panic of `parseDist`, nor
the panic `inconsistent systems`, nor an index into an empty `arches` or
`oses` is reached. -/
theorem systemsMatcher_returns (systems otherSystems : List Str)
    (hw : ∀ d ∈ systems, d.count '/' = 1) (hwo : ∀ d ∈ otherSystems, d.count '/' = 1) :
    (systemsMatcher systems otherSystems).isSome = true := by
  obtain ⟨matcher, hm, _, _⟩ := systemsMatcher_spec systems otherSystems hw hwo
  rw [hm]
  rfl

theorem systemsMatcher_returns_witness :
    (∀ d ∈ ([] : List Str), d.count '/' = 1) ∧ (∀ d ∈ groupSystems, d.count '/' = 1) ∧
    (systemsMatcher [] groupSystems).isSome = true :=
  ⟨by decide, by decide, systemsMatcher_returns [] groupSystems (by decide) (by decide)⟩

/-! ## Maps -/

theorem lookup_mapDelete {ν : Type} (m : StrMap ν) (k k' : Str) :
    (mapDelete m k).lookup k' = if k' = k then none else m.lookup k' := by
  induction m with
  | nil => simp [mapDelete]
  | cons e rest ih =>
    obtain ⟨a, b⟩ := e
    unfold mapDelete at ih ⊢
    by_cases ha : a = k
    · subst ha
      rw [List.filter_cons_of_neg (by simp), ih]
      by_cases hk : k' = a
      · simp [hk]
      · have : (k' == a) = false := by simpa using hk
        simp [List.lookup, hk, this]
    · rw [List.filter_cons_of_pos (by simpa using ha)]
      by_cases hk : k' = a
      · subst hk
        simp [List.lookup, ha]
      · have : (k' == a) = false := by simpa using hk
        simp only [List.lookup, this, ih]

theorem lookup_mapSet {ν : Type} (m : StrMap ν) (k k' : Str) (v : ν) :
    (mapSet m k v).lookup k' = if k' = k then some v else m.lookup k' := by
  induction m with
  | nil =>
    by_cases hk : k' = k
    · simp [mapSet, List.lookup, hk]
    · have : (k' == k) = false := by simpa using hk
      simp [mapSet, List.lookup, hk, this]
  | cons e rest ih =>
    obtain ⟨a, b⟩ := e
    simp only [mapSet]
    by_cases ha : a = k
    · subst ha
      simp only [↓reduceIte]
      by_cases hk : k' = a
      · simp [List.lookup, hk]
      · have : (k' == a) = false := by simpa using hk
        simp [List.lookup, hk, this]
    · simp only [ha, ↓reduceIte]
      by_cases hk : k' = a
      · subst hk
        simp [List.lookup, ha]
      · have : (k' == a) = false := by simpa using hk
        simp only [List.lookup, this, ih]

theorem mem_keys_of_lookup {ν : Type} {m : StrMap ν} {k : Str} {v : ν}
    (h : m.lookup k = some v) : k ∈ m.map Prod.fst := by
  induction m with
  | nil => simp at h
  | cons e rest ih =>
    obtain ⟨a, b⟩ := e
    rw [List.map_cons]
    by_cases hk : k = a
    · exact List.mem_cons.mpr (Or.inl hk)
    · have : (k == a) = false := by simpa using hk
      simp only [List.lookup, this] at h
      exact List.mem_cons.mpr (Or.inr (ih h))

theorem lookup_of_mem_keys {ν : Type} {m : StrMap ν} {k : Str}
    (h : k ∈ m.map Prod.fst) : ∃ v, m.lookup k = some v := by
  induction m with
  | nil => simp at h
  | cons e rest ih =>
    obtain ⟨a, b⟩ := e
    by_cases hk : k = a
    · exact ⟨b, by simp [List.lookup, hk]⟩
    · have hb : (k == a) = false := by simpa using hk
      have : k ∈ rest.map Prod.fst := by
        rw [List.map_cons] at h
        rcases List.mem_cons.mp h with h | h
        · exact absurd h hk
        · exact h
      obtain ⟨v, hv⟩ := ih this
      exact ⟨v, by simp only [List.lookup, hb, hv]⟩

theorem lookup_ne_nil {ν : Type} {m : StrMap ν} {k : Str} {v : ν}
    (h : m.lookup k = some v) : m ≠ [] := by
  intro hc; rw [hc] at h; simp at h

/-- A loop over the keys in which the visit of a key changes the value of
that key only: `g` gives the new value of the visited key. -/
theorem foldl_keys_lookup {ν : Type} (step : StrMap ν → Str → StrMap ν)
    (g : Str → ν → Option ν)
    (hstep : ∀ acc k k', (step acc k).lookup k' =
      if k' = k then (acc.lookup k).bind (g k) else acc.lookup k') :
    ∀ (ks : List Str), ks.Nodup → ∀ (acc : StrMap ν) (k' : Str),
      (ks.foldl step acc).lookup k' =
        if k' ∈ ks then (acc.lookup k').bind (g k') else acc.lookup k' := by
  intro ks
  induction ks with
  | nil => intro _ acc k'; simp
  | cons k ks ih =>
    intro hnd acc k'
    obtain ⟨hk, hnd'⟩ := List.nodup_cons.mp hnd
    rw [List.foldl_cons, ih hnd' (step acc k) k', hstep]
    by_cases h1 : k' = k
    · subst h1
      simp [hk]
    · simp [h1]


/-- A loop over a map that deletes the visited entry when `c` holds of it. -/
theorem rangeDelete_lookup (c : Str → Str → Bool) (m : StrMap Str) (k : Str) :
    (rangeMap (fun m => m) (fun m k v => if c k v then mapDelete m k else m) m).lookup k =
      (m.lookup k).bind (fun v => if c k v then none else some v) := by
  unfold rangeMap
  rw [foldl_keys_lookup _ (fun k v => if c k v then none else some v) ?_ _
    (List.nodup_dedup _) m k]
  · split
    · rfl
    · rename_i hk
      cases hl : m.lookup k with
      | none => rfl
      | some v => exact absurd (List.mem_dedup.mpr (mem_keys_of_lookup hl)) hk
  · intro acc a a'
    cases hl : acc.lookup a with
    | none =>
      simp only [Option.none_bind]
      split
      · rename_i h; rw [h, hl]
      · rfl
    | some v =>
      simp only [Option.some_bind]
      cases hc : c a v with
      | true =>
        simp only [↓reduceIte, lookup_mapDelete]
      | false =>
        simp only [Bool.false_eq_true, ↓reduceIte]
        split
        · rename_i h; rw [h, hl]
        · rfl

theorem dropIdentities_lookup (m : StrMap Str) (k : Str) :
    (dropIdentities m).lookup k = (m.lookup k).bind (fun v => if k = v then none else some v) := by
  have h := rangeDelete_lookup (fun k v => decide (k = v)) m k
  simp only [decide_eq_true_eq] at h
  exact h

/-- The condition under which the loop over a dimension of an override
deletes an entry. -/
theorem minimizeOverrideEntry_eq (depSubs : Substitutions) (tp : Str) :
    minimizeOverrideEntry depSubs tp =
      fun m k v =>
        if (decide (k = v) && (lookupSub depSubs tp k).all (fun depVal => decide (depVal = v)))
        then mapDelete m k else m := by
  funext m k v
  unfold minimizeOverrideEntry
  by_cases hkv : k = v
  · simp only [hkv, ne_eq, not_true_eq_false, ↓reduceIte, decide_True, Bool.true_and]
    cases lookupSub depSubs tp v with
    | none => simp
    | some depVal => simp
  · simp [hkv]

theorem minimizeOverrideEntry_lookup (depSubs : Substitutions) (tp : Str) (m : StrMap Str)
    (k : Str) :
    (rangeMap (fun m => m) (minimizeOverrideEntry depSubs tp) m).lookup k =
      (m.lookup k).bind (fun v =>
        if (decide (k = v) && (lookupSub depSubs tp k).all (fun depVal => decide (depVal = v)))
        then none else some v) := by
  rw [minimizeOverrideEntry_eq]
  exact rangeDelete_lookup _ m k

theorem minimizeDimensions_lookup (inner : Str → StrMap Str → StrMap Str)
    (subs : Substitutions) (tp : Str) :
    (minimizeDimensions inner subs).lookup tp =
      (subs.lookup tp).bind
        (fun m => if (inner tp m).length = 0 then none else some (inner tp m)) := by
  unfold minimizeDimensions rangeMap
  rw [foldl_keys_lookup _
    (fun tp m => if (inner tp m).length = 0 then none else some (inner tp m)) ?_ _
    (List.nodup_dedup _) subs tp]
  · split
    · rfl
    · rename_i hk
      cases hl : subs.lookup tp with
      | none => rfl
      | some v => exact absurd (List.mem_dedup.mpr (mem_keys_of_lookup hl)) hk
  · intro acc a a'
    cases hl : acc.lookup a with
    | none =>
      simp only [Option.none_bind]
      split
      · rename_i h; rw [h, hl]
      · rfl
    | some v =>
      simp only [hl, Option.some_bind, Option.getD_some, lookup_mapSet, ↓reduceIte]
      by_cases hz : (inner a v).length = 0
      · simp only [hz, ↓reduceIte, lookup_mapDelete, lookup_mapSet]
        split
        · rfl
        · rfl
      · simp only [hz, ↓reduceIte, lookup_mapSet]

theorem minimizeDimensions_nonempty (inner : Str → StrMap Str → StrMap Str)
    (subs : Substitutions) (tp : Str) (m : StrMap Str)
    (h : (minimizeDimensions inner subs).lookup tp = some m) : m ≠ [] := by
  rw [minimizeDimensions_lookup] at h
  cases hl : subs.lookup tp with
  | none => simp [hl] at h
  | some m0 =>
    simp only [hl, Option.some_bind] at h
    split at h
    · simp at h
    · rename_i hz
      simp only [Option.some.injEq] at h
      rw [← h]
      intro hc
      exact hz (by rw [hc]; rfl)

/-- The entries after a minimization, when the inner loop acts on each
entry by `g`. -/
theorem lookupSub_minimizeDimensions (inner : Str → StrMap Str → StrMap Str)
    (g : Str → Str → Str → Option Str)
    (hinner : ∀ tp m k, (inner tp m).lookup k = (m.lookup k).bind (g tp k))
    (subs : Substitutions) (tp k : Str) :
    lookupSub (minimizeDimensions inner subs) tp k = (lookupSub subs tp k).bind (g tp k) := by
  unfold lookupSub
  rw [minimizeDimensions_lookup]
  cases hl : subs.lookup tp with
  | none => rfl
  | some m =>
    simp only [Option.some_bind]
    by_cases hz : (inner tp m).length = 0
    · have hnil : inner tp m = [] := List.length_eq_zero.mp hz
      rw [if_pos hz, ← hinner, hnil]
      rfl
    · rw [if_neg hz]
      exact hinner tp m k


/-! ## buildConfig -/

theorem addChecksumsOf_append (a b : List dlFile) (cs : StrMap Str) :
    addChecksumsOf (a ++ b) cs = addChecksumsOf b (addChecksumsOf a cs) := by
  simp [addChecksumsOf, List.foldl_append]

/-- The checksum map holds, for a URL, the checksum of the last file with
that origUrl. -/
theorem addChecksumsOf_lookup (u : Str) : ∀ (files : List dlFile) (cs : StrMap Str),
    (addChecksumsOf files cs).lookup u =
      match files.reverse.find? (fun f => decide (f.origUrl = u)) with
      | some f => some f.checksum
      | none => cs.lookup u := by
  intro files
  induction files with
  | nil => intro cs; rfl
  | cons f rest ih =>
    intro cs
    have hstep : addChecksumsOf (f :: rest) cs =
        addChecksumsOf rest (mapSet cs f.origUrl f.checksum) := rfl
    rw [hstep, ih, List.reverse_cons, List.find?_append]
    cases hr : rest.reverse.find? (fun f => decide (f.origUrl = u)) with
    | some g => rfl
    | none =>
      simp only [Option.none_or, List.find?_cons, List.find?_nil, lookup_mapSet]
      by_cases hu : f.origUrl = u
      · simp [hu]
      · have : ¬ u = f.origUrl := fun h => hu h.symm
        simp [hu, this]

theorem groupsLoop_spec (M : Methods) (groups : List depGroup) :
    ∀ (rest : List depGroup) (i : Nat) (dep : Dependency) (cs : StrMap Str)
      (dep' : Dependency) (cs' : StrMap Str),
      groupsLoop M groups i rest dep cs = some (dep', cs') →
      dep'.substitutions = dep.substitutions ∧
      cs' = addChecksumsOf (rest.map (fun g => g.files)).flatten cs ∧
      ∃ ovs, dep'.overrides = dep.overrides ++ ovs := by
  intro rest
  induction rest with
  | nil =>
    intro i dep cs dep' cs' h
    simp only [groupsLoop, Option.some.injEq, Prod.mk.injEq] at h
    obtain ⟨rfl, rfl⟩ := h
    exact ⟨rfl, rfl, [], by simp⟩
  | cons g rest ih =>
    intro i dep cs dep' cs' h
    simp only [groupsLoop] at h
    have hcs : addChecksumsOf ((g :: rest).map (fun g => g.files)).flatten cs =
        addChecksumsOf (rest.map (fun g => g.files)).flatten (addChecksumsOf g.files cs) := by
      rw [List.map_cons, List.flatten_cons, addChecksumsOf_append]
    rw [hcs]
    split at h
    · exact ih _ _ _ _ _ h
    · cases ha : appendSystems g.systems dep.systems with
      | none => simp [ha] at h
      | some systems =>
        simp only [ha] at h
        cases ho : M.overrides g (groups.take i ++ groups.drop (i + 1)) with
        | none => simp [ho] at h
        | some ovs =>
          simp only [ho] at h
          obtain ⟨h1, h2, ovs', h3⟩ := ih _ _ _ _ _ h
          exact ⟨h1, h2, ovs ++ ovs', by rw [h3, List.append_assoc]⟩

theorem buildConfig_inv {M : Methods} {E : Env} {name version : Str} {groups : List depGroup}
    {cfg : Config} (h : buildConfig M E name version groups = some cfg) :
    ∃ first dep0 dep,
      groups.head? = some first ∧ M.dependency first = some dep0 ∧
      collectGroups M E groups = some (dep, cfg.urlChecksums) ∧
      dep.substitutions = dep0.substitutions ∧
      cfg.urlChecksums = addChecksumsOf (groups.map (fun g => g.files)).flatten [] ∧
      cfg.templates = [(name, minimized dep)] ∧
      cfg.templates.lookup name = some (minimized dep) := by
  unfold buildConfig at h
  cases hc : collectGroups M E groups with
  | none => simp [hc] at h
  | some r =>
    obtain ⟨dep, checksums⟩ := r
    simp only [hc, Option.some.injEq] at h
    subst h
    unfold collectGroups at hc
    cases hh : groups.head? with
    | none => simp [hh] at hc
    | some first =>
      simp only [hh] at hc
      cases hd : M.dependency first with
      | none => simp [hd] at hc
      | some dep0 =>
        simp only [hd] at hc
        cases hg : groupsLoop M groups 0 groups dep0 [] with
        | none => simp [hg] at hc
        | some r' =>
          obtain ⟨dep1, cs1⟩ := r'
          simp only [hg, Option.some.injEq, Prod.mk.injEq] at hc
          obtain ⟨h1, h2, _⟩ := groupsLoop_spec M groups groups 0 dep0 [] dep1 cs1 hg
          refine ⟨first, dep0, dep, rfl, hd, ?_, ?_, ?_, rfl, ?_⟩
          · rfl
          · rw [← hc.1]; exact h1
          · show checksums = _
            rw [← hc.2]; exact h2
          · simp [List.lookup, minimized]


theorem appendSystems_returns : ∀ (systems : List Str) (acc : Option (List SystemInfo)),
    (∀ s ∈ systems, s.count '/' = 1) → ∃ r, appendSystems systems acc = some r := by
  intro systems
  induction systems with
  | nil => intro acc _; exact ⟨acc, rfl⟩
  | cons s rest ih =>
    intro acc hw
    obtain ⟨o, a, hd⟩ := parseDist_some (hw s (List.mem_cons_self _ _))
    simp only [appendSystems, hd]
    exact ih _ (fun x hx => hw x (List.mem_cons_of_mem _ hx))

theorem groupsLoop_returns (M : Methods) (groups : List depGroup) :
    ∀ (rest : List depGroup) (i : Nat) (dep : Dependency) (cs : StrMap Str),
      (∀ g ∈ rest, ∀ others, (M.overrides g others).isSome = true) →
      (∀ g ∈ rest, ∀ s ∈ g.systems, s.count '/' = 1) →
      ∃ r, groupsLoop M groups i rest dep cs = some r := by
  intro rest
  induction rest with
  | nil => intro i dep cs _ _; exact ⟨_, rfl⟩
  | cons g rest ih =>
    intro i dep cs hov hw
    have hov' : ∀ g ∈ rest, ∀ others, (M.overrides g others).isSome = true :=
      fun x hx => hov x (List.mem_cons_of_mem _ hx)
    have hw' : ∀ g ∈ rest, ∀ s ∈ g.systems, s.count '/' = 1 :=
      fun x hx => hw x (List.mem_cons_of_mem _ hx)
    simp only [groupsLoop]
    split
    · exact ih _ _ _ hov' hw'
    · obtain ⟨systems, hs⟩ := appendSystems_returns g.systems dep.systems
        (hw g (List.mem_cons_self _ _))
      obtain ⟨ovs, ho⟩ := Option.isSome_iff_exists.mp
        (hov g (List.mem_cons_self _ _) (groups.take i ++ groups.drop (i + 1)))
      simp only [hs, ho]
      exact ih _ _ _ hov' hw'

/-- `buildConfig` returns a config for a non-empty list of groups whose
systems are well-formed, when the methods `dependency` and `overrides`
return. -/
theorem buildConfig_returns (M : Methods) (E : Env) (name version : Str)
    (groups : List depGroup) (hne : groups ≠ [])
    (hdep : ∀ g ∈ groups, (M.dependency g).isSome = true)
    (hov : ∀ g ∈ groups, ∀ others, (M.overrides g others).isSome = true)
    (hw : ∀ g ∈ groups, ∀ s ∈ g.systems, s.count '/' = 1) :
    (buildConfig M E name version groups).isSome = true := by
  cases groups with
  | nil => exact absurd rfl hne
  | cons first rest =>
    obtain ⟨dep0, hd⟩ := Option.isSome_iff_exists.mp (hdep first (List.mem_cons_self _ _))
    obtain ⟨r, hr⟩ := groupsLoop_returns M (first :: rest) (first :: rest) 0 dep0 [] hov hw
    obtain ⟨dep1, cs⟩ := r
    simp only [buildConfig, collectGroups, List.head?_cons, hd, hr]
    rfl

theorem forall₂_map_self {α : Type} (R : α → α → Prop) (f : α → α) (l : List α)
    (h : ∀ x ∈ l, R x (f x)) : List.Forall₂ R l (l.map f) := by
  induction l with
  | nil => exact List.Forall₂.nil
  | cons x xs ih =>
    exact List.Forall₂.cons (h x (List.mem_cons_self _ _))
      (ih (fun y hy => h y (List.mem_cons_of_mem _ hy)))

theorem lookupSub_minimized (subs : Substitutions) (tp k : Str) :
    lookupSub (minimizeDimensions (fun _ m => dropIdentities m) subs) tp k =
      (lookupSub subs tp k).bind (fun v => if k = v then none else some v) :=
  lookupSub_minimizeDimensions (fun _ m => dropIdentities m)
    (fun _ k v => if k = v then none else some v)
    (fun _ m k => dropIdentities_lookup m k) subs tp k

theorem lookupSub_minimized_iff (subs : Substitutions) (tp k v : Str) :
    lookupSub (minimizeDimensions (fun _ m => dropIdentities m) subs) tp k = some v ↔
      (lookupSub subs tp k = some v ∧ k ≠ v) := by
  rw [lookupSub_minimized]
  cases lookupSub subs tp k with
  | none => simp
  | some w =>
    simp only [Option.some_bind, Option.some.injEq]
    by_cases hkw : k = w
    · simp only [hkw, ↓reduceIte]
      constructor
      · intro h; simp at h
      · rintro ⟨h1, h2⟩; exact absurd h1 h2
    · simp only [hkw, ↓reduceIte, Option.some.injEq]
      constructor
      · intro h; exact ⟨h, by rw [← h]; exact hkw⟩
      · intro h; exact h.1

theorem lookupSub_minimizeOverride (depSubs : Substitutions) (ov : DependencyOverride)
    (tp k : Str) :
    lookupSub (minimizeOverride depSubs ov).dependency.substitutions tp k =
      (lookupSub ov.dependency.substitutions tp k).bind (fun v =>
        if (decide (k = v) && (lookupSub depSubs tp k).all (fun depVal => decide (depVal = v)))
        then none else some v) :=
  lookupSub_minimizeDimensions
    (fun tp m => rangeMap (fun m => m) (minimizeOverrideEntry depSubs tp) m)
    (fun tp k v =>
      if (decide (k = v) && (lookupSub depSubs tp k).all (fun depVal => decide (depVal = v)))
      then none else some v)
    (fun tp m k => minimizeOverrideEntry_lookup depSubs tp m k)
    ov.dependency.substitutions tp k

/-- C14. Template substitution minimization: in the template of the config
`buildConfig` returns (the list of groups then being non-empty), the
substitutions are the non-identity entries of the substitutions of the
dependency of the first group: an entry `k -> v` is in the template exactly
when it is an entry of that dependency with `k != v`, no entry maps a key to
itself, and no dimension has an empty map. -/
theorem template_substitutions_minimal (M : Methods) (E : Env) (name version : Str)
    (groups : List depGroup) (cfg : Config)
    (hret : buildConfig M E name version groups = some cfg) :
    ∃ first dep0 tmpl, groups.head? = some first ∧ M.dependency first = some dep0 ∧
      cfg.templates.lookup name = some tmpl ∧
      (∀ tp k v, lookupSub tmpl.substitutions tp k = some v ↔
        (lookupSub dep0.substitutions tp k = some v ∧ k ≠ v)) ∧
      (∀ tp k, lookupSub tmpl.substitutions tp k ≠ some k) ∧
      (∀ tp m, tmpl.substitutions.lookup tp = some m → m ≠ []) := by
  obtain ⟨first, dep0, dep, h1, h2, _, h4, _, _, h7⟩ := buildConfig_inv hret
  refine ⟨first, dep0, minimized dep, h1, h2, h7, ?_, ?_, ?_⟩
  · intro tp k v
    rw [← h4]
    exact lookupSub_minimized_iff dep.substitutions tp k v
  · intro tp k hc
    exact ((lookupSub_minimized_iff dep.substitutions tp k k).mp hc).2 rfl
  · intro tp m hm
    exact minimizeDimensions_nonempty _ _ tp m hm

theorem template_substitutions_minimal_witness :
    ∃ cfg, buildConfig checksumMethods insertionEnv "t".toList [] sharedSurfaceGroups = some cfg ∧
      ∃ first dep0 tmpl, sharedSurfaceGroups.head? = some first ∧
        checksumMethods.dependency first = some dep0 ∧
        cfg.templates.lookup "t".toList = some tmpl ∧
        (∀ tp k v, lookupSub tmpl.substitutions tp k = some v ↔
          (lookupSub dep0.substitutions tp k = some v ∧ k ≠ v)) ∧
        (∀ tp k, lookupSub tmpl.substitutions tp k ≠ some k) ∧
        (∀ tp m, tmpl.substitutions.lookup tp = some m → m ≠ []) :=
  let ⟨cfg, h⟩ := Option.isSome_iff_exists.mp
    (by decide :
      (buildConfig checksumMethods insertionEnv "t".toList [] sharedSurfaceGroups).isSome = true)
  ⟨cfg, h, template_substitutions_minimal checksumMethods insertionEnv "t".toList []
    sharedSurfaceGroups cfg h⟩

/-- C15. Override minimality does not hold of `buildConfig`: the loop over
the entries of an override skips every entry `k -> v` with `k != v`
(`if k != v { continue }`), so the test `depVal == v` behind it never
deletes such an entry. In the config `buildConfig` returns, an entry
`k -> v` with `k != v` that an override carried before the minimization and
that equals the value of the template for the same dimension and key is
still an entry of that override. The overrides are paired with the overrides
before the minimization, in their order. -/
theorem override_keeps_template_value (M : Methods) (E : Env) (name version : Str)
    (groups : List depGroup) (cfg : Config)
    (hret : buildConfig M E name version groups = some cfg) :
    ∃ dep tmpl, collectGroups M E groups = some (dep, cfg.urlChecksums) ∧
      cfg.templates.lookup name = some tmpl ∧
      List.Forall₂
        (fun ov ov' =>
          ∀ tp k v, k ≠ v → lookupSub ov.dependency.substitutions tp k = some v →
            lookupSub tmpl.substitutions tp k = some v →
            lookupSub ov'.dependency.substitutions tp k = some v)
        dep.overrides tmpl.overrides := by
  obtain ⟨first, dep0, dep, _, _, h3, _, _, _, h7⟩ := buildConfig_inv hret
  refine ⟨dep, minimized dep, h3, h7, ?_⟩
  apply forall₂_map_self
  intro ov _ tp k v hkv hov _
  rw [lookupSub_minimizeOverride, hov]
  simp [hkv]

theorem override_keeps_template_value_witness :
    ∃ cfg, buildConfig checksumMethods insertionEnv "t".toList [] sharedSurfaceGroups = some cfg ∧
      (cfg.templates.lookup "t".toList).map (fun tmpl =>
        (lookupSub tmpl.substitutions "arch".toList "amd64".toList,
          tmpl.overrides.map (fun ov =>
            lookupSub ov.dependency.substitutions "arch".toList "amd64".toList))) =
        some (some "x86_64".toList, [some "x86_64".toList]) ∧
      ∃ dep tmpl,
        collectGroups checksumMethods insertionEnv sharedSurfaceGroups =
          some (dep, cfg.urlChecksums) ∧
        cfg.templates.lookup "t".toList = some tmpl ∧
        List.Forall₂
          (fun ov ov' =>
            ∀ tp k v, k ≠ v → lookupSub ov.dependency.substitutions tp k = some v →
              lookupSub tmpl.substitutions tp k = some v →
              lookupSub ov'.dependency.substitutions tp k = some v)
          dep.overrides tmpl.overrides :=
  have hb : buildConfig checksumMethods insertionEnv "t".toList [] sharedSurfaceGroups =
      some ((buildConfig checksumMethods insertionEnv "t".toList [] sharedSurfaceGroups).getD
        ⟨none, [], [], []⟩) := by decide
  ⟨_, hb, by decide, override_keeps_template_value checksumMethods insertionEnv "t".toList []
    sharedSurfaceGroups _ hb⟩

/-- C16. Identity entries in overrides: in the config `buildConfig` returns,
an identity entry `k -> k` of a dimension of an override is there exactly
when the override had it before the minimization and the substitutions of
the template bind `k` in that dimension; the template binds no key to
itself, and no override keeps a dimension with an empty map. The overrides
are paired with the overrides before the minimization, in their order. -/
theorem override_identity_entries (M : Methods) (E : Env) (name version : Str)
    (groups : List depGroup) (cfg : Config)
    (hret : buildConfig M E name version groups = some cfg) :
    ∃ dep tmpl, collectGroups M E groups = some (dep, cfg.urlChecksums) ∧
      cfg.templates.lookup name = some tmpl ∧
      (∀ tp k v, lookupSub tmpl.substitutions tp k = some v → v ≠ k) ∧
      List.Forall₂
        (fun ov ov' =>
          (∀ tp k, lookupSub ov'.dependency.substitutions tp k = some k ↔
            (lookupSub ov.dependency.substitutions tp k = some k ∧
              ∃ v, lookupSub tmpl.substitutions tp k = some v)) ∧
          (∀ tp m, ov'.dependency.substitutions.lookup tp = some m → m ≠ []))
        dep.overrides tmpl.overrides := by
  obtain ⟨first, dep0, dep, _, _, h3, _, _, _, h7⟩ := buildConfig_inv hret
  have hnoid : ∀ tp k v, lookupSub (minimized dep).substitutions tp k = some v → v ≠ k := by
    intro tp k v ht hvk
    exact ((lookupSub_minimized_iff dep.substitutions tp k v).mp ht).2 hvk.symm
  refine ⟨dep, minimized dep, h3, h7, hnoid, ?_⟩
  apply forall₂_map_self
  intro ov _
  constructor
  · intro tp k
    rw [lookupSub_minimizeOverride]
    cases hov : lookupSub ov.dependency.substitutions tp k with
    | none => simp
    | some w =>
      simp only [Option.some_bind]
      by_cases hkw : k = w
      · subst hkw
        simp only [decide_True, Bool.true_and, Option.some.injEq, true_and]
        have hms : (minimized dep).substitutions =
            minimizeDimensions (fun _ m => dropIdentities m) dep.substitutions := rfl
        rw [hms]
        cases ht : lookupSub (minimizeDimensions (fun _ m => dropIdentities m)
            dep.substitutions) tp k with
        | none => simp
        | some depVal =>
          have hne : depVal ≠ k := hnoid tp k depVal (by rw [hms]; exact ht)
          simp [hne]
      · have hwk : ¬ w = k := fun h => hkw h.symm
        simp [hkw, hwk]
  · intro tp m hm
    exact minimizeDimensions_nonempty _ _ tp m hm

theorem override_identity_entries_witness :
    ∃ cfg, buildConfig checksumMethods insertionEnv "t".toList [] sharedSurfaceGroups = some cfg ∧
      ∃ dep tmpl,
        collectGroups checksumMethods insertionEnv sharedSurfaceGroups =
          some (dep, cfg.urlChecksums) ∧
        cfg.templates.lookup "t".toList = some tmpl ∧
        (∀ tp k v, lookupSub tmpl.substitutions tp k = some v → v ≠ k) ∧
        List.Forall₂
          (fun ov ov' =>
            (∀ tp k, lookupSub ov'.dependency.substitutions tp k = some k ↔
              (lookupSub ov.dependency.substitutions tp k = some k ∧
                ∃ v, lookupSub tmpl.substitutions tp k = some v)) ∧
            (∀ tp m, ov'.dependency.substitutions.lookup tp = some m → m ≠ []))
          dep.overrides tmpl.overrides :=
  let ⟨cfg, h⟩ := Option.isSome_iff_exists.mp
    (by decide :
      (buildConfig checksumMethods insertionEnv "t".toList [] sharedSurfaceGroups).isSome = true)
  ⟨cfg, h, override_identity_entries checksumMethods insertionEnv "t".toList []
    sharedSurfaceGroups cfg h⟩


/-! ## Checksums -/

theorem mem_groupFiles {groups : List depGroup} {f : dlFile} :
    f ∈ (groups.map (fun g => g.files)).flatten ↔ ∃ g ∈ groups, f ∈ g.files := by
  rw [List.mem_flatten]
  constructor
  · rintro ⟨l, hl, hf⟩
    obtain ⟨g, hg, rfl⟩ := List.mem_map.mp hl
    exact ⟨g, hg, hf⟩
  · rintro ⟨g, hg, hf⟩
    exact ⟨g.files, List.mem_map.mpr ⟨g, hg, rfl⟩, hf⟩

theorem checksums_lookup_some {files : List dlFile} {u c : Str}
    (h : (addChecksumsOf files []).lookup u = some c) :
    ∃ f ∈ files, f.origUrl = u ∧ f.checksum = c := by
  rw [addChecksumsOf_lookup] at h
  cases hf : files.reverse.find? (fun f => decide (f.origUrl = u)) with
  | none => simp [hf] at h
  | some f =>
    simp only [hf, Option.some.injEq] at h
    exact ⟨f, List.mem_reverse.mp (List.mem_of_find?_eq_some hf),
      by simpa using List.find?_some hf, h⟩

theorem checksums_lookup_of_mem {files : List dlFile} {f : dlFile} (hf : f ∈ files) :
    ∃ f' ∈ files, f'.origUrl = f.origUrl ∧
      (addChecksumsOf files []).lookup f.origUrl = some f'.checksum := by
  rw [addChecksumsOf_lookup]
  cases hfind : files.reverse.find? (fun g => decide (g.origUrl = f.origUrl)) with
  | none =>
    have := List.find?_eq_none.mp hfind f (List.mem_reverse.mpr hf)
    simp at this
  | some f' =>
    exact ⟨f', List.mem_reverse.mp (List.mem_of_find?_eq_some hfind),
      by simpa using List.find?_some hfind, rfl⟩

theorem systemFiles_classified {E : Env} {dlUrls : List Str} {version : Str}
    {allowedSystems : Option (List Str)} {m : FileMap}
    (h : systemFiles E dlUrls version allowedSystems = some m) :
    (classify E version allowedSystems [] dlUrls).isSome = true := by
  cases hc : classify E version allowedSystems [] dlUrls with
  | some _ => rfl
  | none => simp [systemFiles, reducedFiles, priorityFiles, hc] at h

theorem accepted_of_classified {E : Env} {dlUrls : List Str} {version : Str}
    {allowedSystems : Option (List Str)} {k : Str} {f : dlFile}
    (h : f ∈ classifiedTo E dlUrls version allowedSystems k) :
    f.origUrl ∈ dlUrls ∧ accepts E f.origUrl version allowedSystems = true := by
  unfold classifiedTo at h
  rw [List.mem_filter] at h
  obtain ⟨u, hu, hp⟩ := mem_acceptedFiles h.1
  obtain ⟨_, _, _, _, _, _, _, _, _, _, _, _, _, hf⟩ := parseDownload_inv hp
  have ho : f.origUrl = u := by rw [hf]; rfl
  rw [ho]
  exact ⟨hu, by simp [accepts, hp]⟩

/-- The file the group builder takes for a system carries a URL of the
input that `parseDownload` accepts. -/
theorem chosen_accepted {E : Env} (hE : E.Lawful) {dlUrls : List Str} {version : Str}
    {allowedSystems : Option (List Str)} {m : FileMap}
    (hm : systemFiles E dlUrls version allowedSystems = some m) {k : Str} {f : dlFile}
    (hf : chosenFile m k = some f) :
    f.origUrl ∈ dlUrls ∧ accepts E f.origUrl version allowedSystems = true := by
  obtain ⟨m2, m3, _, h3, hnil, hone, hyes, hno⟩ := systemFiles_spec hE (systemFiles_classified hm)
  rw [hm] at h3
  simp only [Option.some.injEq] at h3
  subst h3
  by_cases hk : classifiedTo E dlUrls version allowedSystems k = []
  · by_cases hcond : remapApplies E dlUrls version allowedSystems
    · obtain ⟨f0, hf0, hget⟩ := hyes hcond
      obtain ⟨f1, h1, _, htop, _, _⟩ := hone _ hcond.2.2
      rw [hf0] at h1
      simp only [List.cons.injEq, and_true] at h1
      subst h1
      unfold chosenFile at hf
      rw [hget k] at hf
      by_cases hka : k = "darwin/arm64".toList
      · rw [if_pos hka] at hf
        simp only [Slice.elems, List.take_succ_cons, List.take_zero, List.head?_cons,
          Option.some.injEq] at hf
        rw [← hf]
        show f0.origUrl ∈ dlUrls ∧ accepts E f0.origUrl version allowedSystems = true
        exact accepted_of_classified (mem_topCandidates htop).1
      · rw [if_neg hka, hnil k hk] at hf
        simp [Slice.elems] at hf
    · rw [hno hcond] at hf
      unfold chosenFile at hf
      rw [hnil k hk] at hf
      simp [Slice.elems] at hf
  · obtain ⟨f1, _, h1, htop, _, _⟩ := hone k hk
    rw [chosenFile_of_elems h1 hf]
    exact accepted_of_classified (mem_topCandidates htop).1

theorem placeSystems_urls {M : Methods} (hM : keepsUrls M) (P : Str → Prop) (m : FileMap)
    (binName : Str) (hch : ∀ s file, chosenFile m s = some file → P file.origUrl) :
    ∀ (systems : List Str) (groups0 groups : List depGroup),
      (∀ g ∈ groups0, ∀ f ∈ g.files, P f.origUrl) →
      placeSystems M m binName systems groups0 = some groups →
      ∀ g ∈ groups, ∀ f ∈ g.files, P f.origUrl := by
  intro systems
  induction systems with
  | nil =>
    intro groups0 groups h0 h
    simp only [placeSystems, Option.some.injEq] at h
    rw [← h]
    exact h0
  | cons s rest ih =>
    intro groups0 groups h0 h
    simp only [placeSystems] at h
    cases hc : chosenFile m s with
    | none => simp [hc] at h
    | some file =>
      simp only [hc] at h
      have hadd : ∀ g g', (∀ f ∈ g.files, P f.origUrl) → M.addFile g file binName = some g' →
          ∀ f ∈ g'.files, P f.origUrl := by
        intro g g' hg ha f hf
        rcases hM.1 g file binName g' ha f hf with h1 | ⟨f0, hf0, h1⟩
        · rw [h1]; exact hch s file hc
        · rw [h1]; exact hg f0 hf0
      cases hi : indexFuncM (fun g => M.fileAllowed g file binName) groups0 with
      | none => simp [hi] at h
      | some r =>
        cases r with
        | some idx =>
          simp only [hi] at h
          rw [List.get?_eq_getElem?] at h
          cases hg : groups0[idx]? with
          | none => simp [hg] at h
          | some g =>
            simp only [hg] at h
            cases ha : M.addFile g file binName with
            | none => simp [ha] at h
            | some g' =>
              simp only [ha] at h
              refine ih (groups0.set idx g') groups ?_ h
              intro g1 hg1
              rcases List.mem_or_eq_of_mem_set hg1 with h2 | h2
              · exact h0 g1 h2
              · rw [h2]
                exact hadd g g' (h0 g (List.getElem?_mem hg)) ha
        | none =>
          simp only [hi] at h
          cases ha : M.addFile newGroup file binName with
          | none => simp [ha] at h
          | some group =>
            simp only [ha] at h
            refine ih (groups0 ++ [group]) groups ?_ h
            intro g1 hg1
            rcases List.mem_append.mp hg1 with h2 | h2
            · exact h0 g1 h2
            · rw [List.mem_singleton.mp h2]
              exact hadd newGroup group (by intro f hf; simp [newGroup] at hf) ha

theorem regroupLoop_urls {M : Methods} (hM : keepsUrls M) (P : Str → Prop) (name version : Str) :
    ∀ (groups acc regrouped : List depGroup),
      (∀ g ∈ groups, ∀ f ∈ g.files, P f.origUrl) →
      (∀ g ∈ acc, ∀ f ∈ g.files, P f.origUrl) →
      regroupLoop M name version groups acc = some (.ok regrouped) →
      ∀ g ∈ regrouped, ∀ f ∈ g.files, P f.origUrl := by
  intro groups
  induction groups with
  | nil =>
    intro acc regrouped _ hacc h
    simp only [regroupLoop, Option.some.injEq, Except.ok.injEq] at h
    rw [← h]
    exact hacc
  | cons g rest ih =>
    intro acc regrouped hg hacc h
    simp only [regroupLoop] at h
    cases hr : M.regroupByArchivePath g name version with
    | none => simp [hr] at h
    | some r =>
      cases r with
      | error err => simp [hr] at h
      | ok gg =>
        simp only [hr] at h
        refine ih (acc ++ gg) regrouped (fun g1 h1 => hg g1 (List.mem_cons_of_mem _ h1)) ?_ h
        intro g1 hg1
        rcases List.mem_append.mp hg1 with h2 | h2
        · exact hacc g1 h2
        · intro f hf
          obtain ⟨f0, hf0, he⟩ := hM.2 g name version gg hr g1 h2 f hf
          rw [he]
          exact hg g (List.mem_cons_self _ _) f0 hf0

/-- The files of the groups `parseDownloads` returns carry URLs of the input
that `parseDownload` accepts. -/
theorem parseDownloads_urls {M : Methods} (hM : keepsUrls M) {E : Env} (hE : E.Lawful)
    {dlUrls : List Str} {binName version : Str} {allowedSystems : Option (List Str)}
    {groups : List depGroup}
    (h : parseDownloads M E dlUrls binName version allowedSystems = some groups) :
    ∀ g ∈ groups, ∀ f ∈ g.files,
      f.origUrl ∈ dlUrls ∧ accepts E f.origUrl version allowedSystems = true := by
  unfold parseDownloads at h
  cases hm : systemFiles E dlUrls version allowedSystems with
  | none => simp [hm] at h
  | some m =>
    simp only [hm] at h
    cases hp : placeSystems M m binName (E.sortFunc Str (systemLess m) (mapKeys m)) [] with
    | none => simp [hp] at h
    | some placed =>
      simp only [hp, Option.some.injEq] at h
      intro g hg
      rw [← h] at hg
      have hg' : g ∈ placed := (hE.perm depGroup moreFiles placed).mem_iff.mp hg
      exact placeSystems_urls hM
        (fun u => u ∈ dlUrls ∧ accepts E u version allowedSystems = true) m binName
        (fun s file hc => chosen_accepted hE hm hc) _ [] placed (by simp) hp g hg'

theorem checksumMethods_keepsUrls : keepsUrls checksumMethods := by
  constructor
  · intro g file binName g' h f hf
    simp only [checksumMethods, sampleMethods, Option.some.injEq] at h
    rw [← h] at hf
    simp only [List.mem_append, List.mem_singleton] at hf
    rcases hf with hf | hf
    · exact Or.inr ⟨f, hf, rfl⟩
    · exact Or.inl (by rw [hf])
  · intro g name version gg h g' hg' f hf
    simp only [checksumMethods, Option.some.injEq, Except.ok.injEq] at h
    rw [← h] at hg'
    simp only [List.mem_singleton] at hg'
    rw [hg'] at hf
    simp only [List.mem_map] at hf
    obtain ⟨f0, hf0, he⟩ := hf
    exact ⟨f0, hf0, by rw [← he]⟩

theorem regroupLoop_of_groups {r : Option (Except Str (List depGroup))}
    {groups : List depGroup}
    (h : (match r with
      | some (.ok regrouped) => some regrouped
      | _ => none) = some groups) : r = some (.ok groups) := by
  cases r with
  | none => simp at h
  | some e =>
    cases e with
    | error err => simp at h
    | ok g =>
      simp only [Option.some.injEq] at h
      rw [h]

/-- C17. Checksum coverage: the keys of the `URLChecksums` map of the config
`buildConfig` returns (the list of groups then being non-empty) are exactly
the origUrl values of the files of all groups; a key is mapped to the
checksum of a file with that origUrl, which is the checksum of every such
file when the files with one origUrl agree on the checksum. When the groups
are those `addDependency` hands over for a list of ASCII URLs (the groups of
`parseDownloads` after `regroupByArchivePath`), for a lawful sort and methods
that put only chosen assets into a group, every key is a URL of the input
that `parseDownload` accepts, so a URL that classification rejects is never
a key. -/
theorem checksum_coverage (M : Methods) (E : Env) (name version : Str)
    (groups : List depGroup) (cfg : Config)
    (hret : buildConfig M E name version groups = some cfg) :
    (∀ u, u ∈ cfg.urlChecksums.map Prod.fst ↔ ∃ g ∈ groups, ∃ f ∈ g.files, f.origUrl = u) ∧
    (∀ u c, cfg.urlChecksums.lookup u = some c →
      ∃ g ∈ groups, ∃ f ∈ g.files, f.origUrl = u ∧ f.checksum = c) ∧
    ((∀ g ∈ groups, ∀ f ∈ g.files, ∀ g' ∈ groups, ∀ f' ∈ g'.files,
        f.origUrl = f'.origUrl → f.checksum = f'.checksum) →
      ∀ g ∈ groups, ∀ f ∈ g.files, cfg.urlChecksums.lookup f.origUrl = some f.checksum) ∧
    (∀ (urls : List Str) (systems : Option (List Str)) (parsed : List depGroup),
      E.Lawful → keepsUrls M → (∀ u ∈ urls, isASCII u) →
      parseDownloads M E urls name version systems = some parsed →
      regroupLoop M name version parsed [] = some (.ok groups) →
      (∀ u ∈ cfg.urlChecksums.map Prod.fst,
        u ∈ urls ∧ accepts E u version systems = true) ∧
      ∀ u, parseDownload E u version systems = some none →
        u ∉ cfg.urlChecksums.map Prod.fst) := by
  obtain ⟨_, _, _, _, _, _, _, h5, _, _⟩ := buildConfig_inv hret
  have hkeys : ∀ u, u ∈ cfg.urlChecksums.map Prod.fst ↔
      ∃ g ∈ groups, ∃ f ∈ g.files, f.origUrl = u := by
    intro u
    constructor
    · intro hu
      obtain ⟨c, hc⟩ := lookup_of_mem_keys hu
      rw [h5] at hc
      obtain ⟨f, hf, hfu, _⟩ := checksums_lookup_some hc
      obtain ⟨g, hg, hfg⟩ := mem_groupFiles.mp hf
      exact ⟨g, hg, f, hfg, hfu⟩
    · rintro ⟨g, hg, f, hfg, hfu⟩
      obtain ⟨f', _, _, hl⟩ := checksums_lookup_of_mem (mem_groupFiles.mpr ⟨g, hg, hfg⟩)
      rw [← h5, hfu] at hl
      exact mem_keys_of_lookup hl
  refine ⟨hkeys, ?_, ?_, ?_⟩
  · intro u c hc
    rw [h5] at hc
    obtain ⟨f, hf, hfu, hfc⟩ := checksums_lookup_some hc
    obtain ⟨g, hg, hfg⟩ := mem_groupFiles.mp hf
    exact ⟨g, hg, f, hfg, hfu, hfc⟩
  · intro hcons g hg f hfg
    obtain ⟨f', hf', hfu, hl⟩ := checksums_lookup_of_mem (mem_groupFiles.mpr ⟨g, hg, hfg⟩)
    obtain ⟨g', hg', hfg'⟩ := mem_groupFiles.mp hf'
    rw [h5, hl, hcons g' hg' f' hfg' g hg f hfg hfu]
  · intro urls systems parsed hE hM _ hp hr
    have hall : ∀ u ∈ cfg.urlChecksums.map Prod.fst,
        u ∈ urls ∧ accepts E u version systems = true := by
      intro u hu
      obtain ⟨g, hg, f, hfg, hfu⟩ := (hkeys u).mp hu
      have := regroupLoop_urls hM (fun u => u ∈ urls ∧ accepts E u version systems = true)
        name version parsed [] groups (parseDownloads_urls hM hE hp) (by simp) hr g hg f hfg
      rw [hfu] at this
      exact this
    refine ⟨hall, ?_⟩
    intro u hrej hu
    have := (hall u hu).2
    simp [accepts, hrej] at this

theorem checksum_coverage_witness :
    ∃ cfg, buildConfig checksumMethods insertionEnv "t".toList "1.0.0".toList groupsWithJs =
        some cfg ∧
      (∀ g ∈ groupsWithJs, ∀ f ∈ g.files, ∀ g' ∈ groupsWithJs, ∀ f' ∈ g'.files,
        f.origUrl = f'.origUrl → f.checksum = f'.checksum) ∧
      insertionEnv.Lawful ∧ keepsUrls checksumMethods ∧ (∀ u ∈ assetsWithJs, isASCII u) ∧
      parseDownloads checksumMethods insertionEnv assetsWithJs "t".toList "1.0.0".toList
        threeSystemsAndJs = some parsedWithJs ∧
      regroupLoop checksumMethods "t".toList "1.0.0".toList parsedWithJs [] =
        some (.ok groupsWithJs) ∧
      jsWasmUrl ∈ assetsWithJs ∧
      parseDownload insertionEnv jsWasmUrl "1.0.0".toList threeSystemsAndJs = some none ∧
      cfg.urlChecksums.map Prod.fst =
        ["t-darwin-x86_64.tar.gz".toList, "t-linux-x86_64.tar.gz".toList,
          "t_windows_x86_64.zip".toList] ∧
      (∀ u, u ∈ cfg.urlChecksums.map Prod.fst ↔
        ∃ g ∈ groupsWithJs, ∃ f ∈ g.files, f.origUrl = u) ∧
      (∀ g ∈ groupsWithJs, ∀ f ∈ g.files,
        cfg.urlChecksums.lookup f.origUrl = some f.checksum) ∧
      (∀ u ∈ cfg.urlChecksums.map Prod.fst,
        u ∈ assetsWithJs ∧ accepts insertionEnv u "1.0.0".toList threeSystemsAndJs = true) ∧
      jsWasmUrl ∉ cfg.urlChecksums.map Prod.fst :=
  have hb : buildConfig checksumMethods insertionEnv "t".toList "1.0.0".toList groupsWithJs =
      some ((buildConfig checksumMethods insertionEnv "t".toList "1.0.0".toList
        groupsWithJs).getD ⟨none, [], [], []⟩) := by decide
  have hp : parseDownloads checksumMethods insertionEnv assetsWithJs "t".toList "1.0.0".toList
      threeSystemsAndJs = some parsedWithJs := by decide
  have hr : regroupLoop checksumMethods "t".toList "1.0.0".toList parsedWithJs [] =
      some (.ok groupsWithJs) := regroupLoop_of_groups (by decide)
  have hc := checksum_coverage checksumMethods insertionEnv "t".toList "1.0.0".toList
    groupsWithJs _ hb
  have h4 := hc.2.2.2 assetsWithJs threeSystemsAndJs parsedWithJs insertionEnv_lawful
    checksumMethods_keepsUrls (by decide) hp hr
  ⟨_, hb, by decide, insertionEnv_lawful, checksumMethods_keepsUrls, by decide, hp, hr,
    by decide, by decide, by decide, hc.1, hc.2.2.1 (by decide), h4.1,
    h4.2 _ (by decide)⟩

/-! ## addDependency -/

theorem classify_rejected {E : Env} {version : Str} {systems : Option (List Str)} :
    ∀ (urls : List Str) (m : FileMap),
      (∀ u ∈ urls, parseDownload E u version systems = some none) →
      classify E version systems m urls = some m := by
  intro urls
  induction urls with
  | nil => intro m _; rfl
  | cons u rest ih =>
    intro m h
    simp only [classify, h u (List.mem_cons_self _ _)]
    exact ih m (fun x hx => h x (List.mem_cons_of_mem _ hx))

theorem sortFunc_nil {E : Env} (hE : E.Lawful) (α : Type) (less : α → α → Bool) :
    E.sortFunc α less [] = [] :=
  List.perm_nil.mp (hE.perm α less [])

theorem parseDownloads_rejected (M : Methods) {E : Env} (hE : E.Lawful) {urls : List Str}
    (binName : Str) {version : Str} {systems : Option (List Str)}
    (h : ∀ u ∈ urls, parseDownload E u version systems = some none) :
    parseDownloads M E urls binName version systems = some [] := by
  have hs : systemFiles E urls version systems = some [] := by
    simp only [systemFiles, reducedFiles, priorityFiles, classify_rejected urls [] h,
      forEachBucket]
    rfl
  simp only [parseDownloads, hs, mapKeys, List.map_nil, sortFunc_nil hE, placeSystems]

/-- C12. The synthesis panics when no URL is classified, as for an empty URL
list: for a lawful environment and a URL list each URL of which
`parseDownload` rejects, `parseDownloads` returns no group, `buildConfig`
panics on the empty list of groups (it indexes `groups[0]`), and so
`addDependency` panics instead of returning. -/
theorem synthesis_panics_without_groups (M : Methods) (E : Env) (hE : E.Lawful) (cfg : Config)
    (name version homepage description : Str) (urls : List Str)
    (hrej : ∀ u ∈ urls, parseDownload E u version (declaredSystems E cfg) = some none) :
    parseDownloads M E urls name version (declaredSystems E cfg) = some [] ∧
    buildConfig M E name version [] = none ∧
    addDependency M E cfg name version homepage description urls = none := by
  have hp := parseDownloads_rejected M hE name hrej
  refine ⟨hp, rfl, ?_⟩
  simp only [addDependency, hp, regroupLoop]
  rfl

theorem synthesis_panics_without_groups_witness :
    insertionEnv.Lawful ∧
    (∀ u ∈ ["README.md".toList, jsWasmUrl],
      parseDownload insertionEnv u "1.0.0".toList (declaredSystems insertionEnv emptyConfig) =
        some none) ∧
    parseDownloads sampleMethods insertionEnv ["README.md".toList, jsWasmUrl] "tool".toList
      "1.0.0".toList (declaredSystems insertionEnv emptyConfig) = some [] ∧
    buildConfig sampleMethods insertionEnv "tool".toList "1.0.0".toList [] = none ∧
    addDependency sampleMethods insertionEnv emptyConfig "tool".toList "1.0.0".toList [] []
      ["README.md".toList, jsWasmUrl] = none :=
  ⟨insertionEnv_lawful, by decide,
    synthesis_panics_without_groups sampleMethods insertionEnv insertionEnv_lawful emptyConfig
      "tool".toList "1.0.0".toList [] [] ["README.md".toList, jsWasmUrl] (by decide)⟩

/-- C13. Atomicity of `addDependency`: whenever it returns an error (from
the regrouping by archive path, from `AddChecksums` or from `Validate`), the
config of the caller is as it was before the call: its `Systems`,
`Dependencies`, `Templates` and `URLChecksums` are unchanged. -/
theorem addDependency_atomic (M : Methods) (E : Env) (cfg : Config)
    (name version homepage description : Str) (urls : List Str) (cfg' : Config) (err : Str)
    (h : addDependency M E cfg name version homepage description urls = some (cfg', some err)) :
    cfg' = cfg ∧ cfg'.systems = cfg.systems ∧ cfg'.dependencies = cfg.dependencies ∧
    cfg'.templates = cfg.templates ∧ cfg'.urlChecksums = cfg.urlChecksums := by
  have hcfg : cfg' = cfg := by
    unfold addDependency at h
    simp only at h
    repeat' split at h
    all_goals first
      | (simp only [Option.some.injEq, Prod.mk.injEq] at h; exact h.1.symm)
      | simp at h
  subst hcfg
  exact ⟨rfl, rfl, rfl, rfl, rfl⟩

theorem addDependency_atomic_witness :
    addDependency rejectingMethods insertionEnv emptyConfig "t".toList [] [] []
        sharedSurfaceUrls =
      some (emptyConfig, some "generated config is invalid: missing system".toList) ∧
    (emptyConfig = emptyConfig ∧ emptyConfig.systems = emptyConfig.systems ∧
      emptyConfig.dependencies = emptyConfig.dependencies ∧
      emptyConfig.templates = emptyConfig.templates ∧
      emptyConfig.urlChecksums = emptyConfig.urlChecksums) :=
  ⟨by decide,
    addDependency_atomic rejectingMethods insertionEnv emptyConfig "t".toList [] [] []
      sharedSurfaceUrls emptyConfig "generated config is invalid: missing system".toList
      (by decide)⟩

/-! ## Systems of the config -/

/-- A comparator that compares keys of a linear order is a strict weak
order. -/
theorem strictWeak_of_key {α β : Type} [LinearOrder β] (key : α → β) (less : α → α → Bool)
    (h : ∀ a b, less a b = true ↔ key a < key b) : StrictWeak less := by
  have hf : ∀ a b, less a b = false ↔ key b ≤ key a := by
    intro a b
    rw [← not_lt, ← h a b]
    simp
  refine ⟨?_, ?_, ?_⟩
  · intro a
    rw [hf]
  · intro a b c h1 h2
    rw [h] at *
    exact lt_trans h1 h2
  · intro a b c h1 h2
    rw [hf] at *
    exact le_trans h2 h1

theorem systemInfoLess_iff (a b : SystemInfo) :
    systemInfoLess a b = true ↔
      toLex (a.OS, a.Arch) < toLex (b.OS, b.Arch) := by
  rw [Prod.Lex.lt_iff]
  unfold systemInfoLess
  by_cases h : a.OS = b.OS
  · simp [h]
  · simp only [ne_eq, h, not_false_eq_true, ↓reduceIte, decide_eq_true_eq, false_and, or_false]

theorem systemInfoLess_strictWeak : StrictWeak systemInfoLess :=
  strictWeak_of_key (fun a => toLex (a.OS, a.Arch)) systemInfoLess systemInfoLess_iff

theorem systemInfoLe_of_not_less {a b : SystemInfo} (h : systemInfoLess b a = false) :
    systemInfoLe a b := by
  have h' : ¬ toLex (b.OS, b.Arch) < toLex (a.OS, a.Arch) := by
    rw [← systemInfoLess_iff, h]; simp
  rw [Prod.Lex.lt_iff] at h'
  simp only [not_or, not_and, not_lt] at h'
  unfold systemInfoLe
  rcases lt_trichotomy a.OS b.OS with h1 | h1 | h1
  · exact Or.inl h1
  · exact Or.inr ⟨h1, h'.2 h1.symm⟩
  · exact absurd h1 (not_lt.mpr h'.1)

theorem appendSystems_spec : ∀ (systems : List Str) (acc r : Option (List SystemInfo)),
    appendSystems systems acc = some r →
    r.getD [] = acc.getD [] ++
      systems.filterMap (fun s => (parseDist s).map (fun p => (⟨p.1, p.2⟩ : SystemInfo))) := by
  intro systems
  induction systems with
  | nil =>
    intro acc r h
    simp only [appendSystems, Option.some.injEq] at h
    subst h
    simp
  | cons s rest ih =>
    intro acc r h
    simp only [appendSystems] at h
    cases hd : parseDist s with
    | none => simp [hd] at h
    | some p =>
      obtain ⟨o, a⟩ := p
      simp only [hd] at h
      rw [ih _ _ h]
      simp [List.filterMap_cons, hd]

theorem groupsLoop_systems (M : Methods) (groups : List depGroup) :
    ∀ (rest : List depGroup) (i : Nat) (dep : Dependency) (cs : StrMap Str)
      (dep' : Dependency) (cs' : StrMap Str),
      groupsLoop M groups i rest dep cs = some (dep', cs') →
      dep'.systems.getD [] = dep.systems.getD [] ++
        ((if i = 0 then rest.tail else rest).map groupSystemInfos).flatten := by
  intro rest
  induction rest with
  | nil =>
    intro i dep cs dep' cs' h
    simp only [groupsLoop, Option.some.injEq, Prod.mk.injEq] at h
    obtain ⟨rfl, _⟩ := h
    simp
  | cons g rest ih =>
    intro i dep cs dep' cs' h
    simp only [groupsLoop] at h
    by_cases hi : i = 0
    · simp only [hi, ↓reduceIte, List.tail_cons] at h ⊢
      have := ih _ _ _ _ _ h
      simpa using this
    · simp only [hi, ↓reduceIte] at h ⊢
      cases ha : appendSystems g.systems dep.systems with
      | none => simp [ha] at h
      | some systems =>
        simp only [ha] at h
        cases ho : M.overrides g (groups.take i ++ groups.drop (i + 1)) with
        | none => simp [ho] at h
        | some ovs =>
          simp only [ho] at h
          have h1 := ih _ _ _ _ _ h
          have h2 := appendSystems_spec _ _ _ ha
          simp only [Nat.add_one_ne_zero, ↓reduceIte] at h1
          rw [h1, h2, List.map_cons, List.flatten_cons, List.append_assoc]
          rfl

theorem appendSystems_parsed : ∀ (systems : List Str) (acc r : Option (List SystemInfo)),
    appendSystems systems acc = some r → ∀ s ∈ systems, (parseDist s).isSome = true := by
  intro systems
  induction systems with
  | nil => intro _ _ _ s hs; simp at hs
  | cons s rest ih =>
    intro acc r h x hx
    simp only [appendSystems] at h
    cases hd : parseDist s with
    | none => simp [hd] at h
    | some p =>
      obtain ⟨o, a⟩ := p
      simp only [hd] at h
      rcases List.mem_cons.mp hx with h1 | h1
      · rw [h1, hd]; rfl
      · exact ih _ _ h x h1

theorem groupsLoop_parsed (M : Methods) (groups : List depGroup) :
    ∀ (rest : List depGroup) (i : Nat) (dep : Dependency) (cs : StrMap Str)
      (dep' : Dependency) (cs' : StrMap Str),
      groupsLoop M groups i rest dep cs = some (dep', cs') →
      ∀ g ∈ (if i = 0 then rest.tail else rest), ∀ s ∈ g.systems,
        (parseDist s).isSome = true := by
  intro rest
  induction rest with
  | nil =>
    intro i dep cs dep' cs' _ g hg
    split at hg <;> simp at hg
  | cons g0 rest ih =>
    intro i dep cs dep' cs' h g hg
    simp only [groupsLoop] at h
    by_cases hi : i = 0
    · simp only [hi, ↓reduceIte, List.tail_cons] at h hg
      have := ih _ _ _ _ _ h
      simp only [Nat.add_one_ne_zero, ↓reduceIte] at this
      exact this g hg
    · simp only [hi, ↓reduceIte] at h hg
      cases ha : appendSystems g0.systems dep.systems with
      | none => simp [ha] at h
      | some systems =>
        simp only [ha] at h
        cases ho : M.overrides g0 (groups.take i ++ groups.drop (i + 1)) with
        | none => simp [ho] at h
        | some ovs =>
          simp only [ho] at h
          have h1 := ih _ _ _ _ _ h
          simp only [Nat.add_one_ne_zero, ↓reduceIte] at h1
          rcases List.mem_cons.mp hg with h2 | h2
          · rw [h2]; exact appendSystems_parsed _ _ _ ha
          · exact h1 g h2

theorem buildConfig_systems {M : Methods} {E : Env} {name version : Str}
    {groups : List depGroup} {cfg : Config}
    (h : buildConfig M E name version groups = some cfg) :
    ∃ first dep0 dep1 cs1 tmpl,
      groups.head? = some first ∧ M.dependency first = some dep0 ∧
      groupsLoop M groups 0 groups dep0 [] = some (dep1, cs1) ∧
      cfg.systems = dep1.systems.map (E.sortFunc SystemInfo systemInfoLess) ∧
      cfg.templates.lookup name = some tmpl ∧ tmpl.systems = cfg.systems := by
  unfold buildConfig at h
  cases hc : collectGroups M E groups with
  | none => simp [hc] at h
  | some r =>
    obtain ⟨dep, checksums⟩ := r
    simp only [hc, Option.some.injEq] at h
    subst h
    unfold collectGroups at hc
    cases hh : groups.head? with
    | none => simp [hh] at hc
    | some first =>
      simp only [hh] at hc
      cases hd : M.dependency first with
      | none => simp [hd] at hc
      | some dep0 =>
        simp only [hd] at hc
        cases hg : groupsLoop M groups 0 groups dep0 [] with
        | none => simp [hg] at hc
        | some r' =>
          obtain ⟨dep1, cs1⟩ := r'
          simp only [hg, Option.some.injEq, Prod.mk.injEq] at hc
          refine ⟨first, dep0, dep1, cs1, minimized dep, rfl, hd, hg, ?_, ?_, rfl⟩
          · show dep.systems = _
            rw [← hc.1]
          · simp [List.lookup, minimized]

/-- C21. For a non-empty list of groups with well-formed systems,
`buildConfig` returns a config when the methods `dependency` and `overrides`
return. The `Systems` list of the config that `buildConfig` returns (the
list of groups then being non-empty) is also that of the returned template;
for a lawful sort it is sorted ascending by OS and then by arch, and it is a
permutation of the systems of the dependency of the first group followed by
the systems of every other group, each of which `parseDist` splits. -/
theorem systems_sorted_permutation (M : Methods) (E : Env) (hE : E.Lawful)
    (name version : Str) (groups : List depGroup) :
    (groups ≠ [] → (∀ g ∈ groups, (M.dependency g).isSome = true) →
      (∀ g ∈ groups, ∀ others, (M.overrides g others).isSome = true) →
      (∀ g ∈ groups, ∀ s ∈ g.systems, s.count '/' = 1) →
      (buildConfig M E name version groups).isSome = true) ∧
    ∀ cfg, buildConfig M E name version groups = some cfg →
      ∃ first dep0 tmpl, groups.head? = some first ∧ M.dependency first = some dep0 ∧
        cfg.templates.lookup name = some tmpl ∧ tmpl.systems = cfg.systems ∧
        (cfg.systems.getD []).Pairwise systemInfoLe ∧
        (∀ g ∈ groups.tail, ∀ s ∈ g.systems, (parseDist s).isSome = true) ∧
        (cfg.systems.getD []).Perm
          (dep0.systems.getD [] ++ (groups.tail.map groupSystemInfos).flatten) := by
  refine ⟨buildConfig_returns M E name version groups, fun cfg hret => ?_⟩
  obtain ⟨first, dep0, dep1, cs1, tmpl, h1, h2, h3, h4, h5, h6⟩ := buildConfig_systems hret
  have hsys := groupsLoop_systems M groups groups 0 dep0 [] dep1 cs1 h3
  have hpar := groupsLoop_parsed M groups groups 0 dep0 [] dep1 cs1 h3
  simp only [↓reduceIte] at hsys hpar
  refine ⟨first, dep0, tmpl, h1, h2, h5, h6, ?_, hpar, ?_⟩
  · rw [h4]
    cases dep1.systems with
    | none => simp
    | some l =>
      simp only [Option.map_some', Option.getD_some]
      exact (hE.sorted SystemInfo systemInfoLess l systemInfoLess_strictWeak).imp
        (fun h => systemInfoLe_of_not_less h)
  · rw [← hsys, h4]
    cases dep1.systems with
    | none => simp
    | some l =>
      simp only [Option.map_some', Option.getD_some]
      exact hE.perm SystemInfo systemInfoLess l

theorem systems_sorted_permutation_witness :
    insertionEnv.Lawful ∧
    ∃ cfg, buildConfig checksumMethods insertionEnv "t".toList [] sharedSurfaceGroups = some cfg ∧
      (cfg.systems.getD []).map SystemInfo.String =
        ["darwin/amd64".toList, "linux/amd64".toList, "windows/amd64".toList] ∧
      ∃ first dep0 tmpl, sharedSurfaceGroups.head? = some first ∧
        checksumMethods.dependency first = some dep0 ∧
        cfg.templates.lookup "t".toList = some tmpl ∧ tmpl.systems = cfg.systems ∧
        (cfg.systems.getD []).Pairwise systemInfoLe ∧
        (∀ g ∈ sharedSurfaceGroups.tail, ∀ s ∈ g.systems, (parseDist s).isSome = true) ∧
        (cfg.systems.getD []).Perm
          (dep0.systems.getD [] ++ (sharedSurfaceGroups.tail.map groupSystemInfos).flatten) :=
  ⟨insertionEnv_lawful,
    buildConfig checksumMethods insertionEnv "t".toList [] sharedSurfaceGroups |>.getD
      ⟨none, [], [], []⟩,
    by decide, by decide,
    (systems_sorted_permutation checksumMethods insertionEnv insertionEnv_lawful "t".toList []
      sharedSurfaceGroups).2 _ (by decide)⟩

/-! ## Version normalization -/

theorem hasPrefix_v (tag : Str) :
    hasPrefix tag "v".toList = true ↔ tag.head? = some 'v' := by
  have hv : "v".toList = ['v'] := rfl
  rw [hv]
  cases tag with
  | nil => simp [hasPrefix, List.isPrefixOf]
  | cons c cs =>
    simp only [hasPrefix, List.isPrefixOf, Bool.and_true, beq_iff_eq, List.head?_cons,
      Option.some.injEq]
    exact eq_comm

/-- The statements of `QueryGitHubRelease` that set `version` compute the
normalized version of the tag. -/
theorem version_of_tag (parses : Str → Bool) (tag : Str) :
    (if hasPrefix tag "v".toList then (if parses (tag.drop 1) then tag.drop 1 else tag)
      else tag) = normalizedVersion parses tag := by
  unfold normalizedVersion
  rw [List.drop_one]
  by_cases h : tag.head? = some 'v'
  · rw [if_pos ((hasPrefix_v tag).mpr h)]
    by_cases hp : parses tag.tail = true
    · rw [if_pos hp, if_pos ⟨h, hp⟩]
    · rw [if_neg hp, if_neg (fun hc => hp hc.2)]
  · rw [if_neg (fun hc => h ((hasPrefix_v tag).mp hc)), if_neg (fun hc => h hc.1)]

/-- C22. Version normalization in `QueryGitHubRelease`: whenever the query
returns without an error, the returned version is the normalized version of
the release tag (the tag without its leading `v` if it begins with `v` and
the remainder parses as a semantic version, the tag unchanged otherwise);
the release tag is the tag given, or the tag name of the latest release when
no tag is given. -/
theorem version_normalized (G : GitHub) (repo tag : Str) (r : QueryResult)
    (h : QueryGitHubRelease G repo tag = some (r, none)) :
    ∃ orgName repoName rest, splitOn '/' repo = orgName :: repoName :: rest ∧
      (tag ≠ [] → r.version = normalizedVersion G.semverNewVersion tag) ∧
      (tag = [] → ∃ latest, G.getLatestRelease orgName repoName = .ok latest ∧
        r.version = normalizedVersion G.semverNewVersion latest.tagName) := by
  unfold QueryGitHubRelease at h
  split at h
  · rename_i orgName repoName rest hsplit
    refine ⟨orgName, repoName, rest, hsplit, ?_, ?_⟩
    · intro htag
      cases hrepo : G.getRepository orgName repoName with
      | error err => simp [hrepo, queryFailed] at h
      | ok repoResp =>
        simp only [hrepo, htag, ↓reduceIte] at h
        cases hrel : G.getReleaseByTag orgName repoName tag with
        | error err => simp [hrel, queryFailed] at h
        | ok release =>
          simp only [hrel, Option.some.injEq, Prod.mk.injEq, and_true] at h
          rw [← h]
          exact version_of_tag G.semverNewVersion tag
    · intro htag
      cases hrepo : G.getRepository orgName repoName with
      | error err => simp [hrepo, queryFailed] at h
      | ok repoResp =>
        simp only [hrepo, htag, ↓reduceIte] at h
        cases hrel : G.getLatestRelease orgName repoName with
        | error err => simp [hrel, queryFailed] at h
        | ok release =>
          simp only [hrel, Option.some.injEq, Prod.mk.injEq, and_true] at h
          refine ⟨release, rfl, ?_⟩
          rw [← h]
          exact version_of_tag G.semverNewVersion release.tagName
  · simp at h

theorem version_normalized_witness :
    QueryGitHubRelease sampleGitHub "willabides/bindown".toList "v3.16.1".toList =
      some (⟨["a_linux_amd64".toList], "3.16.1".toList, "https://x/bindown".toList,
        "a tool".toList⟩, none) ∧
    normalizedVersion threeNumbers "v3.16.1".toList = "3.16.1".toList ∧
    ∃ orgName repoName rest,
      splitOn '/' "willabides/bindown".toList = orgName :: repoName :: rest ∧
      ("v3.16.1".toList ≠ [] →
        "3.16.1".toList = normalizedVersion sampleGitHub.semverNewVersion "v3.16.1".toList) ∧
      ("v3.16.1".toList = [] → ∃ latest,
        sampleGitHub.getLatestRelease orgName repoName = .ok latest ∧
        "3.16.1".toList = normalizedVersion sampleGitHub.semverNewVersion latest.tagName) :=
  ⟨by decide, by decide,
    version_normalized sampleGitHub "willabides/bindown".toList "v3.16.1".toList
      ⟨["a_linux_amd64".toList], "3.16.1".toList, "https://x/bindown".toList, "a tool".toList⟩
      (by decide)⟩

/-! ## Holes and the version -/

theorem prefix_before_char {old X B : Str} {c : Char} (hc : c ∉ old) :
    old <+: X ++ c :: B ↔ old <+: X := by
  constructor
  · intro h
    by_cases hl : old.length ≤ X.length
    · exact List.prefix_of_prefix_length_le h (List.prefix_append _ _) hl
    · exfalso
      have h2 : X ++ [c] <+: old :=
        List.prefix_of_prefix_length_le (show X ++ [c] <+: X ++ c :: B from ⟨B, by simp⟩) h
          (by simp; omega)
      obtain ⟨r, hr⟩ := h2
      apply hc
      rw [← hr]
      simp
  · intro h
    exact h.trans (List.prefix_append _ _)

theorem replaceAllAux_split {old : Str} (new : Str) {c : Char} (hne : old ≠ [])
    (hc : c ∉ old) (B : Str) : ∀ (A : Str) (k : Nat), k ≤ A.length →
      replaceAllAux old new k (A ++ c :: B) =
        replaceAllAux old new k A ++ c :: replaceAllAux old new 0 B := by
  intro A
  induction A with
  | nil =>
    intro k hk
    have hk0 : k = 0 := by simpa using hk
    subst hk0
    have hmiss : ¬ old.isPrefixOf (c :: B) = true := by
      intro hp
      have := (prefix_before_char (X := []) (B := B) hc).mp (List.isPrefixOf_iff_prefix.mp hp)
      exact hne (List.prefix_nil.mp this)
    simp only [List.nil_append, replaceAllAux]
    rw [if_neg hmiss]
  | cons a A ih =>
    intro k hk
    cases k with
    | succ k =>
      simp only [List.cons_append, replaceAllAux]
      exact ih k (by simpa using hk)
    | zero =>
      rw [List.cons_append]
      simp only [replaceAllAux]
      by_cases hp : old <+: a :: A
      · have hp' : old <+: a :: (A ++ c :: B) := by
          rw [← List.cons_append]
          exact (prefix_before_char hc).mpr hp
        rw [if_pos (List.isPrefixOf_iff_prefix.mpr hp'), if_pos (List.isPrefixOf_iff_prefix.mpr hp),
          ih (old.length - 1) (by have := hp.length_le; simp at this; omega), List.append_assoc]
      · have hp' : ¬ old <+: a :: (A ++ c :: B) := by
          rw [← List.cons_append]
          exact fun h => hp ((prefix_before_char hc).mp h)
        rw [if_neg (fun h => hp' (List.isPrefixOf_iff_prefix.mp h)),
          if_neg (fun h => hp (List.isPrefixOf_iff_prefix.mp h)), ih 0 (Nat.zero_le _)]
        rfl

/-- A character that is not in `old` is a border for `ReplaceAll`: the text
before it and the text after it are replaced on their own. -/
theorem replaceAll_split_char {old : Str} (new : Str) {c : Char} (hne : old ≠ [])
    (hc : c ∉ old) (A B : Str) :
    replaceAll (A ++ c :: B) old new = replaceAll A old new ++ c :: replaceAll B old new :=
  replaceAllAux_split new hne hc B A 0 (Nat.zero_le _)

theorem noOcc_of_not_occurs {H t : Str} (h : ¬ occurs H t) : NoOcc H t := by
  intro u hu hp
  obtain ⟨p, hp'⟩ := hu
  obtain ⟨q, hq⟩ := hp
  exact h ⟨p, q, by rw [← hp', ← hq, List.append_assoc]⟩

/-- A hole `{{inner}}` is kept by `ReplaceAll` when `old` has no brace and
does not occur in `inner`. -/
theorem replaceAll_keeps_hole {old : Str} (new : Str) (hne : old ≠ []) (hl : '{' ∉ old)
    (hr : '}' ∉ old) (inner : Str) (hin : ¬ occurs old inner) (A B : Str) :
    replaceAll (A ++ '{' :: '{' :: (inner ++ '}' :: '}' :: B)) old new =
      replaceAll A old new ++ '{' :: '{' :: (inner ++ '}' :: '}' :: replaceAll B old new) := by
  have e1 := replaceAll_split_char new hne hl A ([] ++ '{' :: (inner ++ '}' :: ([] ++ '}' :: B)))
  have e2 := replaceAll_split_char new hne hl [] (inner ++ '}' :: ([] ++ '}' :: B))
  have e3 := replaceAll_split_char new hne hr inner ([] ++ '}' :: B)
  have e4 := replaceAll_split_char new hne hr [] B
  have e5 := replaceAll_noOcc new inner (noOcc_of_not_occurs hin)
  rw [e2, e3, e4, e5, replaceAll_nil] at e1
  simpa using e1

theorem withVersion_keeps_hole {version : Str} (inner : Str)
    (hv : version = [] ∨ ('{' ∉ version ∧ '}' ∉ version ∧ ¬ occurs version inner)) {s : Str}
    (h : occurs ('{' :: '{' :: (inner ++ ['}', '}'])) s) :
    occurs ('{' :: '{' :: (inner ++ ['}', '}'])) (withVersion s version) := by
  unfold withVersion
  by_cases hne : version = []
  · rw [if_neg (fun hc => hc hne)]
    exact h
  · rcases hv with hv | ⟨hl, hr, hin⟩
    · exact absurd hv hne
    · rw [if_pos hne]
      obtain ⟨p, q, hs⟩ := h
      refine ⟨replaceAll p version "{{.version}}".toList,
        replaceAll q version "{{.version}}".toList, ?_⟩
      have := replaceAll_keeps_hole "{{.version}}".toList hne hl hr inner hin p q
      rw [hs]
      simp only [List.append_assoc, List.cons_append, List.nil_append] at this ⊢
      exact this

theorem withVersion_suffix {version : Str} (inner : Str)
    (hv : version = [] ∨ ('{' ∉ version ∧ '}' ∉ version ∧ ¬ occurs version inner)) (body : Str) :
    hasSuffix (withVersion (body ++ '{' :: '{' :: (inner ++ ['}', '}'])) version)
      ('{' :: '{' :: (inner ++ ['}', '}'])) = true := by
  unfold withVersion hasSuffix
  apply List.isSuffixOf_iff_suffix.mpr
  by_cases hne : version = []
  · rw [if_neg (fun hc => hc hne)]
    exact List.suffix_append _ _
  · rcases hv with hv | ⟨hl, hr, hin⟩
    · exact absurd hv hne
    · rw [if_pos hne]
      have := replaceAll_keeps_hole "{{.version}}".toList hne hl hr inner hin body []
      rw [replaceAll_nil] at this
      rw [this]
      exact List.suffix_append _ _

theorem harmless_of_check {version : Str} (h : harmlessCheck version = true) :
    harmlessVersion version := by
  unfold harmlessCheck at h
  simp only [Bool.or_eq_true, Bool.and_eq_true, Bool.not_eq_true', List.isEmpty_iff,
    Option.isNone_iff_eq_none] at h
  rcases h with h | ⟨⟨⟨⟨h1, h2⟩, h3⟩, h4⟩, h5⟩
  · exact Or.inl h
  · refine Or.inr ⟨?_, ?_, strIndex_none h3, strIndex_none h4, strIndex_none h5⟩
    · intro hc
      have := List.elem_eq_true_of_mem hc
      simp only [List.contains] at h1
      rw [this] at h1
      exact Bool.noConfusion h1
    · intro hc
      have := List.elem_eq_true_of_mem hc
      simp only [List.contains] at h2
      rw [this] at h2
      exact Bool.noConfusion h2

/-- One step of templating with a match: the match is a clean piece of the
text and the hole replaces exactly that piece. -/
theorem hole_step_match {filename hole tmpl : Str} {subs : List systemSub} {m : systemSub}
    (hl : LongestMatch filename subs m) (hclean : ∀ sub ∈ subs, cleanName sub.val)
    (hfill : fillHole filename m hole = some tmpl) :
    cleanName m.val ∧ ∃ X Y, filename = X ++ m.val ++ Y ∧ tmpl = X ++ hole ++ Y := by
  rcases hole_step (Or.inr hl) hclean hfill with ⟨hv, _⟩ | h
  · obtain ⟨sub, hsub, _, _, _, _, _, hlow, _, _⟩ := hl
    have hc : cleanName m.val := cleanName_of_lower (by rw [hlow]; exact hclean sub hsub)
    exact absurd hv hc.1
  · exact h

/-- The cut of the suffix takes the end of the last text of the template. -/
theorem body_cut {tmpl2 body t2 sfx : Str} (P : Str) (hT : tmpl2 = P ++ t2)
    (hsfx : sfx <:+ t2)
    (hbody : substr tmpl2 0 ((tmpl2.length : Int) - (sfx.length : Int)) = some body) :
    ∃ L, body = P ++ L := by
  obtain ⟨L, hL⟩ := hsfx
  refine ⟨L, ?_⟩
  unfold substr at hbody
  split at hbody
  · simp only [Option.some.injEq] at hbody
    rw [← hbody, hT, ← hL]
    simp only [Int.toNat_zero, List.drop_zero, Nat.sub_zero]
    rw [← List.append_assoc]
    apply List.take_left'
    simp only [List.length_append]
    omega
  · exact Option.noConfusion hbody

theorem occurs_mid (h X Y : Str) : occurs h (X ++ h ++ Y) := ⟨X, Y, rfl⟩

theorem occurs_append {h s : Str} (t : Str) (ho : occurs h s) : occurs h (s ++ t) := by
  obtain ⟨p, q, hs⟩ := ho
  exact ⟨p, q ++ t, by rw [hs]; simp⟩

theorem occurs_prepend {h s : Str} (t : Str) (ho : occurs h s) : occurs h (t ++ s) := by
  obtain ⟨p, q, hs⟩ := ho
  exact ⟨t ++ p, q, by rw [hs]; simp⟩

/-- The template before the version is replaced: a text `P` that holds the
hole of each dimension matched positionally, a rest `L` of the URL, and the
hole of the suffix. -/
theorem template_shape {E : Env} (hE : E.Lawful) {url version : Str}
    {systems : Option (List Str)} (hw : wellFormed systems) (hclean : cleanAllowList systems)
    {f : dlFile} (hf : parseDownload E url version systems = some (some f)) :
    ∃ P L, f.url = withVersion (P ++ L ++ "{{.urlSuffix}}".toList) version ∧
      (0 ≤ f.osSub.idx → occurs "{{.os}}".toList P) ∧
      (0 ≤ f.archSub.idx → occurs "{{.arch}}".toList P) := by
  obtain ⟨osSub, tmpl1, archSub, tmpl2, body, hpo, h1, hpa, h2, _, _, hcd, hsub, hfeq⟩ :=
    parseDownload_inv hf
  subst hfeq
  suffices key : ∃ P L, body = P ++ L ∧ (0 ≤ osSub.idx → occurs "{{.os}}".toList P) ∧
      (0 ≤ archSub.idx → occurs "{{.arch}}".toList P) by
    obtain ⟨P, L, hb, ho, ha⟩ := key
    exact ⟨P, L, by rw [← hb]; rfl, ho, ha⟩
  cases systems with
  | none => simp [containsDist] at hcd
  | some l =>
    obtain ⟨osl, hosl, _, hosrc, _⟩ := osSubs_spec hE hw
    obtain ⟨arl, harl, _, harsrc, _⟩ := archSubs_spec hE hw
    have hoc := vocab_clean hclean systemOs osPreamble preamble_clean.1 systemOs_part hosrc
    have hac := vocab_clean hclean systemArch archPreamble preamble_clean.2 systemArch_part harsrc
    have hocase : osSub.idx = -1 ∨ LongestMatch url osl osSub := by
      obtain ⟨osl', hosl', hos⟩ := parseOs_spec hE hw url
      rw [hosl] at hosl'
      simp only [Option.some.injEq] at hosl'
      subst hosl'
      rcases hos with ⟨h, _⟩ | ⟨h, _⟩ | ⟨m, h, hl⟩
      · rw [h] at hpo; simp at hpo
      · rw [h] at hpo
        simp only [Option.some.injEq] at hpo
        subst hpo
        exact Or.inl rfl
      · rw [h] at hpo
        simp only [Option.some.injEq] at hpo
        subst hpo
        exact Or.inr hl
    have hacase : archSub.idx = -1 ∨ LongestMatch tmpl1 arl archSub := by
      obtain ⟨arl', harl', har⟩ := parseArch_spec hE hw tmpl1
      rw [harl] at harl'
      simp only [Option.some.injEq] at harl'
      subst harl'
      rcases har with ⟨h, _⟩ | ⟨m, h, hl⟩
      · rw [h] at hpa
        simp only [Option.some.injEq] at hpa
        subst hpa
        exact Or.inl rfl
      · rw [h] at hpa
        simp only [Option.some.injEq] at hpa
        subst hpa
        exact Or.inr hl
    rcases hocase with hoidx | hlo
    · -- no OS hole
      rw [fillHole_fallback hoidx] at h1
      have ht1 : tmpl1 = url := (Option.some.inj h1).symm
      rw [ht1] at hacase h2
      rcases hacase with haidx | hla
      · -- no arch hole
        rw [fillHole_fallback haidx] at h2
        have ht2 : tmpl2 = url := (Option.some.inj h2).symm
        obtain ⟨L, hL⟩ := body_cut [] (by rw [ht2]; rfl) (urlSuffix_cases url).1 hsub
        exact ⟨[], L, hL, fun h => by omega, fun h => by omega⟩
      · obtain ⟨haclean, C, D, hurl2, ht2⟩ := hole_step_match hla hac h2
        obtain ⟨L, hL⟩ := body_cut (C ++ "{{.arch}}".toList) ht2
          (urlSuffix_in_text haclean hurl2) hsub
        exact ⟨_, L, hL, fun h => by omega, fun _ => occurs_prepend C ⟨[], [], by simp⟩⟩
    · obtain ⟨hoclean, X, Y, hurl, ht1⟩ := hole_step_match hlo hoc h1
      rcases hacase with haidx | hla
      · -- an OS hole, no arch hole
        rw [fillHole_fallback haidx] at h2
        have ht2 : tmpl2 = X ++ "{{.os}}".toList ++ Y := by
          rw [← ht1]; exact (Option.some.inj h2).symm
        obtain ⟨L, hL⟩ := body_cut (X ++ "{{.os}}".toList) ht2
          (urlSuffix_in_text hoclean hurl) hsub
        exact ⟨_, L, hL, fun _ => occurs_prepend X ⟨[], [], by simp⟩, fun h => by omega⟩
      · -- both holes
        obtain ⟨haclean, C, D, htm1, ht2⟩ := hole_step_match hla hac h2
        rw [ht1] at htm1
        rcases occ_around_hole haclean htm1 with ⟨X2, hX, hD⟩ | ⟨Y1, hC, hY⟩
        · -- the arch lies before the OS
          have hurl' : url = (C ++ archSub.val ++ X2) ++ osSub.val ++ Y := by rw [hurl, hX]
          have ht2' : tmpl2 = (C ++ "{{.arch}}".toList ++ X2 ++ "{{.os}}".toList) ++ Y := by
            rw [ht2, hD]; simp
          obtain ⟨L, hL⟩ := body_cut _ ht2' (urlSuffix_in_text hoclean hurl') hsub
          exact ⟨_, L, hL, fun _ => ⟨C ++ "{{.arch}}".toList ++ X2, [], by simp⟩,
            fun _ => ⟨C, X2 ++ "{{.os}}".toList, by simp⟩⟩
        · -- the arch lies after the OS
          have hurl' : url = (X ++ osSub.val ++ Y1) ++ archSub.val ++ D := by
            rw [hurl, hY]; simp
          have ht2' : tmpl2 = (X ++ "{{.os}}".toList ++ Y1 ++ "{{.arch}}".toList) ++ D := by
            rw [ht2, hC]
          obtain ⟨L, hL⟩ := body_cut _ ht2' (urlSuffix_in_text haclean hurl') hsub
          exact ⟨_, L, hL, fun _ => ⟨X, Y1 ++ "{{.arch}}".toList, by simp⟩,
            fun _ => ⟨X ++ "{{.os}}".toList ++ Y1, [], by simp⟩⟩

/-- C23 (amended). Holes survive templating: for a lawful environment, an
ASCII URL without `{`, a well-formed allow-list whose OS and arch names are
clean, and a version that is empty or has no brace and does not occur in
`.os`, `.arch` or `.urlSuffix` (it may share characters with them): if
`parseDownload` accepts the URL, the returned templated url contains
`{{.os}}` when the OS was matched positionally, contains `{{.arch}}` when
the arch was matched positionally, and ends with `{{.urlSuffix}}`. The URL
is ASCII because the offsets of a match are taken in the lower-cased URL,
which for other URLs need not have the length of the URL. -/
theorem holes_survive (E : Env) (hE : E.Lawful) (url version : Str)
    (systems : Option (List Str)) (hw : wellFormed systems) (_hascii : isASCII url)
    (_hbrace : '{' ∉ url) (hclean : cleanAllowList systems) (hv : harmlessVersion version)
    (f : dlFile)
    (hf : parseDownload E url version systems = some (some f)) :
    (0 ≤ f.osSub.idx → occurs "{{.os}}".toList f.url) ∧
    (0 ≤ f.archSub.idx → occurs "{{.arch}}".toList f.url) ∧
    hasSuffix f.url "{{.urlSuffix}}".toList = true := by
  obtain ⟨P, L, hurl, ho, ha⟩ := template_shape hE hw hclean hf
  rw [hurl]
  have hvo : version = [] ∨ ('{' ∉ version ∧ '}' ∉ version ∧ ¬ occurs version ".os".toList) :=
    hv.imp id (fun h => ⟨h.1, h.2.1, h.2.2.1⟩)
  have hva : version = [] ∨
      ('{' ∉ version ∧ '}' ∉ version ∧ ¬ occurs version ".arch".toList) :=
    hv.imp id (fun h => ⟨h.1, h.2.1, h.2.2.2.1⟩)
  have hvs : version = [] ∨
      ('{' ∉ version ∧ '}' ∉ version ∧ ¬ occurs version ".urlSuffix".toList) :=
    hv.imp id (fun h => ⟨h.1, h.2.1, h.2.2.2.2⟩)
  refine ⟨fun h => ?_, fun h => ?_, ?_⟩
  · have := occurs_append "{{.urlSuffix}}".toList (occurs_append L (ho h))
    exact withVersion_keeps_hole ".os".toList hvo this
  · have := occurs_append "{{.urlSuffix}}".toList (occurs_append L (ha h))
    exact withVersion_keeps_hole ".arch".toList hva this
  · exact withVersion_suffix ".urlSuffix".toList hvs (P ++ L)

theorem holes_survive_witness :
    insertionEnv.Lawful ∧ wellFormed sampleSystems ∧ isASCII sampleUrl ∧ '{' ∉ sampleUrl ∧
    cleanAllowList sampleSystems ∧ harmlessVersion sampleVersion ∧
    parseDownload insertionEnv sampleUrl sampleVersion sampleSystems = some (some sampleFile) ∧
    sampleFile.url = "tool_{{.version}}_{{.os}}_{{.arch}}{{.urlSuffix}}".toList ∧
    ((0 ≤ sampleFile.osSub.idx → occurs "{{.os}}".toList sampleFile.url) ∧
      (0 ≤ sampleFile.archSub.idx → occurs "{{.arch}}".toList sampleFile.url) ∧
      hasSuffix sampleFile.url "{{.urlSuffix}}".toList = true) :=
  ⟨insertionEnv_lawful, by decide, by decide, by decide, cleanAllowList_of_check (by decide),
    harmless_of_check (by decide), sampleFile_parsed, by decide,
    holes_survive insertionEnv insertionEnv_lawful sampleUrl sampleVersion sampleSystems
      (by decide) (by decide) (by decide) (cleanAllowList_of_check (by decide))
      (harmless_of_check (by decide)) sampleFile sampleFile_parsed⟩

/-- C23, as stated, fails. With the version `os`, the sample URL is accepted
with the OS matched at offset 11, and replacing the version rewrites the
inside of the hole: the templated url does not contain `{{.os}}`. With the
version `_{` the holes of the OS and of the arch lose their first brace. With
the allow-list `zip/amd64` and no version, the OS of `a.zip` is matched at
offset 2 and the cut of the suffix `.zip` takes the end of the hole. -/
theorem holes_rewritten :
    isASCII sampleUrl ∧ isASCII "a.zip".toList ∧ '{' ∉ sampleUrl ∧ '{' ∉ "a.zip".toList ∧
    holeReport (parseDownload insertionEnv sampleUrl "os".toList sampleSystems) =
      some (some ⟨true, true, none, some 29, true,
        "tool_1.0.0_{{.{{.version}}}}_{{.arch}}{{.urlSuffix}}".toList⟩) ∧
    holeReport (parseDownload insertionEnv sampleUrl "_\x7b".toList sampleSystems) =
      some (some ⟨true, true, none, none, true,
        "tool_1.0.0{{.version}}\x7b.os\x7d\x7d{{.version}}\x7b.arch\x7d\x7d{{.urlSuffix}}".toList⟩) ∧
    holeReport (parseDownload insertionEnv "a.zip".toList [] (some ["zip/amd64".toList])) =
      some (some ⟨true, false, none, none, true, "a.\x7b\x7b.{{.urlSuffix}}".toList⟩) :=
  ⟨by decide, by decide, by decide, by decide, by decide, by decide, by decide⟩

/-! ## Visiting order -/

theorem forEachBucket_keys (body : Slice dlFile → Option (Slice dlFile)) :
    ∀ (m m' : FileMap), forEachBucket body m = some m' → mapKeys m' = mapKeys m := by
  intro m
  induction m with
  | nil =>
    intro m' h
    simp only [forEachBucket, Option.some.injEq] at h
    rw [← h]
  | cons e rest ih =>
    intro m' h
    obtain ⟨k, s⟩ := e
    simp only [forEachBucket] at h
    cases hb : body s with
    | none => simp [hb] at h
    | some s' =>
      cases hr : forEachBucket body rest with
      | none => simp [hb, hr] at h
      | some rest' =>
        simp only [hb, hr, Option.some.injEq] at h
        rw [← h]
        simp only [mapKeys, List.map_cons]
        have := ih rest' hr
        simp only [mapKeys] at this
        rw [this]

theorem visitKey_empty {m : FileMap} {k : Str} (h : (getFiles m k).len = 0) :
    visitKey m k = toLex (1, toLex (0, [])) := by
  unfold visitKey
  cases chosenFile m k with
  | none => rfl
  | some f => simp only [h, ↓reduceIte]

theorem visitKey_file {m : FileMap} {k : Str} {f : dlFile} (h : ¬ (getFiles m k).len = 0)
    (hf : chosenFile m k = some f) : visitKey m k = toLex (0, toLex (-f.priority, k)) := by
  unfold visitKey
  simp only [hf, h, ↓reduceIte]

theorem systemLess_iff {m : FileMap}
    (hvalid : ∀ k, (getFiles m k).len = 0 ∨ ∃ f, chosenFile m k = some f) (a b : Str) :
    systemLess m a b = true ↔ visitKey m a < visitKey m b := by
  by_cases ha : (getFiles m a).len = 0
  · have hl : systemLess m a b = false := by simp [systemLess, ha]
    rw [hl, visitKey_empty ha]
    by_cases hb : (getFiles m b).len = 0
    · rw [visitKey_empty hb]; simp
    · obtain ⟨fb, hfb⟩ := (hvalid b).resolve_left hb
      rw [visitKey_file hb hfb, Prod.Lex.lt_iff]
      simp
  · obtain ⟨fa, hfa⟩ := (hvalid a).resolve_left ha
    rw [visitKey_file ha hfa]
    by_cases hb : (getFiles m b).len = 0
    · have hl : systemLess m a b = true := by
        simp [systemLess, ha, hb, Nat.pos_of_ne_zero ha]
      rw [hl, visitKey_empty hb, Prod.Lex.lt_iff]
      simp
    · obtain ⟨fb, hfb⟩ := (hvalid b).resolve_left hb
      rw [visitKey_file hb hfb, Prod.Lex.lt_iff]
      simp only [lt_self_iff_false, true_and, false_or, Prod.Lex.lt_iff, neg_lt_neg_iff,
        neg_inj]
      unfold systemLess
      simp only [ha, hb, or_self, ↓reduceIte, hfa, hfb]
      by_cases hp : fa.priority = fb.priority
      · simp [hp]
      · simp only [ne_eq, hp, not_false_eq_true, ↓reduceIte, gt_iff_lt, decide_eq_true_eq,
          false_and, or_false]

theorem systemLess_strictWeak {m : FileMap}
    (hvalid : ∀ k, (getFiles m k).len = 0 ∨ ∃ f, chosenFile m k = some f) :
    StrictWeak (systemLess m) :=
  strictWeak_of_key (visitKey m) (systemLess m) (systemLess_iff hvalid)

theorem visitsBefore_asymm (m : FileMap) (a b : Str) (h : visitsBefore m a b) :
    ¬ visitsBefore m b a := by
  unfold visitsBefore at *
  cases hfa : chosenFile m a with
  | none => simp [hfa] at h
  | some fa =>
    cases hfb : chosenFile m b with
    | none => simp [hfa, hfb] at h
    | some fb =>
      simp only [hfa, hfb] at h ⊢
      rintro (h2 | ⟨h2, h3⟩)
      · rcases h with h | ⟨h, _⟩ <;> omega
      · rcases h with h | ⟨_, h⟩
        · omega
        · exact lt_asymm h h3

/-- Between two distinct systems that have a file, the one that the
comparator does not put first is visited later. -/
theorem visitsBefore_of_not_less {m : FileMap} {a b : Str} {fa fb : dlFile}
    (hfa : chosenFile m a = some fa) (hfb : chosenFile m b = some fb)
    (hla : ¬ (getFiles m a).len = 0) (hlb : ¬ (getFiles m b).len = 0)
    (hne : a ≠ b) (h : systemLess m b a = false) : visitsBefore m a b := by
  unfold systemLess at h
  simp only [hla, hlb, or_self, ↓reduceIte, hfa, hfb] at h
  unfold visitsBefore
  simp only [hfa, hfb]
  by_cases hp : fb.priority = fa.priority
  · simp only [hp, ne_eq, not_true_eq_false, ↓reduceIte, decide_eq_false_iff_not, not_lt] at h
    exact Or.inr ⟨hp.symm, lt_of_le_of_ne h hne⟩
  · simp only [ne_eq, hp, not_false_eq_true, ↓reduceIte, gt_iff_lt, decide_eq_false_iff_not,
      not_lt] at h
    left
    omega

theorem append_first {α : Type} (s : Slice α) (x : α) (h : s.len = 0) :
    (s.append x).len = 1 ∧ (s.append x).elems.head? = some x := by
  unfold Slice.append Slice.elems
  simp [h]

/-- The buckets that `parseDownloads` sorts: the keys are distinct, the
bucket of a key is not empty, and a bucket that is not empty has a first
file. -/
theorem systemFiles_buckets {E : Env} (hE : E.Lawful) {dlUrls : List Str} {version : Str}
    {allowedSystems : Option (List Str)}
    (hc : (classify E version allowedSystems [] dlUrls).isSome) :
    ∃ m, systemFiles E dlUrls version allowedSystems = some m ∧ (mapKeys m).Nodup ∧
      (∀ k ∈ mapKeys m, ¬ (getFiles m k).len = 0) ∧
      (∀ k, (getFiles m k).len = 0 ∨ ∃ f, chosenFile m k = some f) := by
  obtain ⟨m0, hm0⟩ := Option.isSome_iff_exists.mp hc
  obtain ⟨hnd0, hkeys0, _⟩ := classify_buckets hm0
  obtain ⟨m1, hm1, hk1, _, _⟩ := priorityFiles_spec hE hm0
  obtain ⟨m2, hm2, hnil, hone⟩ := reducedFiles_spec hE hm0
  have hk2 : mapKeys m2 = mapKeys m0 := by
    unfold reducedFiles at hm2
    simp only [hm1] at hm2
    rw [forEachBucket_keys _ _ _ hm2, hk1]
  have hval2 : ∀ k, (getFiles m2 k).len = 0 ∨ ∃ f, chosenFile m2 k = some f := by
    intro k
    by_cases hk : classifiedTo E dlUrls version allowedSystems k = []
    · left; rw [hnil k hk]
    · right
      obtain ⟨f, hf, _⟩ := hone k hk
      exact ⟨f, by simp [chosenFile, hf]⟩
  have hlen2 : ∀ k ∈ mapKeys m2, ¬ (getFiles m2 k).len = 0 := by
    intro k hk
    rw [hk2] at hk
    obtain ⟨f, _, hl, _⟩ := hone k ((hkeys0 k).mp hk)
    rw [hl]; simp
  have hnd2 : (mapKeys m2).Nodup := by rw [hk2]; exact hnd0
  simp only [systemFiles, hm2]
  unfold remapDarwinArm64
  split
  · rename_i hcond
    obtain ⟨hamd, harm, _⟩ := hcond
    obtain ⟨first, hfirst⟩ := (hval2 "darwin/amd64".toList).resolve_left (by omega)
    unfold chosenFile at hfirst
    simp only [hfirst]
    refine ⟨_, rfl, ?_, ?_, ?_⟩
    · rw [mapKeys_setFiles]
      split
      · exact hnd2
      · rename_i hnot
        rw [List.nodup_append]
        refine ⟨hnd2, List.nodup_singleton _, ?_⟩
        intro x hx hx'
        rw [List.mem_singleton] at hx'
        rw [hx'] at hx
        exact hnot hx
    · intro k hk
      rw [getFiles_setFiles]
      split
      · rw [(append_first _ _ harm).1]; simp
      · rename_i hne
        rw [mapKeys_setFiles] at hk
        split at hk
        · exact hlen2 k hk
        · rcases List.mem_append.mp hk with h | h
          · exact hlen2 k h
          · rw [List.mem_singleton] at h
            exact absurd h hne
    · intro k
      unfold chosenFile
      rw [getFiles_setFiles]
      split
      · right
        exact ⟨_, (append_first _ _ harm).2⟩
      · exact hval2 k
  · exact ⟨m2, rfl, hnd2, hlen2, hval2⟩

theorem sortFunc_mem {E : Env} (hE : E.Lawful) {α : Type} (less : α → α → Bool) (l : List α)
    (x : α) : x ∈ E.sortFunc α less l ↔ x ∈ l :=
  (hE.perm α less l).mem_iff

/-- A lawful sort of distinct keys of the buckets puts them in the visiting
order. -/
theorem sorted_visiting {E : Env} (hE : E.Lawful) {m : FileMap} {keys : List Str}
    (hvalid : ∀ k, (getFiles m k).len = 0 ∨ ∃ f, chosenFile m k = some f)
    (hlen : ∀ k ∈ keys, ¬ (getFiles m k).len = 0) (hnd : keys.Nodup) :
    (E.sortFunc Str (systemLess m) keys).Pairwise (visitsBefore m) := by
  have hs := hE.sorted Str (systemLess m) keys (systemLess_strictWeak hvalid)
  have hn : (E.sortFunc Str (systemLess m) keys).Nodup :=
    (hE.perm Str (systemLess m) keys).nodup_iff.mpr hnd
  have hboth := hs.and hn
  refine hboth.imp_of_mem ?_
  intro a b ha hb hab
  obtain ⟨h1, h2⟩ := hab
  have hka := hlen a ((sortFunc_mem hE _ _ a).mp ha)
  have hkb := hlen b ((sortFunc_mem hE _ _ b).mp hb)
  obtain ⟨fa, hfa⟩ := (hvalid a).resolve_left hka
  obtain ⟨fb, hfb⟩ := (hvalid b).resolve_left hkb
  exact visitsBefore_of_not_less hfa hfb hka hkb h2 h1

/-- C24. Deterministic visiting order: when the classification loop has not
panicked, `parseDownloads` offers the systems to the group builder in the
order that a lawful sort gives the keys of the buckets; that sequence is
sorted by the priority of the chosen file, descending, and for equal
priority by the system string, ascending; this order is strict and, the keys
being distinct, total on the keys; so the sequence is the same for every
enumeration order of the keys of the map and every lawful sort. -/
theorem visiting_order_deterministic (M : Methods) (E : Env) (hE : E.Lawful)
    (dlUrls : List Str) (binName version : Str) (allowedSystems : Option (List Str))
    (hc : (classify E version allowedSystems [] dlUrls).isSome) :
    ∃ m, systemFiles E dlUrls version allowedSystems = some m ∧
      parseDownloads M E dlUrls binName version allowedSystems =
        (placeSystems M m binName (E.sortFunc Str (systemLess m) (mapKeys m)) []).map
          (E.sortFunc depGroup moreFiles) ∧
      (E.sortFunc Str (systemLess m) (mapKeys m)).Pairwise (visitsBefore m) ∧
      (∀ a b, visitsBefore m a b → ¬ visitsBefore m b a) ∧
      (∀ a ∈ mapKeys m, ∀ b ∈ mapKeys m, a ≠ b → visitsBefore m a b ∨ visitsBefore m b a) ∧
      ∀ (E' : Env), E'.Lawful → ∀ keys : List Str, keys.Perm (mapKeys m) →
        E'.sortFunc Str (systemLess m) keys = E.sortFunc Str (systemLess m) (mapKeys m) := by
  obtain ⟨m, hm, hnd, hlen, hvalid⟩ := systemFiles_buckets hE hc
  refine ⟨m, hm, ?_, sorted_visiting hE hvalid hlen hnd, visitsBefore_asymm m, ?_, ?_⟩
  · simp only [parseDownloads, hm]
    cases placeSystems M m binName (E.sortFunc Str (systemLess m) (mapKeys m)) [] <;> rfl
  · intro a ha b hb hne
    obtain ⟨fa, hfa⟩ := (hvalid a).resolve_left (hlen a ha)
    obtain ⟨fb, hfb⟩ := (hvalid b).resolve_left (hlen b hb)
    cases hl : systemLess m b a with
    | false => exact Or.inl (visitsBefore_of_not_less hfa hfb (hlen a ha) (hlen b hb) hne hl)
    | true =>
      right
      have hl' : systemLess m a b = false := by
        cases h : systemLess m a b with
        | false => rfl
        | true => exact absurd h (by
            rw [(systemLess_strictWeak hvalid).asymm hl]; simp)
      exact visitsBefore_of_not_less hfb hfa (hlen b hb) (hlen a ha) (fun h => hne h.symm) hl'
  · intro E' hE' keys hperm
    haveI : IsAntisymm Str (visitsBefore m) :=
      ⟨fun a b h1 h2 => absurd h2 (visitsBefore_asymm m a b h1)⟩
    have h1 : (E'.sortFunc Str (systemLess m) keys).Pairwise (visitsBefore m) :=
      sorted_visiting hE' hvalid (fun k hk => hlen k (hperm.mem_iff.mp hk))
        (hperm.nodup_iff.mpr hnd)
    have h2 := sorted_visiting hE hvalid hlen hnd
    exact List.eq_of_perm_of_sorted
      (((hE'.perm Str (systemLess m) keys).trans hperm).trans
        (hE.perm Str (systemLess m) (mapKeys m)).symm) h1 h2

theorem visiting_order_deterministic_witness :
    insertionEnv.Lawful ∧
    (classify insertionEnv [] threeSystems [] fallbackUrls).isSome ∧
    (systemFiles insertionEnv fallbackUrls [] threeSystems).map
        (fun m => (mapKeys m, insertionEnv.sortFunc Str (systemLess m) (mapKeys m))) =
      some (["windows/amd64".toList, "linux/amd64".toList, "darwin/amd64".toList],
        ["darwin/amd64".toList, "windows/amd64".toList, "linux/amd64".toList]) ∧
    ∃ m, systemFiles insertionEnv fallbackUrls [] threeSystems = some m ∧
      parseDownloads sampleMethods insertionEnv fallbackUrls "t".toList [] threeSystems =
        (placeSystems sampleMethods m "t".toList
          (insertionEnv.sortFunc Str (systemLess m) (mapKeys m)) []).map
          (insertionEnv.sortFunc depGroup moreFiles) ∧
      (insertionEnv.sortFunc Str (systemLess m) (mapKeys m)).Pairwise (visitsBefore m) ∧
      (∀ a b, visitsBefore m a b → ¬ visitsBefore m b a) ∧
      (∀ a ∈ mapKeys m, ∀ b ∈ mapKeys m, a ≠ b → visitsBefore m a b ∨ visitsBefore m b a) ∧
      ∀ (E' : Env), E'.Lawful → ∀ keys : List Str, keys.Perm (mapKeys m) →
        E'.sortFunc Str (systemLess m) keys =
          insertionEnv.sortFunc Str (systemLess m) (mapKeys m) :=
  ⟨insertionEnv_lawful, by decide, by decide,
    visiting_order_deterministic sampleMethods insertionEnv insertionEnv_lawful fallbackUrls
      "t".toList [] threeSystems (by decide)⟩

/-! ## Progress of the matcher derivation -/

theorem filter_length_lt {α : Type} (p : α → Bool) (l : List α) (h : ∃ x ∈ l, p x = true) :
    (l.filter (fun x => !p x)).length < l.length := by
  induction l with
  | nil => obtain ⟨x, hx, _⟩ := h; simp at hx
  | cons a l ih =>
    obtain ⟨x, hx, hp⟩ := h
    by_cases ha : p a = true
    · rw [List.filter_cons_of_neg (by simp [ha])]
      exact Nat.lt_succ_of_le (List.length_filter_le _ _)
    · have hpa : p a = false := by simpa using ha
      rw [List.filter_cons_of_pos (by simp [hpa])]
      rcases List.mem_cons.mp hx with h1 | h1
      · rw [h1] at hp; exact absurd hp ha
      · simp only [List.length_cons]
        exact Nat.succ_lt_succ (ih ⟨x, h1, hp⟩)

theorem filter_append_perm {α : Type} (p : α → Bool) (l : List α) :
    (l.filter p ++ l.filter (fun x => !p x)).Perm l := by
  induction l with
  | nil => exact List.Perm.refl _
  | cons a l ih =>
    cases hp : p a with
    | true =>
      rw [List.filter_cons_of_pos hp, List.filter_cons_of_neg (by simp [hp])]
      exact List.Perm.cons a ih
    | false =>
      rw [List.filter_cons_of_neg (by simp [hp]), List.filter_cons_of_pos (by simp [hp])]
      exact (List.perm_middle).trans (List.Perm.cons a ih)

theorem matcherRounds_returns (otherSystems : List Str)
    (hwo : ∀ d ∈ otherSystems, d.count '/' = 1) :
    ∀ (fuel : Nat) (systems : List Str), systems.length ≤ fuel →
      (∀ d ∈ systems, d.count '/' = 1) →
      ∃ rounds, matcherRounds fuel systems otherSystems = some rounds ∧
        rounds.length ≤ systems.length ∧
        (rounds.map Prod.snd).flatten.Perm systems ∧
        ∀ r ∈ rounds, r.2 ≠ [] := by
  intro fuel
  induction fuel with
  | zero =>
    intro systems hlen _
    have : systems = [] := List.length_eq_zero.mp (Nat.le_zero.mp hlen)
    subst this
    exact ⟨[], rfl, by simp, by simp, by simp⟩
  | succ fuel ih =>
    intro systems hlen hw
    cases systems with
    | nil => exact ⟨[], rfl, by simp, by simp, by simp⟩
    | cons s rest =>
      obtain ⟨matcher, hm, hex, _⟩ := systemsMatcher_spec (s :: rest) otherSystems hw hwo
      have hne : s :: rest ≠ [] := by simp
      have hlt := filter_length_lt (satisfies matcher) (s :: rest) (hex hne)
      obtain ⟨rounds, hr, hrl, hperm, hnon⟩ :=
        ih ((s :: rest).filter (fun x => !satisfies matcher x))
          (by simp only [List.length_cons] at hlen hlt ⊢; omega)
          (fun d hd => hw d (List.mem_filter.mp hd).1)
      refine ⟨(matcher, (s :: rest).filter (satisfies matcher)) :: rounds, ?_, ?_, ?_, ?_⟩
      · simp only [matcherRounds, hm, hr, Option.map_some']
      · simp only [List.length_cons] at hlt ⊢
        omega
      · simp only [List.map_cons, List.flatten_cons]
        exact (List.Perm.append_left _ hperm).trans (filter_append_perm _ _)
      · intro r hr'
        rcases List.mem_cons.mp hr' with h | h
        · rw [h]
          obtain ⟨x, hx, hp⟩ := hex hne
          exact List.ne_nil_of_mem (List.mem_filter.mpr ⟨hx, hp⟩)
        · exact hnon r h

/-- C25 (amended). Progress of the matcher derivation: for well-formed
systems and well-formed other systems, `systemsMatcher` returns
`matcherSystems` and `remainingSystems` that are the systems that pass a test
and the systems that fail it, each in the order of `systems`, so that every
element lands in exactly one of the two; `matcherSystems` is non-empty and
`remainingSystems` is strictly shorter than `systems` when `systems` is
non-empty; and applying `systemsMatcher` again and again to the remainder
ends after at most `len(systems)` rounds, each with a non-empty
`matcherSystems`, which together are the systems. -/
theorem matcher_progress (systems otherSystems : List Str)
    (hw : ∀ d ∈ systems, d.count '/' = 1) (hwo : ∀ d ∈ otherSystems, d.count '/' = 1) :
    (∃ matcher matcherSystems remainingSystems,
      systemsMatcher systems otherSystems = some (matcher, matcherSystems, remainingSystems) ∧
      (∃ p : Str → Bool, matcherSystems = systems.filter p ∧
        remainingSystems = systems.filter (fun s => !p s)) ∧
      (matcherSystems ++ remainingSystems).Perm systems ∧
      (systems ≠ [] → matcherSystems ≠ []) ∧
      (systems ≠ [] → remainingSystems.length < systems.length)) ∧
    ∃ rounds, matcherRounds systems.length systems otherSystems = some rounds ∧
      rounds.length ≤ systems.length ∧
      (rounds.map Prod.snd).flatten.Perm systems ∧
      ∀ r ∈ rounds, r.2 ≠ [] := by
  constructor
  · obtain ⟨matcher, hm, hex, _⟩ := systemsMatcher_spec systems otherSystems hw hwo
    refine ⟨matcher, _, _, hm, ⟨satisfies matcher, rfl, rfl⟩, filter_append_perm _ _, ?_, ?_⟩
    · intro hne
      obtain ⟨x, hx, hp⟩ := hex hne
      exact List.ne_nil_of_mem (List.mem_filter.mpr ⟨hx, hp⟩)
    · intro hne
      exact filter_length_lt _ _ (hex hne)
  · exact matcherRounds_returns otherSystems hwo systems.length systems (Nat.le_refl _) hw

theorem matcher_progress_witness :
    (∀ d ∈ fourSystems, d.count '/' = 1) ∧ (∀ d ∈ fourOthers, d.count '/' = 1) ∧
    ((∃ matcher matcherSystems remainingSystems,
      systemsMatcher fourSystems fourOthers = some (matcher, matcherSystems, remainingSystems) ∧
      (∃ p : Str → Bool, matcherSystems = fourSystems.filter p ∧
        remainingSystems = fourSystems.filter (fun s => !p s)) ∧
      (matcherSystems ++ remainingSystems).Perm fourSystems ∧
      (fourSystems ≠ [] → matcherSystems ≠ []) ∧
      (fourSystems ≠ [] → remainingSystems.length < fourSystems.length)) ∧
    ∃ rounds, matcherRounds fourSystems.length fourSystems fourOthers = some rounds ∧
      rounds.length ≤ fourSystems.length ∧
      (rounds.map Prod.snd).flatten.Perm fourSystems ∧
      ∀ r ∈ rounds, r.2 ≠ []) :=
  ⟨by decide, by decide, matcher_progress fourSystems fourOthers (by decide) (by decide)⟩

/-- C25, as stated, fails: the one system is well-formed, and for the other
system `linux`, which has no `/`, `systemsMatcher` panics in `parseDist`
and splits nothing; a round of the derivation does not end either. -/
theorem matcher_panics_on_other_system :
    (∀ d ∈ ["linux/amd64".toList], d.count '/' = 1) ∧
    parseDist "linux".toList = none ∧
    systemsMatcher ["linux/amd64".toList] ["linux".toList] = none ∧
    (matcherRounds 1 ["linux/amd64".toList] ["linux".toList]).isSome = false :=
  ⟨by decide, by decide, by decide, by decide⟩

end Builddep
